import Mathlib

/-!
# The change-hook pipeline (`command/input/change_hook.go`) and the scroll op
(`command/scroll/scroll.go`)

Namespace `scroll` embeds the `Scroller` of `scroll.go`: its structs live in an explicit memory,
the options and `Bind` allocate clones there, and `Exec` records its calls on the controller.

Namespace `input` is a shallow embedding of `editNode`, `hookReader` and the methods `init`,
`start`, `textChanged` and `processEdits`.  Memory is explicit: a heap of `editNode`s addressed by natural numbers, the two
atomically accessed cursors `next` (the head of the pending chain) and `last` (its tail), and the
heap cells of the variables that function literals capture.  Calls on the hook, on the driver and
on the condition variable are recorded as events.

Two semantics share the same primitive memory operations:

* a sequential one, in which each method runs from its first line to its return without any other
  goroutine in between (`textChanged`, `processEdits`, `init`, `exec`);
* an interleaving one (`System`, `step`, `run`), in which every atomic memory access of every
  goroutine is one step and a schedule picks the goroutine that moves next.  Go's `sync/atomic`
  operations are sequentially consistent, so interleavings of these steps are the executions.
-/

namespace input

/-! ## Data model -/

/-- Address of a heap object: an `editNode`, or a captured variable. -/
abbrev Ptr := Nat

/-- A `text.Editor` interface value, compared by identity (it is the key of the `editors` map);
`0` is the nil interface. -/
abbrev Editor := Nat

/-- Modelled from the spec: `text.Edit` is declared in `commander/text`, which is not among the
sources.  The spec gives an edit a position, the removed content and the inserted content; runes
are code points. -/
structure Edit where
  At : Int
  Old : List Nat
  New : List Nat
deriving DecidableEq, Repr

/-- The zero value `text.Edit{}`. -/
def Edit.zero : Edit := ⟨0, [], []⟩

/-- The struct `editNode`: an edit, the editor it happened in, and the `next` pointer
(`none` is nil). -/
structure editNode where
  edit : Edit
  editor : Editor
  next : Option Ptr
deriving DecidableEq, Repr

/-- The method `(*editNode).nextNode`: an atomic load of `next`. -/
def editNode.nextNode (e : editNode) : Option Ptr := e.next

/-- The heap of `editNode`s; the address of a node is its index. -/
abbrev Heap := List editNode

/-- The allocation `&editNode{...}`: the node is placed at the first unused address. -/
def Heap.alloc (h : Heap) (n : editNode) : Heap × Ptr := (h ++ [n], h.length)

/-- The store `atomic.StorePointer(&p.next, q)`. -/
def Heap.storeNext (h : Heap) (p : Ptr) (q : Option Ptr) : Heap :=
  match h[p]? with
  | some nd => h.set p { nd with next := q }
  | none => h

/-- The load `atomic.LoadPointer(&p.next)`. -/
def Heap.loadNext (h : Heap) (p : Ptr) : Option Ptr :=
  match h[p]? with
  | some nd => nd.nextNode
  | none => none

/-- The struct `hookReader`.  `next` and `last` are the two atomically accessed pointers; `cond`
records whether `r.cond` is non-nil.  The fields `driver` and `hook` are set when the reader is
built and never change: calls on them are recorded as events. -/
structure hookReader where
  next : Option Ptr
  last : Option Ptr
  cond : Bool
deriving DecidableEq, Repr

/-- The function literal that `processEdits` hands to `driver.Call` (lines 103-107).  Its only
free variable besides `r` is the range variable `e`, captured by reference: `cell` is the address
of that variable. -/
structure Closure where
  cell : Ptr
deriving DecidableEq, Repr

/-- The observable calls made by the code. -/
inductive Event where
  | hookInit (e : Editor) (text : List Nat)
  | hookTextChanged (e : Editor) (edit : Edit)
  | hookApply (e : Editor)
  | driverCall (f : Closure)
  | condSignal
  | logPrintf (e : Editor) (err : String)
deriving DecidableEq, Repr

/-- The `ChangeHook` a reader drives.  `Init` and `TextChanged` return nothing, so they are
events only; `Apply` returns an `error`, given here per editor (`none` is nil). -/
structure ChangeHook where
  Apply : Editor → Option String

/-- The memory the methods of one `hookReader` work on. -/
structure State where
  heap : Heap
  cells : List Editor
  r : hookReader
deriving DecidableEq, Repr

/-- What a call returns: the memory after it, the events it performed in order, and the `error`
it returned (`none` is nil). -/
structure Outcome where
  state : State
  trace : List Event
  err : Option String
deriving DecidableEq, Repr

/-- A `hookReader` that was just built and started: nothing queued, no node allocated. -/
def State.started : State := ⟨[], [], ⟨none, none, true⟩⟩

/-! ## `textChanged` -/

/-- The compare-and-swap `atomic.CompareAndSwapPointer(&r.next, nil, n)`. -/
def hookReader.casNext (r : hookReader) (n : Ptr) : hookReader × Bool :=
  match r.next with
  | none => ({ r with next := some n }, true)
  | some _ => (r, false)

/-- One pass through the body of the range loop of `textChanged` (lines 127-135) with the local
`l`: allocate `n`, store it in `l.next`, try to install it as the head and signal on success.
Returns the memory, the new `l` (which is `n`) and the events. -/
def appendEdit (s : State) (l : Ptr) (e : Editor) (edit : Edit) : State × Ptr × List Event :=
  let a := Heap.alloc s.heap { edit := edit, editor := e, next := none }
  let h := Heap.storeNext a.1 l (some a.2)
  let c := s.r.casNext a.2
  ({ s with heap := h, r := c.1 }, a.2, if c.2 then [Event.condSignal] else [])

/-- The range loop of `textChanged` (lines 126-136) over the remaining `changes`. -/
def appendLoop (s : State) (l : Ptr) (e : Editor) : List Edit → State × Ptr × List Event
  | [] => (s, l, [])
  | edit :: rest =>
    let a := appendEdit s l e edit
    let b := appendLoop a.1 a.2.1 e rest
    (b.1, b.2.1, a.2.2 ++ b.2.2)

/-- Lines 121-125 of `textChanged`: load `r.last`; when it is nil, `l` is a fresh zero node. -/
def loadLast (s : State) : State × Ptr :=
  match s.r.last with
  | some p => (s, p)
  | none =>
    let a := Heap.alloc s.heap { edit := Edit.zero, editor := 0, next := none }
    ({ s with heap := a.1 }, a.2)

/-- The method `(*hookReader).textChanged`, run without interruption. -/
def textChanged (s : State) (e : Editor) (changes : List Edit) : Outcome :=
  if changes.length = 0 then
    ⟨s, [], none⟩
  else
    let a := loadLast s
    let b := appendLoop a.1 a.2 e changes
    ⟨{ b.1 with r := { b.1.r with last := some b.2.1 } }, b.2.2, none⟩

/-! ## `processEdits` -/

/-- The statement `editors[next.editor] = struct{}{}`: the map is kept as the list of its keys
in order of first insertion. -/
def editorsInsert (editors : List Editor) (e : Editor) : List Editor :=
  if e ∈ editors then editors else editors ++ [e]

/-- The loop of lines 95-100, from `nextPtr`: call `TextChanged` on the node, add its editor to
the map, load its `next`.  Go's loop has no bound; `fuel` bounds the number of nodes visited and
`none` stands for a walk that has not ended within it (or that met a dangling pointer). -/
def walk : Nat → Heap → Option Ptr → List Editor → Option (List Event × List Editor)
  | _, _, none, editors => some ([], editors)
  | 0, _, some _, _ => none
  | fuel + 1, h, some p, editors =>
    match h[p]? with
    | none => none
    | some nd =>
      match walk fuel h nd.nextNode (editorsInsert editors nd.editor) with
      | none => none
      | some w => some (Event.hookTextChanged nd.editor nd.edit :: w.1, w.2)

/-- The order in which `for e := range editors` visits the keys.  Go leaves it unspecified; every
order is a permutation of the keys. -/
structure RangeOrder where
  order : List Editor → List Editor
  perm : ∀ l, (order l).Perm l

/-- Keys visited in order of first insertion. -/
def RangeOrder.insertion : RangeOrder := ⟨fun l => l, fun l => List.Perm.refl l⟩

/-- Keys visited in the opposite order. -/
def RangeOrder.reversed : RangeOrder := ⟨List.reverse, List.reverse_perm⟩

/-- The range loop of lines 102-108 over the keys still to visit.  The language version of this
repository (no go.mod; Go before 1.22) declares the variable `e` once for the whole loop: each
iteration assigns the key to the one variable at address `c` and hands `driver.Call` a function
literal that refers to it. -/
def dispatch (cells : List Editor) (c : Ptr) : List Editor → List Editor × List Event
  | [] => (cells, [])
  | k :: ks =>
    let d := dispatch (cells.set c k) c ks
    (d.1, Event.driverCall ⟨c⟩ :: d.2)

/-- The method `(*hookReader).processEdits` from the return of `r.cond.Wait()` (line 89) on, run
without interruption: lines 90-109.  The call `r.cond.Wait()` itself is not part of this
function: it blocks until a `Signal` arrives while the goroutine is waiting, which only another
goroutine can send, and is a step of the interleaving semantics (`WorkerPC.waiting`, `wake`).
What a drain delivers once the goroutine has been woken is stated through `worker_cycle`.  The
walk gets as much fuel as there are nodes on the heap. -/
def processEdits (ro : RangeOrder) (s : State) : Option Outcome :=
  match s.r.next with
  | none => some ⟨s, [], none⟩
  | some p =>
    match walk s.heap.length s.heap (some p) [] with
    | none => none
    | some w =>
      let d := dispatch (s.cells ++ [0]) s.cells.length (ro.order w.2)
      some ⟨{ s with cells := d.1, r := { s.r with next := none } }, w.1 ++ d.2, none⟩

/-- Running a function literal of `processEdits` on the UI goroutine: it reads the captured
variable, calls `Apply` on its value and logs a returned error. -/
def Closure.run (hook : ChangeHook) (cells : List Editor) (f : Closure) : List Event :=
  let e := cells.getD f.cell 0
  match hook.Apply e with
  | none => [Event.hookApply e]
  | some err => [Event.hookApply e, Event.logPrintf e err]

/-! ## `init` -/

/-- The method `(*hookReader).init`: `Init`, then `Apply` called directly; the error `Apply`
returns is dropped. -/
def init (s : State) (e : Editor) (text : List Nat) : State × List Event :=
  (s, [Event.hookInit e text, Event.hookApply e])

/-! ## Interleaving semantics -/

/-- Where a goroutine stands in `start` (lines 71-80). -/
inductive StarterPC where
  /-- Before line 72. -/
  | spawn
  /-- The condition is created and `go r.run()` is done; before `r.cond.Signal()` of line 79. -/
  | signal
  /-- Returned. -/
  | done
deriving DecidableEq, Repr

/-- Where a goroutine stands in a call of `textChanged`. -/
inductive ProducerPC where
  /-- Not inside a call. -/
  | idle
  /-- Line 127, with the local `l` and the edits still to range over (the first is `edit`). -/
  | link (e : Editor) (l : Ptr) (rest : List Edit)
  /-- Line 132: `n` is stored in `l.next`; before the compare-and-swap. -/
  | cas (e : Editor) (n : Ptr) (rest : List Edit)
  /-- Line 133: the compare-and-swap succeeded; before `r.cond.Signal()`. -/
  | signal (e : Editor) (n : Ptr) (rest : List Edit)
  /-- Line 137: the loop has ended; before the store of `l` in `r.last`. -/
  | storeLast (l : Ptr)
deriving DecidableEq, Repr

/-- A goroutine that reports edits: where it stands, and the calls of `textChanged` it has still
to make, in program order. -/
structure Producer where
  pc : ProducerPC
  calls : List (Editor × List Edit)
deriving DecidableEq, Repr

/-- Where the goroutine of `run` stands. -/
inductive WorkerPC where
  /-- At the top of the loop of `run`, before `r.cond.Wait()` of line 89. -/
  | idle
  /-- Inside `r.cond.Wait()`, on the notify list of the condition. -/
  | waiting
  /-- `Wait` has returned; before the load of `r.next` of line 90. -/
  | loadHead
  /-- Lines 96-99 for the node at `p`, with the keys of `editors` so far. -/
  | visit (p : Ptr) (editors : List Editor)
  /-- Line 101: the walk has read a nil `next`; before the store of nil in `r.next`. -/
  | reset (editors : List Editor)
  /-- Lines 102-108, with the address of the range variable and the keys still to visit. -/
  | dispatch (c : Ptr) (keys : List Editor)
deriving DecidableEq, Repr

/-- The goroutines of one `hookReader` and the memory they share: the goroutine that calls
`start`, the goroutine of `run` once spawned, the producers, and the UI goroutine with the queue
of functions `driver.Call` has accepted.  `trace` is the global order of events. -/
structure System where
  mem : State
  starter : StarterPC
  worker : Option WorkerPC
  producers : List Producer
  uiQueue : List Closure
  trace : List Event
deriving DecidableEq, Repr

/-- A goroutine of the system. -/
inductive Tid where
  | starter
  | worker
  | producer (i : Nat)
  | ui
deriving DecidableEq, Repr

/-- The effect of `r.cond.Signal()` on the goroutine of `run`, the only goroutine that ever
waits on `r.cond`: `sync.Cond.Signal` wakes one goroutine waiting on the condition, if there is
any; otherwise nothing happens and the signal is not remembered. -/
def wake (w : Option WorkerPC) : Option WorkerPC :=
  match w with
  | some WorkerPC.waiting => some WorkerPC.loadHead
  | other => other

/-- One step of `start`. -/
def stepStarter (sys : System) : System :=
  match sys.starter with
  | StarterPC.spawn =>
    if sys.mem.r.cond then
      { sys with starter := StarterPC.done }
    else
      { sys with
        mem := { sys.mem with r := { sys.mem.r with cond := true } }
        worker := some WorkerPC.idle
        starter := StarterPC.signal }
  | StarterPC.signal =>
    { sys with
      worker := wake sys.worker
      trace := sys.trace ++ [Event.condSignal]
      starter := StarterPC.done }
  | StarterPC.done => sys

/-- Where `textChanged` goes after line 135 (`l = n`): to the next edit, or out of the loop. -/
def afterEdit (e : Editor) (n : Ptr) (rest : List Edit) : ProducerPC :=
  match rest with
  | [] => ProducerPC.storeLast n
  | _ :: _ => ProducerPC.link e n rest

/-- One step of a goroutine inside or about to enter `textChanged`: one access to shared memory,
with the local computation that precedes it.  Returns the memory, the goroutine afterwards, and
whether the step was the call `r.cond.Signal()`. -/
def Producer.step (mem : State) (p : Producer) : State × Producer × Bool :=
  match p.pc with
  | ProducerPC.idle =>
    match p.calls with
    | [] => (mem, p, false)
    | (e, changes) :: calls =>
      if changes.length = 0 then
        (mem, ⟨ProducerPC.idle, calls⟩, false)
      else
        let a := loadLast mem
        (a.1, ⟨ProducerPC.link e a.2 changes, calls⟩, false)
  | ProducerPC.link e l rest =>
    match rest with
    | [] => (mem, ⟨ProducerPC.storeLast l, p.calls⟩, false)
    | edit :: rest =>
      let a := Heap.alloc mem.heap { edit := edit, editor := e, next := none }
      ({ mem with heap := Heap.storeNext a.1 l (some a.2) }, ⟨ProducerPC.cas e a.2 rest, p.calls⟩,
        false)
  | ProducerPC.cas e n rest =>
    let c := mem.r.casNext n
    ({ mem with r := c.1 },
      ⟨if c.2 then ProducerPC.signal e n rest else afterEdit e n rest, p.calls⟩, false)
  | ProducerPC.signal e n rest => (mem, ⟨afterEdit e n rest, p.calls⟩, true)
  | ProducerPC.storeLast l =>
    ({ mem with r := { mem.r with last := some l } }, ⟨ProducerPC.idle, p.calls⟩, false)

/-- One step of producer `i` in the system. -/
def stepProducer (sys : System) (i : Nat) : System :=
  match sys.producers[i]? with
  | none => sys
  | some p =>
    let x := p.step sys.mem
    { sys with
      mem := x.1
      producers := sys.producers.set i x.2.1
      worker := if x.2.2 then wake sys.worker else sys.worker
      trace := if x.2.2 then sys.trace ++ [Event.condSignal] else sys.trace }

/-- Where `processEdits` goes after an iteration of the range loop of lines 102-108. -/
def afterCall (c : Ptr) (keys : List Editor) : WorkerPC :=
  match keys with
  | [] => WorkerPC.idle
  | _ :: _ => WorkerPC.dispatch c keys

/-- One step of the goroutine of `run`.  A waiting goroutine does not move: only a `Signal`
takes it out of `Wait`. -/
def stepWorker (ro : RangeOrder) (sys : System) : System :=
  match sys.worker with
  | none => sys
  | some WorkerPC.idle => { sys with worker := some WorkerPC.waiting }
  | some WorkerPC.waiting => sys
  | some WorkerPC.loadHead =>
    match sys.mem.r.next with
    | none => { sys with worker := some WorkerPC.idle }
    | some p => { sys with worker := some (WorkerPC.visit p []) }
  | some (WorkerPC.visit p editors) =>
    match sys.mem.heap[p]? with
    | none => sys
    | some nd =>
      { sys with
        trace := sys.trace ++ [Event.hookTextChanged nd.editor nd.edit]
        worker := some (match nd.nextNode with
          | some q => WorkerPC.visit q (editorsInsert editors nd.editor)
          | none => WorkerPC.reset (editorsInsert editors nd.editor)) }
  | some (WorkerPC.reset editors) =>
    { sys with
      mem := { sys.mem with cells := sys.mem.cells ++ [0], r := { sys.mem.r with next := none } }
      worker := some (afterCall sys.mem.cells.length (ro.order editors)) }
  | some (WorkerPC.dispatch c keys) =>
    match keys with
    | [] => { sys with worker := some WorkerPC.idle }
    | k :: ks =>
      { sys with
        mem := { sys.mem with cells := sys.mem.cells.set c k }
        uiQueue := sys.uiQueue ++ [⟨c⟩]
        trace := sys.trace ++ [Event.driverCall ⟨c⟩]
        worker := some (afterCall c ks) }

/-- Modelled from the spec: the dispatch queue behind `driver.Call` belongs to package gxui, which
is not among the sources.  The spec has it accept a function and run it later on the single UI
goroutine, in the order of submission and never synchronously from the submitting goroutine.  One
step of the UI goroutine takes the oldest function of the queue and runs it. -/
def stepUI (hook : ChangeHook) (sys : System) : System :=
  match sys.uiQueue with
  | [] => sys
  | f :: q => { sys with uiQueue := q, trace := sys.trace ++ f.run hook sys.mem.cells }

/-- One step of the goroutine the schedule picks. -/
def step (ro : RangeOrder) (hook : ChangeHook) (sys : System) : Tid → System
  | Tid.starter => stepStarter sys
  | Tid.worker => stepWorker ro sys
  | Tid.producer i => stepProducer sys i
  | Tid.ui => stepUI hook sys

/-- The execution a schedule describes. -/
def run (ro : RangeOrder) (hook : ChangeHook) (sys : System) (schedule : List Tid) : System :=
  schedule.foldl (step ro hook) sys

/-- The system before `start`: a zero `hookReader`, and producers with their programs. -/
def System.boot (programs : List (List (Editor × List Edit))) : System :=
  { mem := ⟨[], [], ⟨none, none, false⟩⟩
    starter := StarterPC.spawn
    worker := none
    producers := programs.map (fun calls => ⟨ProducerPC.idle, calls⟩)
    uiQueue := []
    trace := [] }

/-- The system once `start` has returned and before the goroutine of `run` has moved: the
condition exists, the queue is empty, the producers have made no call yet. -/
def System.started (programs : List (List (Editor × List Edit))) : System :=
  { mem := State.started
    starter := StarterPC.done
    worker := some WorkerPC.idle
    producers := programs.map (fun calls => ⟨ProducerPC.idle, calls⟩)
    uiQueue := []
    trace := [Event.condSignal] }

/-- Steps of producer `i` until its call returns, at most `fuel` of them. -/
def finishCall : Nat → System → Nat → System
  | 0, sys, _ => sys
  | fuel + 1, sys, i =>
    match sys.producers[i]? with
    | none => sys
    | some p => if p.pc = ProducerPC.idle then sys else finishCall fuel (stepProducer sys i) i

/-- Producer `i` makes its next call of `textChanged` and runs it to its return while no other
goroutine moves: the step that enters the call, then at most three steps per edit and the final
store.  A producer with no call left does nothing. -/
def System.call (sys : System) (i : Nat) : System :=
  match sys.producers[i]? with
  | some ⟨ProducerPC.idle, (_, changes) :: _⟩ =>
    finishCall (3 * changes.length + 1) (stepProducer sys i) i
  | _ => sys

/-- A serialized append path: the producers named by `order` make their next call one after the
other, each call running to its return before the next begins. -/
def serial (sys : System) (order : List Nat) : System := order.foldl System.call sys

/-- The calls a serialized append path makes, each with the producer that makes it, in order:
every entry of `order` takes the next call of that producer's program. -/
def callsOf : List (List (Editor × List Edit)) → List Nat → List (Nat × Editor × List Edit)
  | _, [] => []
  | programs, i :: order =>
    match programs[i]? with
    | some (c :: cs) => (i, c) :: callsOf (programs.set i cs) order
    | _ => callsOf programs order

/-- The calls the producers have still to make after a serialized append path. -/
def programsAfter : List (List (Editor × List Edit)) → List Nat → List (List (Editor × List Edit))
  | programs, [] => programs
  | programs, i :: order =>
    match programs[i]? with
    | some (_ :: cs) => programsAfter (programs.set i cs) order
    | _ => programsAfter programs order

/-- A hook whose `Apply` never fails. -/
def ChangeHook.ok : ChangeHook := ⟨fun _ => none⟩

/-- The schedule in which goroutine `t` makes `n` steps in a row. -/
def burst (t : Tid) (n : Nat) : List Tid := List.replicate n t

/-! ## Sequential schedules -/

/-- A call made on the reader.  `processEdits` stands for a drain cycle: the call from the return
of its `Wait` on, the goroutine having been woken. -/
inductive Op where
  | textChanged (e : Editor) (changes : List Edit)
  | processEdits
deriving DecidableEq, Repr

/-- Run the calls one after the other, each drain cycle from the return of its `Wait` on; the
result lists the trace of each call.  The states reached this way are those the queue can be in
between calls that do not overlap. -/
def exec (ro : RangeOrder) : State → List Op → Option (State × List (List Event))
  | s, [] => some (s, [])
  | s, Op.textChanged e changes :: ops =>
    let o := textChanged s e changes
    match exec ro o.state ops with
    | none => none
    | some x => some (x.1, o.trace :: x.2)
  | s, Op.processEdits :: ops =>
    match processEdits ro s with
    | none => none
    | some o =>
      match exec ro o.state ops with
      | none => none
      | some x => some (x.1, o.trace :: x.2)

/-- The `(editor, edit)` pairs of the `TextChanged` calls of a trace, in order. -/
def delivered : List Event → List (Editor × Edit)
  | [] => []
  | Event.hookTextChanged e edit :: tr => (e, edit) :: delivered tr
  | _ :: tr => delivered tr

/-- The closures a trace hands to `driver.Call`, in order. -/
def dispatched : List Event → List Closure
  | [] => []
  | Event.driverCall f :: tr => f :: dispatched tr
  | _ :: tr => dispatched tr

/-- The editors `Apply` is called on in a trace, in order. -/
def applied : List Event → List Editor
  | [] => []
  | Event.hookApply e :: tr => e :: applied tr
  | _ :: tr => applied tr

/-- The number of `Signal` calls in a trace. -/
def signals (tr : List Event) : Nat := tr.count Event.condSignal

/-! ## The pending chain -/

/-- The predicate `Chain h p ps q`: following `next` from the pointer `p` on the heap `h` visits
exactly the addresses `ps`, in this order, and then reaches nil; `q` lists the editor and the edit
of the visited nodes.  Every link leads to a higher address. -/
inductive Chain (h : Heap) : Option Nat → List Nat → List (Editor × Edit) → Prop where
  | nil : Chain h none [] []
  | cons {p : Nat} {nd : editNode} {ps : List Nat} {q : List (Editor × Edit)} :
      h[p]? = some nd → (∀ x : Nat, nd.next = some x → p < x) → Chain h nd.next ps q →
      Chain h (some p) (p :: ps) ((nd.editor, nd.edit) :: q)

/-- The chain that starts at the node `a` ends at the node `l` and carries the edits `q`. -/
def Seg (h : Heap) (a l : Nat) (q : List (Editor × Edit)) : Prop :=
  ∃ ps, Chain h (some a) ps q ∧ ps.getLast? = some l

/-- What the local `l` of `textChanged` is to the queue whose head is `head` and whose pending
edits are `q`: a node whose `next` is nil, and, when the head is not nil, the end of the chain
from the head. -/
def Tail (h : Heap) (head : Option Nat) (l : Nat) (q : List (Editor × Edit)) : Prop :=
  match head with
  | none => q = [] ∧ ∃ nd, h[l]? = some nd ∧ nd.next = none
  | some hd => Seg h hd l q

/-- The invariant of the queue between calls, for the pending edits `q`: before the first
append both cursors are nil; afterwards `last` is the tail of the chain. -/
def Inv (s : State) (q : List (Editor × Edit)) : Prop :=
  match s.r.last with
  | none => s.r.next = none ∧ q = []
  | some l => Tail s.heap s.r.next l q

/-- The edits a batch of `textChanged` appends, each with the editor of the call. -/
def batch (e : Editor) (changes : List Edit) : List (Editor × Edit) :=
  changes.map (fun edit => (e, edit))

/-- The edit that inserts the rune `r` at position `pos` and removes nothing. -/
def Edit.ins (pos : Int) (r : Nat) : Edit := ⟨pos, [], [r]⟩

/-- A sequence of `textChanged` calls with no other call in between: the memory after them. -/
def textChangedAll (s : State) (calls : List (Editor × List Edit)) : State :=
  calls.foldl (fun s c => (textChanged s c.1 c.2).state) s

/-- The edits a sequence of `textChanged` calls appends: the batches in call order. -/
def batches (calls : List (Editor × List Edit)) : List (Editor × Edit) :=
  (calls.map (fun c => batch c.1 c.2)).flatten

/-- The edits the `textChanged` calls of a schedule append, in order. -/
def appended : List Op → List (Editor × Edit)
  | [] => []
  | Op.textChanged e changes :: ops => batch e changes ++ appended ops
  | Op.processEdits :: ops => appended ops

/-- The calls of a schedule that are followed by a `processEdits`, with that call: the schedule
up to its last drain. -/
def beforeLastDrain : List Op → List Op
  | [] => []
  | op :: ops => if Op.processEdits ∈ op :: ops then op :: beforeLastDrain ops else []

/-- The queue as the spec describes it: appending puts edits at the end of the pending sequence; a
drain delivers the pending sequence in order and leaves it empty.  For each call of a schedule,
the edits it delivers to `TextChanged`, given the pending edits `q` before it. -/
def fifo : List (Editor × Edit) → List Op → List (List (Editor × Edit))
  | _, [] => []
  | q, Op.textChanged e changes :: ops => [] :: fifo (q ++ batch e changes) ops
  | q, Op.processEdits :: ops => q :: fifo [] ops

/-- The event of `TextChanged` for a pending edit. -/
def Event.ofEdit (x : Editor × Edit) : Event := Event.hookTextChanged x.1 x.2

/-- The keys of `editors` after the edits `q` have been walked. -/
def touched (editors : List Editor) (q : List (Editor × Edit)) : List Editor :=
  q.foldl (fun eds x => editorsInsert eds x.1) editors

/-! ## Serialized producers, and the schedules of four scenarios -/

/-- The program of producer `j`: its calls in order; empty for a `j` that names no producer. -/
def programOf (programs : List (List (Editor × List Edit))) (j : Nat) : List (Editor × List Edit) :=
  (programs[j]?).getD []

/-- The number of edits all calls of all programs append. -/
def totalEdits (programs : List (List (Editor × List Edit))) : Nat :=
  (programs.map (fun cs => (batches cs).length)).sum

/-- A producer that is not inside a call and has the calls `calls` still to make. -/
def Producer.waitingWith (calls : List (Editor × List Edit)) : Producer := ⟨ProducerPC.idle, calls⟩

/-- The states from which the goroutine of `run` is never woken: it is inside `Wait`, the head is
not nil (so no compare-and-swap of a producer can succeed), `start` has returned, and no producer
stands before a `Signal`. -/
def Stuck (sys : System) : Prop :=
  sys.worker = some WorkerPC.waiting ∧ sys.mem.r.next ≠ none ∧ sys.starter = StarterPC.done ∧
    ∀ p ∈ sys.producers, ∀ e n rest, p.pc ≠ ProducerPC.signal e n rest

/-- The states in which nothing but the UI goroutine can move: the goroutine of `run` is inside
`Wait`, `start` has returned, and every producer has returned from its last call. -/
def Quiet (sys : System) : Prop :=
  sys.worker = some WorkerPC.waiting ∧ sys.starter = StarterPC.done ∧
    ∀ p ∈ sys.producers, p = ⟨ProducerPC.idle, []⟩

/-- A schedule from `System.boot` with one producer: `start` creates the condition and spawns
`run`; the goroutine of `run` enters `Wait`, is woken by the `Signal` of `start`, finds the head
nil and is back at the top of its loop; the producer makes its first call of `textChanged` from
entry to return (five steps when the head is nil and the list has one edit); only then does the
goroutine of `run` enter `Wait` again. -/
def lostWakeup : List Tid :=
  [Tid.starter, Tid.worker, Tid.starter, Tid.worker] ++ burst (Tid.producer 0) 5 ++ [Tid.worker]

/-- One producer that reports three edits of editor 1 in three calls. -/
def raceProgram : List (List (Editor × List Edit)) :=
  [[(1, [Edit.ins 0 97]), (1, [Edit.ins 1 98]), (1, [Edit.ins 2 99])]]

/-- From `System.started raceProgram`: the goroutine of `run` enters `Wait`; the first call
appends its edit and wakes it; `processEdits` loads the head, calls `TextChanged` for the one
node and loads its nil `next`.  It now stands before the store of line 101. -/
def raceBeforeReset : System :=
  run RangeOrder.insertion ChangeHook.ok (System.started raceProgram)
    ([Tid.worker] ++ burst (Tid.producer 0) 5 ++ burst Tid.worker 2)

/-- The second call of `textChanged` runs from entry to return while `processEdits` stands
before line 101. -/
def raceAppended : System :=
  run RangeOrder.insertion ChangeHook.ok raceBeforeReset (burst (Tid.producer 0) 4)

/-- Then `processEdits` stores nil in the head, dispatches and returns, and the goroutine of
`run` enters `Wait`; the third call appends its edit and wakes it; a whole drain cycle follows
and the goroutine is in `Wait` again. -/
def raceEnd : System :=
  run RangeOrder.insertion ChangeHook.ok raceAppended
    (burst Tid.worker 3 ++ burst (Tid.producer 0) 5 ++ burst Tid.worker 5)

/-- One producer that reports an edit of editor 1 and then an edit of editor 2. -/
def twoEditors : List (List (Editor × List Edit)) :=
  [[(1, [Edit.ins 0 97]), (2, [Edit.ins 0 98])]]

/-- From `System.started twoEditors`: the goroutine of `run` enters `Wait`, the producer makes
both calls, one drain cycle runs to its end, and only then does the UI goroutine run the two
functions it was handed. -/
def callbacksAfterLoop : List Tid :=
  [Tid.worker] ++ burst (Tid.producer 0) 9 ++ burst Tid.worker 6 ++ burst Tid.ui 2

/-- The same, except that the UI goroutine runs each function before the range loop of
`processEdits` goes on to its next iteration. -/
def callbacksAtOnce : List Tid :=
  [Tid.worker] ++ burst (Tid.producer 0) 9 ++ burst Tid.worker 5 ++ [Tid.ui, Tid.worker, Tid.ui]

/-- Two producers with one call of one edit each. -/
def twoProducers : List (List (Editor × List Edit)) :=
  [[(1, [Edit.ins 0 97])], [(2, [Edit.ins 0 98])]]

/-- Two overlapping calls: both producers load the nil `r.last` before either stores to it;
then producer 0 runs to its return, then producer 1. -/
def overlapping : List Tid :=
  [Tid.producer 0, Tid.producer 1] ++ burst (Tid.producer 0) 4 ++ burst (Tid.producer 1) 3

/-! ## `start`, run without interruption -/

/-- The calls `start` makes on the mutex, on the condition and on the scheduler. -/
inductive StartCall where
  /-- The call `mu.Lock()` of line 76. -/
  | mutexLock
  /-- The call `sync.NewCond(mu)` of line 77, whose result is stored in `r.cond`. -/
  | newCond
  /-- The statement `go r.run()` of line 78: a goroutine running the loop of `run` is spawned. -/
  | goRun
  /-- The call `r.cond.Signal()` of line 79. -/
  | condSignal
deriving DecidableEq, Repr

/-- The method `(*hookReader).start`, run from entry to return: nothing when `r.cond` is not
nil; otherwise the mutex is locked, the condition created and stored, `run` spawned and the
condition signalled. -/
def start (r : hookReader) : hookReader × List StartCall :=
  if r.cond then
    (r, [])
  else
    ({ r with cond := true },
      [StartCall.mutexLock, StartCall.newCond, StartCall.goRun, StartCall.condSignal])

/-- The reader and the calls made after `n` calls of `start` one after the other. -/
def startTimes : Nat → hookReader → hookReader × List StartCall
  | 0, r => (r, [])
  | n + 1, r =>
    let a := start r
    let b := startTimes n a.1
    (b.1, a.2 ++ b.2)

/-- A `hookReader` as the composite literal builds it: both pointers nil, `cond` nil. -/
def hookReader.zero : hookReader := ⟨none, none, false⟩

/-! ## The stores into `next` fields -/

/-- One execution of `atomic.StorePointer(&l.next, unsafe.Pointer(n))` (line 131): the node
written, the value its `next` held just before, and the address stored. -/
structure NextStore where
  target : Nat
  found : Option Nat
  stored : Nat
deriving DecidableEq, Repr

/-- The stores of line 131 made by the range loop of `textChanged`, in order: each iteration
allocates `n` and stores it in `l.next`. -/
def appendLoopStores (s : State) (l : Ptr) (e : Editor) : List Edit → List NextStore
  | [] => []
  | edit :: rest =>
    ⟨l, Heap.loadNext (Heap.alloc s.heap { edit := edit, editor := e, next := none }).1 l,
        (Heap.alloc s.heap { edit := edit, editor := e, next := none }).2⟩ ::
      appendLoopStores (appendEdit s l e edit).1 (appendEdit s l e edit).2.1 e rest

/-- The stores into `next` fields made by one call of `textChanged`. -/
def textChangedStores (s : State) (e : Editor) (changes : List Edit) : List NextStore :=
  if changes.length = 0 then [] else appendLoopStores (loadLast s).1 (loadLast s).2 e changes

/-- The stores into `next` fields made by a sequential schedule.  `processEdits` contains no
store to a `next` field (line 101 stores to `r.next`, the head), so it adds none. -/
def execStores (ro : RangeOrder) : State → List Op → List NextStore
  | _, [] => []
  | s, Op.textChanged e changes :: ops =>
    textChangedStores s e changes ++ execStores ro (textChanged s e changes).state ops
  | s, Op.processEdits :: ops =>
    match processEdits ro s with
    | none => []
    | some o => execStores ro o.state ops

/-- The predicate `Linked l ws`: starting with the tail `l`, every store of `ws` writes the node
that is the tail at that moment, finds nil there, and stores a higher address, which is the tail
from then on. -/
def Linked : Nat → List NextStore → Prop
  | _, [] => True
  | l, w :: ws => w.target = l ∧ w.found = none ∧ w.target < w.stored ∧ Linked w.stored ws

/-- The tail after the stores `ws`, when it was `l` before them. -/
def tailAfter (l : Nat) (ws : List NextStore) : Nat :=
  match ws.getLast? with
  | some w => w.stored
  | none => l

/-! ## Errors of `Apply`, and the functions waiting at `driver.Call` -/

/-- The trace without the lines the function literals of `processEdits` log. -/
def unlogged : List Event → List Event
  | [] => []
  | Event.logPrintf _ _ :: tr => unlogged tr
  | ev :: tr => ev :: unlogged tr

/-- The lines of a trace that `log.Printf` wrote: the editor and the error of each. -/
def logged : List Event → List (Editor × String)
  | [] => []
  | Event.logPrintf e err :: tr => (e, err) :: logged tr
  | _ :: tr => logged tr

/-- The system with the log lines taken out of its trace. -/
def System.unlogged (sys : System) : System := { sys with trace := input.unlogged sys.trace }

/-- The `Apply` calls of a trace that return an error under `hook`, each with that error. -/
def failures (hook : ChangeHook) (tr : List Event) : List (Editor × String) :=
  (applied tr).filterMap (fun e => (hook.Apply e).map (fun err => (e, err)))

/-- A hook whose `Apply` returns an error for the editor `E` and nil for every other editor. -/
def ChangeHook.failing (E : Editor) : ChangeHook :=
  ⟨fun e => if e = E then some "apply failed" else none⟩

/-- One producer that reports an edit of editor 1 in each of two calls. -/
def retryProgram : List (List (Editor × List Edit)) :=
  [[(1, [Edit.ins 0 97]), (1, [Edit.ins 1 98])]]

/-- From `System.started retryProgram`: the goroutine of `run` enters `Wait`; the first call
appends its edit and wakes it; a drain cycle runs to its end and the UI goroutine runs the
function it was handed; then the same again for the second call. -/
def retrySchedule : List Tid :=
  [Tid.worker] ++ burst (Tid.producer 0) 5 ++ burst Tid.worker 5 ++ [Tid.ui] ++
    burst (Tid.producer 0) 5 ++ burst Tid.worker 5 ++ [Tid.ui]

/-- The functions `driver.Call` has accepted and the UI goroutine has not run yet are the
functions handed over so far without the first ones, as many as `Apply` has been called. -/
def Queued (sys : System) : Prop :=
  sys.uiQueue = (dispatched sys.trace).drop (applied sys.trace).length ∧
    (applied sys.trace).length ≤ (dispatched sys.trace).length

/-! ## Wake-ups by producers, and two more scenarios -/

/-- What steps of producers do to the rest of the system between `sys` and `sys2`: they add
only `Signal` events to the trace, the goroutine of `run` is woken if there is any, and the
goroutine of `start` and the queue of the UI goroutine are as they were. -/
def Signalled (sys sys2 : System) : Prop :=
  sys2.starter = sys.starter ∧ sys2.uiQueue = sys.uiQueue ∧
    ∃ evs, sys2.trace = sys.trace ++ evs ∧
      sys2.worker = if evs = [] then sys.worker else wake sys.worker

/-- From `System.started raceProgram`: the goroutine of `run` calls `processEdits` and is inside
`Wait`; the first call of `textChanged` appends its edit and wakes it; `processEdits` delivers
the edit, hands one function to `driver.Call` and returns. -/
def afterFirstDrain : System :=
  run RangeOrder.insertion ChangeHook.ok (System.started raceProgram)
    ([Tid.worker] ++ burst (Tid.producer 0) 5 ++ burst Tid.worker 4)

/-- Then the second call of `textChanged` runs from entry to return, and only after it has
returned does the goroutine of `run` call `processEdits` again. -/
def secondDrainBegun : System :=
  run RangeOrder.insertion ChangeHook.ok afterFirstDrain (burst (Tid.producer 0) 5 ++ [Tid.worker])

/-- From `System.started twoProducers`: the goroutine of `run` is inside `Wait` first; then the
two calls overlap as in `overlapping`; then the goroutine of `run`, woken by the one `Signal`,
runs a drain cycle and is inside `Wait` again. -/
def overlappingDrained : System :=
  run RangeOrder.insertion ChangeHook.ok (System.started twoProducers)
    ([Tid.worker] ++ overlapping ++ burst Tid.worker 5)

end input

namespace scroll

/-! ## Data model of `scroll.go` -/

/-- The type `Direction`, an `int`. -/
abbrev Direction := Int

/-- The constant `NoDirection`, the first of the `iota` block. -/
def NoDirection : Direction := 0

/-- The constant `Up`, the second of the `iota` block. -/
def Up : Direction := 1

/-- A non-nil value of the interface `bind.Bindable` handed to `Bind`: what its `Name` method
returns, and whether its dynamic type has the method `Scrolled`, which is whether the type
assertion `b.(ScrolledHook)` of line 127 succeeds.  `ident` tells values apart. -/
structure Bindable where
  ident : Nat
  name : String
  scrolledHook : Bool
deriving DecidableEq, Repr

/-- A non-nil value of the interface `Controller`, given by the answers it returns to the two
queries `Exec` makes of it, `StartOffset()` and `LineIndex(pos)`.  `Exec` makes each query at most
once, so the answers may depend on whatever was done to the controller before. -/
structure Controller where
  StartOffset : Int
  LineIndex : Int → Int

/-- The struct `Scroller`.  The slice `scrolled` is kept as the list of the elements it shows;
the interface fields `editor` and `ctrl` are `none` when nil. -/
structure Scroller where
  pos : Int
  line : Int
  offset : Bool
  dir : Direction
  scrolled : List Bindable
  editor : Option Nat
  ctrl : Option Controller

/-- The `Scroller` values allocated so far; a `*Scroller` is an index into the list, and an index
beyond it stands for nil. -/
abbrev Mem := List Scroller

/-- A store through a `*Scroller`: `f` applied to the struct at `p`. -/
def Mem.update (m : Mem) (p : Nat) (f : Scroller → Scroller) : Mem :=
  match m[p]? with
  | none => m
  | some x => m.set p (f x)

/-- The type `Opt`, a `func(*Scroller) *Scroller`: from the memory and the argument to the memory
and the result; `none` is a panic. -/
abbrev Opt := Mem → Nat → Option (Mem × Nat)

/-- The loop of lines 54-56: every element of `s.scrolled` is appended to `clone.scrolled`. -/
def appendAll (scrolled : List Bindable) : List Bindable → List Bindable
  | [] => scrolled
  | h :: hs => appendAll (scrolled ++ [h]) hs

/-- The function `clone`: a new struct with the fields of `s`, its `scrolled` set to `s.scrolled`
at line 50 and then extended by the loop of lines 54-56.  Dereferencing a nil `s` panics. -/
def clone (m : Mem) (s : Nat) : Option (Mem × Nat) :=
  match m[s]? with
  | none => none
  | some x =>
    some (m ++ [{ pos := x.pos, line := x.line, offset := x.offset, dir := x.dir,
                  scrolled := appendAll x.scrolled x.scrolled, editor := x.editor,
                  ctrl := x.ctrl }], m.length)

/-- The option `ToLine(line)`. -/
def ToLine (line : Int) : Opt := fun m s =>
  match clone m s with
  | none => none
  | some c =>
    some (Mem.update c.1 c.2
      (fun x => { x with line := line, pos := -1, offset := false, dir := NoDirection }), c.2)

/-- The option `ToRune(pos, dir)`. -/
def ToRune (pos : Int) (dir : Direction) : Opt := fun m s =>
  match clone m s with
  | none => none
  | some c =>
    some (Mem.update c.1 c.2
      (fun x => { x with line := -1, pos := pos, offset := false, dir := dir }), c.2)

/-- The option `ToOldOffset()`. -/
def ToOldOffset : Opt := fun m s =>
  match clone m s with
  | none => none
  | some c =>
    some (Mem.update c.1 c.2
      (fun x => { x with line := -1, pos := -1, offset := true, dir := NoDirection }), c.2)

/-- The method `For`: the options applied one after the other, each to the result of the one
before. -/
def For (m : Mem) (s : Nat) : List Opt → Option (Mem × Nat)
  | [] => some (m, s)
  | o :: opts =>
    match o m s with
    | none => none
    | some c => For c.1 c.2 opts

/-- What `Bind` returns: the `bind.HookedMultiOp` (`none` is nil) and the `error` (`none` is
nil). -/
structure Bound where
  op : Option Nat
  err : Option String
deriving DecidableEq, Repr

/-- The method `Bind`: the clone is made first; when the assertion succeeds the hook is appended
to the clone's `scrolled` and the clone is returned, otherwise the clone is dropped and the
error of line 131 is returned. -/
def Bind (m : Mem) (s : Nat) (b : Bindable) : Option (Mem × Bound) :=
  match clone m s with
  | none => none
  | some c =>
    if b.scrolledHook then
      some (Mem.update c.1 c.2 (fun x => { x with scrolled := x.scrolled ++ [b] }),
        ⟨some c.2, none⟩)
    else
      some (c.1, ⟨none, some ("hook " ++ b.name ++ " does not implement ScrolledHook")⟩)

/-- A call `Exec` makes on the controller. -/
inductive CtrlCall where
  | ScrollToLine (line : Int)
  | ScrollToRune (pos : Int)
  | SetScrollOffset (offset : Int)
  | StartOffset
  | LineIndex (pos : Int)
deriving DecidableEq, Repr

/-- How a call of `Exec` ends: it returns an `error` (`none` is nil), or it panics. -/
inductive Ended where
  | returned (err : Option String)
  | panicked
deriving DecidableEq, Repr

/-- The width of an `int` on the platforms the program is built for. -/
def intSize : Nat := 64

/-- The value an `int` holds after an arithmetic operation whose exact result is `x`: the result
wraps around. -/
def wrapInt (x : Int) : Int := (x + 2 ^ (intSize - 1)) % 2 ^ intSize - 2 ^ (intSize - 1)

/-- Modelled from the spec: `math.Max` belongs to package gxui/math, which is not among the
sources; the claims read it as the larger of its two arguments. -/
def Max (a b : Int) : Int := if a < b then b else a

/-- The method `Exec` on the struct `s` points to: the calls it makes on the controller, in
order, and how it ends.  A method call on a nil `s.ctrl` panics. -/
def Scroller.Exec (s : Scroller) : List CtrlCall × Ended :=
  if s.line ≥ 0 then
    match s.ctrl with
    | none => ([], Ended.panicked)
    | some _ => ([CtrlCall.ScrollToLine s.line], Ended.returned none)
  else if s.pos ≥ 0 then
    match s.ctrl with
    | none => ([], Ended.panicked)
    | some c =>
      if s.dir = Up then
        ([CtrlCall.ScrollToRune s.pos, CtrlCall.LineIndex s.pos,
            CtrlCall.ScrollToLine (Max (wrapInt (c.LineIndex s.pos - 3)) 0)],
          Ended.returned none)
      else
        ([CtrlCall.ScrollToRune s.pos], Ended.returned none)
  else if s.offset then
    match s.ctrl with
    | none => ([], Ended.panicked)
    | some c =>
      ([CtrlCall.StartOffset, CtrlCall.SetScrollOffset c.StartOffset], Ended.returned none)
  else
    ([], Ended.returned (some "scroll executed without any position information set"))

/-- The method `Exec` called through the pointer `s`; a nil `s` panics at `s.line`. -/
def Exec (m : Mem) (s : Nat) : List CtrlCall × Ended :=
  match m[s]? with
  | none => ([], Ended.panicked)
  | some x => x.Exec

/-- The calls of a trace that scroll, without the queries. -/
def scrolls : List CtrlCall → List CtrlCall
  | [] => []
  | CtrlCall.StartOffset :: tr => scrolls tr
  | CtrlCall.LineIndex _ :: tr => scrolls tr
  | c :: tr => c :: scrolls tr

/-- The method `Reset`: `s.editor` and `s.ctrl` are set to nil. -/
def Reset (m : Mem) (s : Nat) : Mem :=
  Mem.update m s (fun x => { x with editor := none, ctrl := none })

/-- An `Opt` that code outside this package can write with the exported method `Reset`:
`func(s *Scroller) *Scroller { s.Reset(); return s }`. -/
def resetting : Opt := fun m s => some (Reset m s, s)

/-- The options applied one after the other, each to the result of the one before: what the
doc comment of `For` says is returned. -/
def applyAll (opts : List Opt) (m : Mem) (s : Nat) : Option (Mem × Nat) :=
  opts.foldl (fun acc o => match acc with
    | none => none
    | some c => o c.1 c.2) (some (m, s))

/-- The options this package constructs. -/
def Builtin (o : Opt) : Prop :=
  (∃ line, o = ToLine line) ∨ (∃ pos dir, o = ToRune pos dir) ∨ o = ToOldOffset

/-- A controller whose text has lines of ten runes and whose stored offset is 40. -/
def tenPerLine : Controller := ⟨40, fun pos => pos / 10⟩

/-- A hook named "a" that implements `ScrolledHook`. -/
def hookA : Bindable := ⟨0, "a", true⟩

/-- A hook named "b" that implements `ScrolledHook`. -/
def hookB : Bindable := ⟨1, "b", true⟩

/-- A bindable named "c" that does not implement `ScrolledHook`. -/
def plainC : Bindable := ⟨2, "c", false⟩

/-- A `Scroller` with no position information that has stored editor 7 and the controller
`tenPerLine` and has the hook `hookA` bound. -/
def stored : Scroller := ⟨-1, -1, false, NoDirection, [hookA], some 7, some tenPerLine⟩

/-- A `Scroller` set to line 0 that has stored nothing. -/
def lineNoCtrl : Scroller := ⟨-1, 0, false, NoDirection, [], none, none⟩

end scroll

namespace input

/-! ## Basic facts about the heap -/

theorem Heap.storeNext_length (h : Heap) (p : Nat) (v : Option Nat) :
    (Heap.storeNext h p v).length = h.length := by
  unfold Heap.storeNext
  split <;> simp

theorem Heap.storeNext_get_ne (h : Heap) (p x : Nat) (v : Option Nat) (hx : x ≠ p) :
    (Heap.storeNext h p v)[x]? = h[x]? := by
  unfold Heap.storeNext
  split
  · rw [List.getElem?_set_ne (Ne.symm hx)]
  · rfl

theorem Heap.storeNext_get_eq (h : Heap) (p : Nat) (v : Option Nat) (nd : editNode)
    (hp : h[p]? = some nd) :
    (Heap.storeNext h p v)[p]? = some { nd with next := v } := by
  unfold Heap.storeNext
  rw [hp]
  have hlt : p < h.length := by
    rcases List.getElem?_eq_some.1 hp with ⟨hlt, _⟩
    exact hlt
  simp [List.getElem?_set_self, hlt]

theorem get_lt {h : Heap} {p : Nat} {nd : editNode} (hp : h[p]? = some nd) :
    p < h.length := by
  rcases List.getElem?_eq_some.1 hp with ⟨hlt, _⟩
  exact hlt

theorem get_append_old {h : Heap} {p : Nat} {nd : editNode} (x : editNode) (hp : h[p]? = some nd) :
    (h ++ [x])[p]? = some nd := by
  rw [List.getElem?_append_left (get_lt hp)]
  exact hp

theorem get_append_new (h : Heap) (x : editNode) : (h ++ [x])[h.length]? = some x := by
  simp


/-! ## Chains under allocation and linking -/

theorem Chain.alloc {h : Heap} {p : Option Nat} {ps : List Nat} {q : List (Editor × Edit)}
    (x : editNode) (hc : Chain h p ps q) : Chain (h ++ [x]) p ps q := by
  induction hc with
  | nil => exact Chain.nil
  | cons hp hinc _ ih => exact Chain.cons (get_append_old x hp) hinc ih

theorem Chain.inv_none {h : Heap} {p : Option Nat} {ps : List Nat} {q : List (Editor × Edit)}
    (hc : Chain h p ps q) (hp : p = none) : ps = [] ∧ q = [] := by
  cases hc with
  | nil => exact ⟨rfl, rfl⟩
  | cons _ _ _ => cases hp

theorem Chain.inv_some {h : Heap} {p : Option Nat} {ps : List Nat} {q : List (Editor × Edit)}
    (hc : Chain h p ps q) {a : Nat} (hp : p = some a) :
    ∃ nd rest q', h[a]? = some nd ∧ (∀ x : Nat, nd.next = some x → a < x) ∧
      Chain h nd.next rest q' ∧
      ps = a :: rest ∧ q = (nd.editor, nd.edit) :: q' := by
  cases hc with
  | nil => cases hp
  | @cons p nd ps q h1 h2 h3 =>
    cases hp
    exact ⟨nd, ps, q, h1, h2, h3, rfl, rfl⟩

/-- Every later address of a chain is above its first. -/
theorem Chain.lt_of_mem {h : Heap} {p : Option Nat} {ps : List Nat} {q : List (Editor × Edit)}
    (hc : Chain h p ps q) : ∀ (a : Nat) rest, ps = a :: rest → ∀ x ∈ rest, a < x := by
  induction hc with
  | nil => intro a rest hnil; cases hnil
  | @cons p nd ps q hp hinc htail ih =>
    intro a rest heq x hx
    cases heq
    cases hnx : nd.next with
    | none =>
      rcases Chain.inv_none htail hnx with ⟨h1, _⟩
      rw [h1] at hx
      cases hx
    | some p2 =>
      rcases Chain.inv_some htail hnx with ⟨nd2, rest2, q2, _, _, _, h4, _⟩
      have h1 : p < p2 := hinc p2 hnx
      rw [h4] at hx
      rcases List.mem_cons.1 hx with hx | hx
      · rw [hx]; exact h1
      · exact Nat.lt_trans h1 (ih p2 rest2 h4 x hx)

/-- A chain has at most as many nodes as lie between its first address and the end of the heap. -/
theorem Chain.length_le {h : Heap} {p : Option Nat} {ps : List Nat} {q : List (Editor × Edit)}
    (hc : Chain h p ps q) : ∀ a : Nat, p = some a → ps.length + a ≤ h.length := by
  induction hc with
  | nil => intro a ha; cases ha
  | @cons p nd ps q hp hinc htail ih =>
    intro a ha
    injection ha with ha
    subst ha
    have hlt : p < h.length := get_lt hp
    cases hnx : nd.next with
    | none =>
      rcases Chain.inv_none htail hnx with ⟨h1, _⟩
      rw [h1]
      simp only [List.length_cons, List.length_nil]
      omega
    | some x =>
      have h1 := hinc x hnx
      have h2 := ih x hnx
      simp only [List.length_cons]
      omega

theorem Chain.length_eq {h : Heap} {p : Option Nat} {ps : List Nat} {q : List (Editor × Edit)}
    (hc : Chain h p ps q) : ps.length = q.length := by
  induction hc with
  | nil => rfl
  | cons _ _ _ ih => simp [ih]

/-- The node a chain ends in has a nil `next`. -/
theorem Chain.last_nil {h : Heap} {p : Option Nat} {ps : List Nat} {q : List (Editor × Edit)}
    (hc : Chain h p ps q) : ∀ l, ps.getLast? = some l → ∃ nd, h[l]? = some nd ∧ nd.next = none := by
  induction hc with
  | nil => intro l hl; simp at hl
  | @cons p nd ps q hp hinc htail ih =>
    intro l hl
    cases ps with
    | nil =>
      simp at hl
      subst hl
      cases hnx : nd.next with
      | none => exact ⟨nd, hp, hnx⟩
      | some x =>
        rcases Chain.inv_some htail hnx with ⟨_, _, _, _, _, _, h4, _⟩
        cases h4
    | cons a rest =>
      apply ih
      simpa [List.getLast?_cons_cons] using hl

/-- Linking a fresh node after the end `l` of a chain extends the chain by that node. -/
theorem Chain.link {h : Heap} {p : Option Nat} {ps : List Nat} {q : List (Editor × Edit)}
    (hc : Chain h p ps q) (l : Nat) (e : Editor) (edit : Edit) (hl : ps.getLast? = some l) :
    Chain (Heap.storeNext (h ++ [{ edit := edit, editor := e, next := none }]) l (some h.length))
      p (ps ++ [h.length]) (q ++ [(e, edit)]) := by
  induction hc with
  | nil => simp at hl
  | @cons p nd ps q hp hinc htail ih =>
    have hplt := get_lt hp
    cases ps with
    | nil =>
      simp at hl
      subst hl
      cases hnx : nd.next with
      | some x =>
        rcases Chain.inv_some htail hnx with ⟨_, _, _, _, _, _, h4, _⟩
        cases h4
      | none =>
        rcases Chain.inv_none htail hnx with ⟨_, hq⟩
        subst hq
        have h1 := Heap.storeNext_get_eq (h ++ [{ edit := edit, editor := e, next := none }]) p
          (some h.length) nd (get_append_old _ hp)
        have h2 : (Heap.storeNext (h ++ [{ edit := edit, editor := e, next := none }]) p
            (some h.length))[h.length]? = some { edit := edit, editor := e, next := none } := by
          rw [Heap.storeNext_get_ne _ _ _ _ (Nat.ne_of_gt hplt)]
          exact get_append_new h _
        have h3 := Chain.cons h2 (by intro x hx; cases hx) Chain.nil
        have h4 := Chain.cons h1 (by intro x hx; cases hx; exact hplt) h3
        simpa using h4
    | cons a rest =>
      have hl2 : (a :: rest).getLast? = some l := by
        simpa [List.getLast?_cons_cons] using hl
      have hmem : l ∈ a :: rest := List.mem_of_getLast?_eq_some hl2
      have hpl : p < l := Chain.lt_of_mem (Chain.cons hp hinc htail) p (a :: rest) rfl l hmem
      have h1 : (Heap.storeNext (h ++ [{ edit := edit, editor := e, next := none }]) l
          (some h.length))[p]? = some nd := by
        rw [Heap.storeNext_get_ne _ _ _ _ (Nat.ne_of_lt hpl)]
        exact get_append_old _ hp
      have h2 := Chain.cons h1 hinc (ih hl2)
      simpa using h2

/-- A fresh node linked after a node other than itself is a chain of one node. -/
theorem Chain.fresh (h : Heap) (l : Nat) (e : Editor) (edit : Edit) (hl : l < h.length) :
    Chain (Heap.storeNext (h ++ [{ edit := edit, editor := e, next := none }]) l (some h.length))
      (some h.length) [h.length] [(e, edit)] := by
  have h2 : (Heap.storeNext (h ++ [{ edit := edit, editor := e, next := none }]) l
      (some h.length))[h.length]? = some { edit := edit, editor := e, next := none } := by
    rw [Heap.storeNext_get_ne _ _ _ _ (Nat.ne_of_gt hl)]
    exact get_append_new h _
  exact Chain.cons h2 (by intro x hx; cases hx) Chain.nil


/-! ## The walk of `processEdits` along a chain -/

theorem walk_chain {h : Heap} {p : Option Nat} {ps : List Nat} {q : List (Editor × Edit)}
    (hc : Chain h p ps q) :
    ∀ (fuel : Nat) (editors : List Editor), ps.length ≤ fuel →
      walk fuel h p editors = some (q.map Event.ofEdit, touched editors q) := by
  induction hc with
  | nil =>
    intro fuel editors _
    cases fuel <;> simp [walk, touched]
  | @cons p nd ps q hp hinc htail ih =>
    intro fuel editors hfuel
    cases fuel with
    | zero => simp at hfuel
    | succ fuel =>
      have hle : ps.length ≤ fuel := by
        simp only [List.length_cons] at hfuel
        omega
      simp [walk, hp, ih fuel (editorsInsert editors nd.editor) hle, touched, Event.ofEdit,
        editNode.nextNode]

theorem delivered_append (a b : List Event) : delivered (a ++ b) = delivered a ++ delivered b := by
  induction a with
  | nil => rfl
  | cons x a ih => cases x <;> simp [delivered, ih]

theorem delivered_ofEdit (q : List (Editor × Edit)) : delivered (q.map Event.ofEdit) = q := by
  induction q with
  | nil => rfl
  | cons x q ih => simp [delivered, Event.ofEdit, ih]

theorem dispatch_trace (keys : List Editor) :
    ∀ (cells : List Editor) (c : Nat),
      (dispatch cells c keys).2 = List.replicate keys.length (Event.driverCall ⟨c⟩) := by
  induction keys with
  | nil => intro cells c; rfl
  | cons k ks ih => intro cells c; simp [dispatch, ih, List.replicate_succ]

theorem delivered_replicate_call (n : Nat) (f : Closure) :
    delivered (List.replicate n (Event.driverCall f)) = [] := by
  induction n with
  | zero => rfl
  | succ n ih => simp [List.replicate_succ, delivered, ih]

/-! ## `textChanged` keeps the invariant -/

theorem appendEdit_tail (s : State) (l : Nat) (e : Editor) (edit : Edit)
    (q : List (Editor × Edit)) (ht : Tail s.heap s.r.next l q) :
    Tail (appendEdit s l e edit).1.heap (appendEdit s l e edit).1.r.next
      (appendEdit s l e edit).2.1 (q ++ [(e, edit)]) := by
  unfold Tail at ht
  cases hn : s.r.next with
  | none =>
    rw [hn] at ht
    rcases ht with ⟨hq, nd, hnd, _⟩
    subst hq
    simp only [appendEdit, Heap.alloc, hookReader.casNext, hn, Tail, Seg, List.nil_append]
    exact ⟨[s.heap.length], Chain.fresh s.heap l e edit (get_lt hnd), rfl⟩
  | some hd =>
    rw [hn] at ht
    rcases ht with ⟨ps, hc, hl⟩
    simp only [appendEdit, Heap.alloc, hookReader.casNext, hn, Tail, Seg]
    exact ⟨ps ++ [s.heap.length], Chain.link hc l e edit hl, by simp⟩

theorem appendLoop_tail (e : Editor) (changes : List Edit) :
    ∀ (s : State) (l : Nat) (q : List (Editor × Edit)), Tail s.heap s.r.next l q →
      Tail (appendLoop s l e changes).1.heap (appendLoop s l e changes).1.r.next
        (appendLoop s l e changes).2.1 (q ++ batch e changes) := by
  induction changes with
  | nil => intro s l q ht; simpa [appendLoop, batch] using ht
  | cons edit rest ih =>
    intro s l q ht
    have h1 := ih _ _ _ (appendEdit_tail s l e edit q ht)
    simpa [appendLoop, batch] using h1

theorem appendEdit_frame (s : State) (l : Nat) (e : Editor) (edit : Edit) :
    (appendEdit s l e edit).1.cells = s.cells ∧ (appendEdit s l e edit).1.r.last = s.r.last ∧
      (appendEdit s l e edit).1.r.cond = s.r.cond := by
  simp only [appendEdit, hookReader.casNext]
  cases s.r.next <;> simp

theorem appendLoop_frame (e : Editor) (changes : List Edit) :
    ∀ (s : State) (l : Nat), (appendLoop s l e changes).1.cells = s.cells ∧
      (appendLoop s l e changes).1.r.last = s.r.last ∧
      (appendLoop s l e changes).1.r.cond = s.r.cond := by
  induction changes with
  | nil => intro s l; simp [appendLoop]
  | cons edit rest ih =>
    intro s l
    have h1 := ih (appendEdit s l e edit).1 (appendEdit s l e edit).2.1
    have h2 := appendEdit_frame s l e edit
    simp only [appendLoop]
    exact ⟨h1.1.trans h2.1, h1.2.1.trans h2.2.1, h1.2.2.trans h2.2.2⟩

/-- The head and the signals of the loop of `textChanged` when the head is not nil: the head
stays, and nothing is signalled. -/
theorem appendLoop_head_some (e : Editor) (changes : List Edit) :
    ∀ (s : State) (l hd : Nat), s.r.next = some hd →
      (appendLoop s l e changes).1.r.next = some hd ∧ (appendLoop s l e changes).2.2 = [] := by
  induction changes with
  | nil => intro s l hd hn; simp [appendLoop, hn]
  | cons edit rest ih =>
    intro s l hd hn
    have h0 : (appendEdit s l e edit).1.r.next = some hd ∧ (appendEdit s l e edit).2.2 = [] := by
      simp [appendEdit, hookReader.casNext, hn]
    have h1 := ih (appendEdit s l e edit).1 (appendEdit s l e edit).2.1 hd h0.1
    simp only [appendLoop]
    exact ⟨h1.1, by rw [h0.2, h1.2]; rfl⟩

/-- The head and the signals of the loop of `textChanged` when the head is nil and there is an
edit: the head becomes the first node allocated, and there is one signal. -/
theorem appendLoop_head_none (e : Editor) (edit : Edit) (rest : List Edit) (s : State) (l : Nat)
    (hn : s.r.next = none) :
    (appendLoop s l e (edit :: rest)).1.r.next = some s.heap.length ∧
      (appendLoop s l e (edit :: rest)).2.2 = [Event.condSignal] := by
  have h0 : (appendEdit s l e edit).1.r.next = some s.heap.length ∧
      (appendEdit s l e edit).2.2 = [Event.condSignal] := by
    simp [appendEdit, hookReader.casNext, hn, Heap.alloc]
  have h1 := appendLoop_head_some e rest (appendEdit s l e edit).1 (appendEdit s l e edit).2.1
    s.heap.length h0.1
  simp only [appendLoop]
  exact ⟨h1.1, by rw [h0.2, h1.2]; rfl⟩

theorem appendLoop_delivered (e : Editor) (changes : List Edit) (s : State) (l : Nat) :
    delivered (appendLoop s l e changes).2.2 = [] := by
  cases changes with
  | nil => rfl
  | cons edit rest =>
    cases hn : s.r.next with
    | none => rw [(appendLoop_head_none e edit rest s l hn).2]; rfl
    | some hd => rw [(appendLoop_head_some e (edit :: rest) s l hd hn).2]; rfl

theorem loadLast_tail (s : State) (q : List (Editor × Edit)) (hi : Inv s q) :
    Tail (loadLast s).1.heap (loadLast s).1.r.next (loadLast s).2 q := by
  unfold Inv at hi
  cases hl : s.r.last with
  | none =>
    rw [hl] at hi
    simp only [loadLast, hl, Heap.alloc, Tail, hi.1]
    exact ⟨hi.2, _, get_append_new s.heap _, rfl⟩
  | some l =>
    rw [hl] at hi
    simpa [loadLast, hl] using hi

theorem textChanged_inv (s : State) (e : Editor) (changes : List Edit)
    (q : List (Editor × Edit)) (hi : Inv s q) :
    Inv (textChanged s e changes).state (q ++ batch e changes) := by
  cases changes with
  | nil => simpa [textChanged, batch] using hi
  | cons edit rest =>
    have h1 := appendLoop_tail e (edit :: rest) _ _ q (loadLast_tail s q hi)
    simpa [textChanged, Inv] using h1

theorem textChanged_delivered (s : State) (e : Editor) (changes : List Edit) :
    delivered (textChanged s e changes).trace = [] := by
  cases changes with
  | nil => rfl
  | cons edit rest => simpa [textChanged] using appendLoop_delivered e (edit :: rest) _ _


/-! ## `processEdits` on a queue that satisfies the invariant -/

/-- On a queue with pending edits `q`, `processEdits` returns: it calls `TextChanged` for the
edits of `q` in order, then hands `driver.Call` one function per key of `editors`, sets the head
to nil and leaves the heap and `last` alone. -/
theorem processEdits_inv (ro : RangeOrder) (s : State) (q : List (Editor × Edit))
    (hi : Inv s q) :
    ∃ o, processEdits ro s = some o ∧ o.err = none ∧ Inv o.state [] ∧
      o.trace = q.map Event.ofEdit ++
        List.replicate (touched [] q).length (Event.driverCall ⟨s.cells.length⟩) ∧
      o.state.heap = s.heap ∧ o.state.r.last = s.r.last ∧ o.state.r.next = none := by
  unfold Inv at hi
  cases hl : s.r.last with
  | none =>
    rw [hl] at hi
    rcases hi with ⟨hn, hq⟩
    subst hq
    refine ⟨⟨s, [], none⟩, by simp [processEdits, hn], rfl, ?_, by simp [touched], rfl, hl, hn⟩
    simp [Inv, hl, hn]
  | some l =>
    rw [hl] at hi
    cases hn : s.r.next with
    | none =>
      rw [hn] at hi
      rcases hi with ⟨hq, hnd⟩
      subst hq
      refine ⟨⟨s, [], none⟩, by simp [processEdits, hn], rfl, ?_, by simp [touched], rfl, hl, hn⟩
      simp only [Inv, hl, hn, Tail]
      exact ⟨trivial, hnd⟩
    | some hd =>
      rw [hn] at hi
      rcases hi with ⟨ps, hc, hlast⟩
      have hlen : ps.length ≤ s.heap.length := by
        have := Chain.length_le hc hd rfl
        omega
      have hw := walk_chain hc s.heap.length [] hlen
      have hperm := (ro.perm (touched [] q)).length_eq
      refine ⟨⟨{ s with
          cells := (dispatch (s.cells ++ [0]) s.cells.length (ro.order (touched [] q))).1
          r := { s.r with next := none } },
        q.map Event.ofEdit ++
          (dispatch (s.cells ++ [0]) s.cells.length (ro.order (touched [] q))).2, none⟩,
        by simp only [processEdits, hn, hw], rfl, ?_, ?_, rfl, hl, rfl⟩
      · simp only [Inv, hl, Tail]
        exact ⟨trivial, Chain.last_nil hc l hlast⟩
      · simp only [dispatch_trace, hperm]

theorem exec_inv (ro : RangeOrder) (ops : List Op) :
    ∀ (s : State) (q : List (Editor × Edit)), Inv s q →
      ∃ s' trs, exec ro s ops = some (s', trs) ∧ trs.map delivered = fifo q ops ∧
        ∃ q', Inv s' q' := by
  induction ops with
  | nil => intro s q hi; exact ⟨s, [], rfl, rfl, q, hi⟩
  | cons op ops ih =>
    intro s q hi
    cases op with
    | textChanged e changes =>
      rcases ih _ _ (textChanged_inv s e changes q hi) with ⟨s', trs, h1, h2, h3⟩
      refine ⟨s', (textChanged s e changes).trace :: trs, by simp [exec, h1], ?_, h3⟩
      simp [fifo, h2, textChanged_delivered]
    | processEdits =>
      rcases processEdits_inv ro s q hi with ⟨o, ho, _, hio, htr, _⟩
      rcases ih _ _ hio with ⟨s', trs, h1, h2, h3⟩
      refine ⟨s', o.trace :: trs, by simp [exec, ho, h1], ?_, h3⟩
      simp [fifo, h2, htr, delivered_append, delivered_ofEdit, delivered_replicate_call]

theorem started_inv : Inv State.started [] := by
  simp [Inv, State.started]

/-- Every state a sequential schedule reaches from a started reader satisfies the invariant. -/
theorem reachable_inv (ro : RangeOrder) (ops : List Op) (s : State) (trs : List (List Event))
    (h : exec ro State.started ops = some (s, trs)) : ∃ q, Inv s q := by
  rcases exec_inv ro ops State.started [] started_inv with ⟨s', trs', h1, _, h3⟩
  rw [h1] at h
  cases h
  exact h3

theorem fifo_join (ops : List Op) :
    ∀ q : List (Editor × Edit), (fifo q ops).flatten =
      if Op.processEdits ∈ ops then q ++ appended (beforeLastDrain ops) else [] := by
  induction ops with
  | nil => intro q; rfl
  | cons op ops ih =>
    intro q
    cases op with
    | textChanged e changes =>
      simp only [fifo, List.flatten_cons, List.nil_append, ih, List.mem_cons, beforeLastDrain]
      by_cases hm : Op.processEdits ∈ ops
      · simp [hm, appended]
      · simp [hm]
    | processEdits =>
      simp only [fifo, List.flatten_cons, ih, List.mem_cons, beforeLastDrain, true_or, if_true,
        appended, List.nil_append]
      by_cases hm : Op.processEdits ∈ ops
      · simp [hm]
      · cases ops with
        | nil => simp [beforeLastDrain, appended]
        | cons op2 ops2 => simp [hm, beforeLastDrain, appended]


theorem inv_empty {s : State} {q : List (Editor × Edit)} (hi : Inv s q) (hn : s.r.next = none) :
    q = [] := by
  unfold Inv at hi
  cases hl : s.r.last with
  | none => rw [hl] at hi; exact hi.2
  | some l =>
    rw [hl, hn] at hi
    exact hi.1

theorem textChangedAll_inv (calls : List (Editor × List Edit)) :
    ∀ (s : State) (q : List (Editor × Edit)), Inv s q →
      Inv (textChangedAll s calls) (q ++ batches calls) := by
  induction calls with
  | nil => intro s q hi; simpa [textChangedAll, batches] using hi
  | cons c calls ih =>
    intro s q hi
    have h1 := ih _ _ (textChanged_inv s c.1 c.2 q hi)
    simpa [textChangedAll, batches, List.append_assoc] using h1

theorem delivered_flatten (trs : List (List Event)) :
    delivered trs.flatten = (trs.map delivered).flatten := by
  induction trs with
  | nil => rfl
  | cons t trs ih => simp [delivered_append, ih]

theorem beforeLastDrain_of_not_mem (ops : List Op) (h : Op.processEdits ∉ ops) :
    beforeLastDrain ops = [] := by
  cases ops with
  | nil => rfl
  | cons op ops => simp [beforeLastDrain, h]

theorem walk_trace (fuel : Nat) (h : Heap) :
    ∀ (p : Option Nat) (editors : List Editor) (w : List Event × List Editor),
      walk fuel h p editors = some w → ∀ ev ∈ w.1, ∃ e edit, ev = Event.hookTextChanged e edit := by
  induction fuel with
  | zero =>
    intro p editors w hw ev hev
    cases p with
    | none => simp [walk] at hw; subst hw; cases hev
    | some a => simp [walk] at hw
  | succ fuel ih =>
    intro p editors w hw ev hev
    cases p with
    | none => simp [walk] at hw; subst hw; cases hev
    | some a =>
      simp only [walk] at hw
      cases hnd : h[a]? with
      | none => simp [hnd] at hw
      | some nd =>
        simp only [hnd] at hw
        cases hrec : walk fuel h nd.nextNode (editorsInsert editors nd.editor) with
        | none => simp [hrec] at hw
        | some w2 =>
          simp only [hrec, Option.some.injEq] at hw
          subst hw
          rcases List.mem_cons.1 hev with h1 | h1
          · exact ⟨_, _, h1⟩
          · exact ih _ _ _ hrec ev h1

/-- In a trace made of `TextChanged` calls followed by `driver.Call`s, nothing that comes after a
`driver.Call` is a `TextChanged`. -/
theorem no_textChanged_after_call (tcs : List Event) (n : Nat) (c : Closure)
    (htcs : ∀ ev ∈ tcs, ∃ e edit, ev = Event.hookTextChanged e edit)
    (a b : List Event) (f : Closure)
    (heq : tcs ++ List.replicate n (Event.driverCall c) = a ++ Event.driverCall f :: b) :
    ∀ e edit, Event.hookTextChanged e edit ∉ b := by
  intro e edit hmem
  rcases List.append_eq_append_iff.1 heq with ⟨a', _, h2⟩ | ⟨c', h1, h2⟩
  · have : Event.hookTextChanged e edit ∈ List.replicate n (Event.driverCall c) := by
      rw [h2]; simp [hmem]
    simp [List.mem_replicate] at this
  · cases c' with
    | nil =>
      have : Event.hookTextChanged e edit ∈ List.replicate n (Event.driverCall c) := by
        simp at h2; rw [← h2]; simp [hmem]
      simp [List.mem_replicate] at this
    | cons x c' =>
      simp at h2
      have hx : Event.driverCall f ∈ tcs := by rw [h1, ← h2.1]; simp
      rcases htcs _ hx with ⟨_, _, h3⟩
      cases h3


/-- The trace of `processEdits`, in any state in which it returns: `TextChanged` calls, then
`driver.Call`s. -/
theorem processEdits_shape (ro : RangeOrder) (s : State) (o : Outcome)
    (ho : processEdits ro s = some o) :
    ∃ (tcs : List Event) (n : Nat) (c : Closure),
      o.trace = tcs ++ List.replicate n (Event.driverCall c) ∧
      ∀ ev ∈ tcs, ∃ e edit, ev = Event.hookTextChanged e edit := by
  unfold processEdits at ho
  cases hn : s.r.next with
  | none =>
    simp only [hn, Option.some.injEq] at ho
    subst ho
    exact ⟨[], 0, ⟨0⟩, rfl, by simp⟩
  | some p =>
    simp only [hn] at ho
    cases hw : walk s.heap.length s.heap (some p) [] with
    | none => simp [hw] at ho
    | some w =>
      simp only [hw, Option.some.injEq] at ho
      subst ho
      exact ⟨w.1, (ro.order w.2).length, ⟨s.cells.length⟩, by simp only [dispatch_trace],
        walk_trace _ _ _ _ _ hw⟩


/-! ## The chain that `textChanged` builds after the previous tail -/

theorem appendEdit_heap (s : State) (l : Nat) (e : Editor) (edit : Edit) :
    (appendEdit s l e edit).1.heap =
        Heap.storeNext (s.heap ++ [{ edit := edit, editor := e, next := none }]) l
          (some s.heap.length) ∧
      (appendEdit s l e edit).2.1 = s.heap.length ∧
      (appendEdit s l e edit).1.heap.length = s.heap.length + 1 := by
  simp [appendEdit, Heap.alloc, Heap.storeNext_length]

theorem appendLoop_chain (e : Editor) (a : Nat) (changes : List Edit) :
    ∀ (s : State) (l : Nat) (ps : List Nat) (q : List (Editor × Edit)),
      Chain s.heap (some a) ps q → ps.getLast? = some l →
      ∃ ps2, Chain (appendLoop s l e changes).1.heap (some a) (ps ++ ps2) (q ++ batch e changes) ∧
        (ps ++ ps2).getLast? = some (appendLoop s l e changes).2.1 ∧
        ps2.length = changes.length ∧ (∀ p ∈ ps2, s.heap.length ≤ p) ∧
        (changes ≠ [] → ps2.head? = some s.heap.length) := by
  induction changes with
  | nil =>
    intro s l ps q hc hl
    exact ⟨[], by simpa [appendLoop, batch] using hc, by simpa [appendLoop] using hl, rfl,
      by simp, by simp⟩
  | cons edit rest ih =>
    intro s l ps q hc hl
    rcases appendEdit_heap s l e edit with ⟨h1, h2, h3⟩
    have hc1 : Chain (appendEdit s l e edit).1.heap (some a) (ps ++ [s.heap.length])
        (q ++ [(e, edit)]) := by
      rw [h1]; exact Chain.link hc l e edit hl
    have hl1 : (ps ++ [s.heap.length]).getLast? = some (appendEdit s l e edit).2.1 := by
      rw [h2]; simp
    rcases ih _ _ _ _ hc1 hl1 with ⟨ps2, g1, g2, g3, g4, _⟩
    refine ⟨s.heap.length :: ps2, ?_, ?_, ?_, ?_, ?_⟩
    · simpa [appendLoop, batch, List.append_assoc] using g1
    · simpa [appendLoop, List.append_assoc] using g2
    · simp [g3]
    · intro p hp
      rcases List.mem_cons.1 hp with hp | hp
      · rw [hp]
      · have := g4 p hp
        omega
    · intro _; rfl

theorem loadLast_heap_le (s : State) : s.heap.length ≤ (loadLast s).1.heap.length := by
  unfold loadLast
  cases s.r.last <;> simp [Heap.alloc]

theorem tail_node {h : Heap} {head : Option Nat} {l : Nat} {q : List (Editor × Edit)}
    (ht : Tail h head l q) : ∃ nd, h[l]? = some nd ∧ nd.next = none := by
  unfold Tail at ht
  cases head with
  | none => exact ht.2
  | some hd =>
    rcases ht with ⟨ps, hc, hl⟩
    exact Chain.last_nil hc l hl


/-! ## A lost wake-up is for ever -/

/-- The state `System.started` is what `start` leaves when it runs from entry to return before
the goroutine of `run` moves. -/
theorem started_of_boot (ro : RangeOrder) (hook : ChangeHook)
    (programs : List (List (Editor × List Edit))) :
    run ro hook (System.boot programs) [Tid.starter, Tid.starter] = System.started programs := by
  simp [run, step, stepStarter, System.boot, System.started, State.started, wake]


theorem lostWakeup_state (ro : RangeOrder) (hook : ChangeHook) (more : List (Editor × List Edit)) :
    run ro hook (System.boot [(1, [Edit.ins 0 97]) :: more]) lostWakeup =
      { mem := ⟨[⟨Edit.zero, 0, some 1⟩, ⟨Edit.ins 0 97, 1, none⟩], [], ⟨some 1, some 1, true⟩⟩
        starter := StarterPC.done
        worker := some WorkerPC.waiting
        producers := [⟨ProducerPC.idle, more⟩]
        uiQueue := []
        trace := [Event.condSignal, Event.condSignal] } := by
  simp [lostWakeup, burst, run, step, stepStarter, stepWorker, stepProducer, Producer.step,
    System.boot, wake, loadLast, Heap.alloc, Heap.storeNext, hookReader.casNext, afterEdit,
    List.replicate]

theorem loadLast_next (mem : State) : (loadLast mem).1.r.next = mem.r.next := by
  unfold loadLast
  cases mem.r.last <;> rfl

theorem afterEdit_ne_signal (e : Editor) (n : Nat) (rest : List Edit) (e' : Editor) (n' : Nat)
    (rest' : List Edit) : afterEdit e n rest ≠ ProducerPC.signal e' n' rest' := by
  unfold afterEdit
  cases rest <;> simp

theorem Producer.step_stuck (mem : State) (p : Producer) (hn : mem.r.next ≠ none)
    (hp : ∀ e n rest, p.pc ≠ ProducerPC.signal e n rest) :
    (p.step mem).1.r.next = mem.r.next ∧
      (∀ e n rest, (p.step mem).2.1.pc ≠ ProducerPC.signal e n rest) ∧
      (p.step mem).2.2 = false := by
  rcases p with ⟨pc, calls⟩
  cases pc with
  | idle =>
    cases calls with
    | nil => exact ⟨rfl, hp, rfl⟩
    | cons c calls =>
      rcases c with ⟨e, changes⟩
      simp only [Producer.step]
      split
      · exact ⟨rfl, by intro e n rest; simp, rfl⟩
      · exact ⟨loadLast_next mem, by intro e n rest; simp, rfl⟩
  | link e l rest =>
    cases rest with
    | nil => exact ⟨rfl, by intro e n rest; simp [Producer.step], rfl⟩
    | cons edit rest => exact ⟨rfl, by intro e n rest; simp [Producer.step], rfl⟩
  | cas e n rest =>
    cases hnx : mem.r.next with
    | none => exact absurd hnx hn
    | some hd =>
      simp only [Producer.step, hookReader.casNext, hnx]
      exact ⟨trivial, by intro e' n' rest'; simpa using afterEdit_ne_signal e n rest e' n' rest', trivial⟩
  | signal e n rest => exact absurd rfl (hp e n rest)
  | storeLast l => exact ⟨rfl, by intro e n rest; simp [Producer.step], rfl⟩

theorem Closure.run_delivered (hook : ChangeHook) (cells : List Editor) (f : Closure) :
    delivered (f.run hook cells) = [] := by
  simp only [Closure.run]
  cases hook.Apply (cells.getD f.cell 0) <;> rfl

theorem stuck_step (ro : RangeOrder) (hook : ChangeHook) (sys : System) (hs : Stuck sys) (t : Tid) :
    Stuck (step ro hook sys t) ∧ delivered (step ro hook sys t).trace = delivered sys.trace := by
  rcases hs with ⟨hw, hn, hst, hp⟩
  cases t with
  | starter =>
    have h0 : step ro hook sys Tid.starter = sys := by simp [step, stepStarter, hst]
    rw [h0]; exact ⟨⟨hw, hn, hst, hp⟩, rfl⟩
  | worker =>
    have h0 : step ro hook sys Tid.worker = sys := by simp [step, stepWorker, hw]
    rw [h0]; exact ⟨⟨hw, hn, hst, hp⟩, rfl⟩
  | ui =>
    simp only [step, stepUI]
    split
    · exact ⟨⟨hw, hn, hst, hp⟩, rfl⟩
    · refine ⟨⟨hw, hn, hst, hp⟩, ?_⟩
      simp [delivered_append, Closure.run_delivered]
  | producer i =>
    simp only [step, stepProducer]
    cases hi : sys.producers[i]? with
    | none => exact ⟨⟨hw, hn, hst, hp⟩, rfl⟩
    | some p =>
      have hmem : p ∈ sys.producers := List.getElem?_mem hi
      rcases Producer.step_stuck sys.mem p hn (hp p hmem) with ⟨h1, h2, h3⟩
      simp only [h3]
      refine ⟨⟨hw, by rw [h1]; exact hn, hst, ?_⟩, rfl⟩
      intro p' hp'
      rcases List.mem_or_eq_of_mem_set hp' with h4 | h4
      · exact hp p' h4
      · rw [h4]; exact h2

theorem stuck_run (ro : RangeOrder) (hook : ChangeHook) (sched : List Tid) :
    ∀ sys, Stuck sys → Stuck (run ro hook sys sched) ∧
      delivered (run ro hook sys sched).trace = delivered sys.trace := by
  induction sched with
  | nil => intro sys hs; exact ⟨hs, rfl⟩
  | cons t sched ih =>
    intro sys hs
    rcases stuck_step ro hook sys hs t with ⟨h1, h2⟩
    rcases ih _ h1 with ⟨h3, h4⟩
    exact ⟨h3, h4.trans h2⟩

theorem run_append (ro : RangeOrder) (hook : ChangeHook) (sys : System) (s1 s2 : List Tid) :
    run ro hook sys (s1 ++ s2) = run ro hook (run ro hook sys s1) s2 := by
  simp [run, List.foldl_append]

/-! ## A call of `textChanged` run step by step is the call run at once -/

theorem finishCall_succ (sys : System) (i : Nat) (p : Producer) (fuel : Nat)
    (hp : sys.producers[i]? = some p) (hpc : p.pc ≠ ProducerPC.idle) :
    finishCall (fuel + 1) sys i = finishCall fuel (stepProducer sys i) i := by
  simp [finishCall, hp, hpc]

theorem finishCall_idle (sys : System) (i : Nat) (p : Producer) (fuel : Nat)
    (hp : sys.producers[i]? = some p) (hpc : p.pc = ProducerPC.idle) :
    finishCall fuel sys i = sys := by
  cases fuel <;> simp [finishCall, hp, hpc]

theorem stepProducer_spec (sys : System) (i : Nat) (p : Producer)
    (hp : sys.producers[i]? = some p) :
    (stepProducer sys i).mem = (p.step sys.mem).1 ∧
      (stepProducer sys i).producers = sys.producers.set i (p.step sys.mem).2.1 ∧
      (stepProducer sys i).producers[i]? = some (p.step sys.mem).2.1 ∧
      (stepProducer sys i).trace =
        if (p.step sys.mem).2.2 then sys.trace ++ [Event.condSignal] else sys.trace := by
  have hlt : i < sys.producers.length := (List.getElem?_eq_some.1 hp).1
  simp [stepProducer, hp, List.getElem?_set_self hlt]

/-- The steps of one pass through the loop of `textChanged` amount to `appendEdit`. -/
theorem finishCall_edit (sys : System) (i : Nat) (e : Editor) (l : Nat) (edit : Edit)
    (rest : List Edit) (calls : List (Editor × List Edit))
    (hp : sys.producers[i]? = some ⟨ProducerPC.link e l (edit :: rest), calls⟩) :
    ∃ (sys' : System) (k : Nat), k ≤ 3 ∧
      (∀ fuel, finishCall (fuel + k) sys i = finishCall fuel sys' i) ∧
      sys'.mem = (appendEdit sys.mem l e edit).1 ∧
      sys'.producers =
        sys.producers.set i ⟨afterEdit e (appendEdit sys.mem l e edit).2.1 rest, calls⟩ ∧
      sys'.producers[i]? =
        some ⟨afterEdit e (appendEdit sys.mem l e edit).2.1 rest, calls⟩ ∧
      sys'.trace = sys.trace ++ (appendEdit sys.mem l e edit).2.2 := by
  have hlt : i < sys.producers.length := (List.getElem?_eq_some.1 hp).1
  rcases stepProducer_spec sys i _ hp with ⟨a1, a2, a3, a4⟩
  simp only [Producer.step] at a1 a2 a3
  have a4' : (stepProducer sys i).trace = sys.trace := by simpa [Producer.step] using a4
  rcases stepProducer_spec (stepProducer sys i) i _ a3 with ⟨b1, b2, b3, b4⟩
  simp only [Producer.step, a1, a2, List.set_set] at b1 b2 b3
  have b4' : (stepProducer (stepProducer sys i) i).trace = sys.trace := by
    rw [← a4']; simpa [Producer.step] using b4
  cases hn : sys.mem.r.next with
  | none =>
    simp only [hookReader.casNext, hn, if_true] at b1 b2 b3
    rcases stepProducer_spec (stepProducer (stepProducer sys i) i) i _ b3 with ⟨c1, c2, c3, c4⟩
    simp only [Producer.step, b1, b2, List.set_set] at c1 c2 c3
    have c4' : (stepProducer (stepProducer (stepProducer sys i) i) i).trace =
        sys.trace ++ [Event.condSignal] := by
      rw [← b4']; simpa [Producer.step] using c4
    refine ⟨stepProducer (stepProducer (stepProducer sys i) i) i, 3, Nat.le_refl 3,
      ?_, ?_, ?_, ?_, ?_⟩
    · intro fuel
      rw [finishCall_succ sys i _ (fuel + 2) hp (by simp),
        finishCall_succ _ i _ (fuel + 1) a3 (by simp),
        finishCall_succ _ i _ fuel b3 (by simp)]
    · rw [c1]; simp [appendEdit, hookReader.casNext, hn]
    · rw [c2]; simp [appendEdit, Heap.alloc]
    · rw [c3]; simp [appendEdit, Heap.alloc]
    · rw [c4']; simp [appendEdit, hookReader.casNext, hn]
  | some hd =>
    simp only [hookReader.casNext, hn] at b1 b2 b3
    refine ⟨stepProducer (stepProducer sys i) i, 2, by omega, ?_, ?_, ?_, ?_, ?_⟩
    · intro fuel
      rw [finishCall_succ sys i _ (fuel + 1) hp (by simp),
        finishCall_succ _ i _ fuel a3 (by simp)]
    · rw [b1]; simp [appendEdit, hookReader.casNext, hn]
    · rw [b2]; simp [appendEdit, Heap.alloc]
    · rw [b3]; simp [appendEdit, Heap.alloc]
    · rw [b4']; simp [appendEdit, hookReader.casNext, hn]

theorem finishCall_link (i : Nat) (e : Editor) (calls : List (Editor × List Edit))
    (rest : List Edit) :
    ∀ (sys : System) (l : Nat) (edit : Edit) (fuel : Nat),
      sys.producers[i]? = some ⟨ProducerPC.link e l (edit :: rest), calls⟩ →
      3 * (rest.length + 1) + 1 ≤ fuel →
      (finishCall fuel sys i).mem =
          { (appendLoop sys.mem l e (edit :: rest)).1 with
            r := { (appendLoop sys.mem l e (edit :: rest)).1.r with
              last := some (appendLoop sys.mem l e (edit :: rest)).2.1 } } ∧
        (finishCall fuel sys i).producers = sys.producers.set i ⟨ProducerPC.idle, calls⟩ ∧
        (finishCall fuel sys i).trace =
          sys.trace ++ (appendLoop sys.mem l e (edit :: rest)).2.2 := by
  induction rest with
  | nil =>
    intro sys l edit fuel hp hfuel
    rcases finishCall_edit sys i e l edit [] calls hp with ⟨sys', k, hk, h1, h2, h3, h4, h5⟩
    obtain ⟨f, rfl⟩ : ∃ f, fuel = f + 1 + k := ⟨fuel - 1 - k, by simp at hfuel; omega⟩
    rw [h1]
    simp only [afterEdit] at h3 h4
    rw [finishCall_succ sys' i _ f h4 (by simp)]
    rcases stepProducer_spec sys' i _ h4 with ⟨c1, c2, c3, c4⟩
    simp only [Producer.step] at c1 c2 c3
    have c4' : (stepProducer sys' i).trace = sys'.trace := by simpa [Producer.step] using c4
    rw [finishCall_idle _ i _ f c3 rfl, c1, c2, c4', h2, h3, h5, List.set_set]
    simp [appendLoop]
  | cons edit' rest' ih =>
    intro sys l edit fuel hp hfuel
    rcases finishCall_edit sys i e l edit (edit' :: rest') calls hp
      with ⟨sys', k, hk, h1, h2, h3, h4, h5⟩
    obtain ⟨f, rfl⟩ : ∃ f, fuel = f + k := ⟨fuel - k, by simp at hfuel; omega⟩
    rw [h1]
    simp only [afterEdit] at h3 h4
    have hf : 3 * (rest'.length + 1) + 1 ≤ f := by
      simp only [List.length_cons] at hfuel
      omega
    rcases ih sys' _ edit' f h4 hf with ⟨g1, g2, g3⟩
    rw [g1, g2, g3, h2, h3, h5, List.set_set]
    simp [appendLoop, List.append_assoc]

/-- A call of `textChanged` made step by step while no other goroutine moves leaves the memory
that the call run at once leaves, and adds the same events to the trace. -/
theorem System.call_spec (sys : System) (i : Nat) (e : Editor) (changes : List Edit)
    (calls : List (Editor × List Edit))
    (hp : sys.producers[i]? = some ⟨ProducerPC.idle, (e, changes) :: calls⟩) :
    (sys.call i).mem = (textChanged sys.mem e changes).state ∧
      (sys.call i).producers = sys.producers.set i ⟨ProducerPC.idle, calls⟩ ∧
      (sys.call i).trace = sys.trace ++ (textChanged sys.mem e changes).trace := by
  rcases stepProducer_spec sys i _ hp with ⟨a1, a2, a3, a4⟩
  simp only [Producer.step] at a1 a2 a3
  cases changes with
  | nil =>
    simp only [List.length_nil, if_true] at a1 a2 a3
    have a4' : (stepProducer sys i).trace = sys.trace := by simpa [Producer.step] using a4
    simp only [System.call, hp]
    rw [finishCall_idle _ i _ _ a3 rfl, a1, a2, a4']
    exact ⟨rfl, rfl, by simp [textChanged]⟩
  | cons edit rest =>
    simp only [List.length_cons, Nat.add_one_ne_zero, if_false] at a1 a2 a3
    have a4' : (stepProducer sys i).trace = sys.trace := by simpa [Producer.step] using a4
    simp only [System.call, hp]
    rcases finishCall_link i e calls rest _ _ edit (3 * (edit :: rest).length + 1) a3
      (by simp) with ⟨g1, g2, g3⟩
    rw [g1, g2, g3, a1, a2, a4', List.set_set]
    simp [textChanged]

/-! ## A drain cycle run step by step is `processEdits` run at once -/

theorem run_cons (ro : RangeOrder) (hook : ChangeHook) (sys : System) (t : Tid) (ts : List Tid) :
    run ro hook sys (t :: ts) = run ro hook (step ro hook sys t) ts := rfl

theorem burst_succ (t : Tid) (n : Nat) : burst t (n + 1) = t :: burst t n := rfl

theorem dispatched_append (a b : List Event) :
    dispatched (a ++ b) = dispatched a ++ dispatched b := by
  induction a with
  | nil => rfl
  | cons x a ih => cases x <;> simp [dispatched, ih]

theorem dispatched_ofEdit (q : List (Editor × Edit)) : dispatched (q.map Event.ofEdit) = [] := by
  induction q with
  | nil => rfl
  | cons x q ih => simp [dispatched, Event.ofEdit, ih]

theorem dispatched_dispatch (keys : List Editor) (cells : List Editor) (c : Nat) :
    dispatched (dispatch cells c keys).2 = List.replicate keys.length ⟨c⟩ := by
  rw [dispatch_trace]
  induction keys with
  | nil => rfl
  | cons k ks ih => simpa [List.replicate_succ, dispatched] using ih

/-- The walk of the goroutine of `run` along a chain, step by step. -/
theorem worker_walk (ro : RangeOrder) (hook : ChangeHook) {h : Heap} {p : Option Nat}
    {ps : List Nat} {q : List (Editor × Edit)} (hc : Chain h p ps q) :
    ∀ (a : Nat) (sys : System) (editors : List Editor), p = some a → sys.mem.heap = h →
      sys.worker = some (WorkerPC.visit a editors) →
      run ro hook sys (burst Tid.worker ps.length) =
        { sys with
          worker := some (WorkerPC.reset (touched editors q))
          trace := sys.trace ++ q.map Event.ofEdit } := by
  induction hc with
  | nil => intro a sys editors hp; cases hp
  | @cons p nd ps q hp hinc htail ih =>
    intro a sys editors ha hh hw
    injection ha with ha
    subst ha
    subst hh
    have hstep : step ro hook sys Tid.worker =
        { sys with
          trace := sys.trace ++ [Event.hookTextChanged nd.editor nd.edit]
          worker := some (match nd.nextNode with
            | some x => WorkerPC.visit x (editorsInsert editors nd.editor)
            | none => WorkerPC.reset (editorsInsert editors nd.editor)) } := by
      simp only [step, stepWorker, hw, hp]
    rw [List.length_cons, burst_succ, run_cons, hstep]
    cases hnx : nd.next with
    | none =>
      rcases Chain.inv_none htail hnx with ⟨h1, h2⟩
      subst h1; subst h2
      simp [editNode.nextNode, hnx, burst, run, touched, Event.ofEdit]
    | some x =>
      have h1 := ih x { sys with
          trace := sys.trace ++ [Event.hookTextChanged nd.editor nd.edit]
          worker := some (WorkerPC.visit x (editorsInsert editors nd.editor)) }
        (editorsInsert editors nd.editor) hnx rfl rfl
      simp only [editNode.nextNode, hnx]
      rw [h1]
      simp [touched, Event.ofEdit]

/-- The range loop of the goroutine of `run`, step by step. -/
theorem worker_dispatch (ro : RangeOrder) (hook : ChangeHook) (c : Nat) (keys : List Editor) :
    ∀ sys : System, sys.worker = some (afterCall c keys) →
      run ro hook sys (burst Tid.worker keys.length) =
        { sys with
          mem := { sys.mem with cells := (dispatch sys.mem.cells c keys).1 }
          worker := some WorkerPC.idle
          uiQueue := sys.uiQueue ++ dispatched (dispatch sys.mem.cells c keys).2
          trace := sys.trace ++ (dispatch sys.mem.cells c keys).2 } := by
  induction keys with
  | nil =>
    intro sys hw
    rcases sys with ⟨mem, st, w, ps, uq, tr⟩
    simp only [afterCall] at hw
    simp [burst, run, dispatch, dispatched, hw]
  | cons k ks ih =>
    intro sys hw
    simp only [afterCall] at hw
    have hstep : step ro hook sys Tid.worker =
        { sys with
          mem := { sys.mem with cells := sys.mem.cells.set c k }
          uiQueue := sys.uiQueue ++ [⟨c⟩]
          trace := sys.trace ++ [Event.driverCall ⟨c⟩]
          worker := some (afterCall c ks) } := by
      simp only [step, stepWorker, hw]
    rw [List.length_cons, burst_succ, run_cons, hstep, ih _ rfl]
    simp [dispatch, dispatched, List.append_assoc]

/-- A drain cycle of the goroutine of `run`, made step by step while no other goroutine moves,
is `processEdits` run at once: the same memory, the same events, and the functions handed to
`driver.Call` in the queue of the UI goroutine. -/
theorem worker_cycle (ro : RangeOrder) (hook : ChangeHook) (sys : System)
    (q : List (Editor × Edit)) (hw : sys.worker = some WorkerPC.loadHead) (hi : Inv sys.mem q) :
    ∃ n o, processEdits ro sys.mem = some o ∧
      run ro hook sys (burst Tid.worker n) =
        { sys with
          mem := o.state
          worker := some WorkerPC.idle
          uiQueue := sys.uiQueue ++ dispatched o.trace
          trace := sys.trace ++ o.trace } := by
  cases hn : sys.mem.r.next with
  | none =>
    refine ⟨1, ⟨sys.mem, [], none⟩, by simp [processEdits, hn], ?_⟩
    rcases sys with ⟨mem, st, w, ps, uq, tr⟩
    simp only at hw hn
    simp [burst, run, step, stepWorker, hw, hn, dispatched]
  | some hd =>
    have hseg : ∃ ps, Chain sys.mem.heap (some hd) ps q := by
      unfold Inv at hi
      cases hl : sys.mem.r.last with
      | none => rw [hl] at hi; rw [hi.1] at hn; cases hn
      | some l =>
        rw [hl] at hi
        simp only [Tail, hn] at hi
        rcases hi with ⟨ps, hc, _⟩
        exact ⟨ps, hc⟩
    rcases hseg with ⟨ps, hc⟩
    have hlen : ps.length ≤ sys.mem.heap.length := by
      have := Chain.length_le hc hd rfl
      omega
    have hwalk := walk_chain hc sys.mem.heap.length [] hlen
    have h1 : step ro hook sys Tid.worker = { sys with worker := some (WorkerPC.visit hd []) } := by
      simp only [step, stepWorker, hw, hn]
    have h2 := worker_walk ro hook hc hd { sys with worker := some (WorkerPC.visit hd []) } []
      rfl rfl rfl
    have h3 : step ro hook { sys with
          worker := some (WorkerPC.reset (touched [] q))
          trace := sys.trace ++ q.map Event.ofEdit } Tid.worker =
        { sys with
          mem := { sys.mem with cells := sys.mem.cells ++ [0], r := { sys.mem.r with next := none } }
          worker := some (afterCall sys.mem.cells.length (ro.order (touched [] q)))
          trace := sys.trace ++ q.map Event.ofEdit } := by
      simp only [step, stepWorker]
    have h4 := worker_dispatch ro hook sys.mem.cells.length (ro.order (touched [] q))
      { sys with
          mem := { sys.mem with cells := sys.mem.cells ++ [0], r := { sys.mem.r with next := none } }
          worker := some (afterCall sys.mem.cells.length (ro.order (touched [] q)))
          trace := sys.trace ++ q.map Event.ofEdit } rfl
    refine ⟨1 + (ps.length + (1 + (ro.order (touched [] q)).length)),
      ⟨{ sys.mem with
          cells := (dispatch (sys.mem.cells ++ [0]) sys.mem.cells.length
            (ro.order (touched [] q))).1
          r := { sys.mem.r with next := none } },
        q.map Event.ofEdit ++
          (dispatch (sys.mem.cells ++ [0]) sys.mem.cells.length (ro.order (touched [] q))).2,
        none⟩,
      by simp only [processEdits, hn, hwalk], ?_⟩
    have hb : burst Tid.worker (1 + (ps.length + (1 + (ro.order (touched [] q)).length))) =
        [Tid.worker] ++ (burst Tid.worker ps.length ++
          ([Tid.worker] ++ burst Tid.worker (ro.order (touched [] q)).length)) := by
      simp [burst, List.replicate_add]
    have h0 : run ro hook sys [Tid.worker] = step ro hook sys Tid.worker := rfl
    have h5 : ∀ s : System, run ro hook s [Tid.worker] = step ro hook s Tid.worker := fun _ => rfl
    dsimp only at h2 h3 h4
    rw [hb, run_append, run_append, run_append, h0, h1, h2, h5, h3, h4]
    simp [dispatched_append, dispatched_ofEdit, List.append_assoc]

/-! ## Serialized append paths -/

theorem System.call_none (sys : System) (i : Nat) (h : sys.producers[i]? = none) :
    sys.call i = sys := by
  simp [System.call, h]

theorem System.call_nil (sys : System) (i : Nat)
    (h : sys.producers[i]? = some ⟨ProducerPC.idle, []⟩) : sys.call i = sys := by
  simp [System.call, h]

theorem serial_spec (order : List Nat) :
    ∀ (programs : List (List (Editor × List Edit))) (sys : System),
      sys.producers = programs.map Producer.waitingWith →
      (serial sys order).mem =
          textChangedAll sys.mem ((callsOf programs order).map (fun x => x.2)) ∧
        (serial sys order).producers =
          (programsAfter programs order).map Producer.waitingWith := by
  induction order with
  | nil => intro programs sys hp; exact ⟨rfl, hp⟩
  | cons i order ih =>
    intro programs sys hp
    have hget : sys.producers[i]? = (programs[i]?).map Producer.waitingWith := by
      rw [hp, List.getElem?_map]
    cases hi : programs[i]? with
    | none =>
      rw [hi] at hget
      simp only [serial, List.foldl_cons, System.call_none sys i hget, callsOf, programsAfter, hi]
      exact ih programs sys hp
    | some cs =>
      rw [hi] at hget
      cases cs with
      | nil =>
        simp only [serial, List.foldl_cons, System.call_nil sys i hget, callsOf, programsAfter, hi]
        exact ih programs sys hp
      | cons c cs =>
        rcases c with ⟨e, changes⟩
        rcases System.call_spec sys i e changes cs hget with ⟨h1, h2, _⟩
        have hp2 : (sys.call i).producers = (programs.set i cs).map Producer.waitingWith := by
          rw [h2, hp, List.map_set]
          rfl
        rcases ih (programs.set i cs) (sys.call i) hp2 with ⟨g1, g2⟩
        simp only [serial, List.foldl_cons, callsOf, programsAfter, hi, List.map_cons]
        refine ⟨?_, g2⟩
        rw [show List.foldl System.call (sys.call i) order = serial (sys.call i) order from rfl,
          g1, h1]
        rfl

theorem programOf_set (programs : List (List (Editor × List Edit))) (i j : Nat)
    (cs : List (Editor × List Edit)) (hi : i < programs.length) :
    programOf (programs.set i cs) j = if i = j then cs else programOf programs j := by
  unfold programOf
  by_cases hij : i = j
  · subst hij
    simp [List.getElem?_set_self hi]
  · simp [List.getElem?_set_ne hij, hij]

/-- The calls of producer `j` on a serialized append path, then the calls it has left, are its
program. -/
theorem callsOf_filter (j : Nat) (order : List Nat) :
    ∀ programs : List (List (Editor × List Edit)),
      ((callsOf programs order).filter (fun x => x.1 = j)).map (fun x => x.2) ++
          programOf (programsAfter programs order) j = programOf programs j := by
  induction order with
  | nil => intro programs; simp [callsOf, programsAfter]
  | cons i order ih =>
    intro programs
    cases hi : programs[i]? with
    | none => simpa [callsOf, programsAfter, hi] using ih programs
    | some cs =>
      cases cs with
      | nil => simpa [callsOf, programsAfter, hi] using ih programs
      | cons c cs =>
        have hlt : i < programs.length := (List.getElem?_eq_some.1 hi).1
        have h1 := ih (programs.set i cs)
        rw [programOf_set programs i j cs hlt] at h1
        simp only [callsOf, programsAfter, hi]
        by_cases hij : i = j
        · subst hij
          simp only [if_true] at h1
          have hprog : programOf programs i = c :: cs := by simp [programOf, hi]
          rw [hprog]
          simp only [List.filter_cons, decide_True, if_true, List.map_cons, List.cons_append, h1]
        · simp only [hij, if_false] at h1
          simp [List.filter_cons, hij, h1]

theorem sum_set (l : List Nat) :
    ∀ (i a : Nat) (hi : i < l.length), (l.set i a).sum + l[i] = l.sum + a := by
  induction l with
  | nil => intro i a hi; simp at hi
  | cons x l ih =>
    intro i a hi
    cases i with
    | zero => simp; omega
    | succ i =>
      have := ih i a (by simpa using hi)
      simp
      omega

theorem batches_cons (c : Editor × List Edit) (cs : List (Editor × List Edit)) :
    batches (c :: cs) = batch c.1 c.2 ++ batches cs := by
  simp [batches]

theorem totalEdits_set (programs : List (List (Editor × List Edit))) (i : Nat)
    (c : Editor × List Edit) (cs : List (Editor × List Edit)) (hi : programs[i]? = some (c :: cs)) :
    totalEdits (programs.set i cs) + (batch c.1 c.2).length = totalEdits programs := by
  have hlt : i < programs.length := (List.getElem?_eq_some.1 hi).1
  have hget : programs[i] = c :: cs := (List.getElem?_eq_some.1 hi).2
  have h1 := sum_set (programs.map (fun cs => (batches cs).length)) i (batches cs).length
    (by simpa using hlt)
  simp only [List.getElem_map, hget, batches_cons, List.length_append] at h1
  unfold totalEdits
  rw [List.map_set]
  omega

theorem callsOf_total (order : List Nat) :
    ∀ programs : List (List (Editor × List Edit)),
      (batches ((callsOf programs order).map (fun x => x.2))).length +
          totalEdits (programsAfter programs order) = totalEdits programs := by
  induction order with
  | nil => intro programs; simp [callsOf, programsAfter, batches]
  | cons i order ih =>
    intro programs
    cases hi : programs[i]? with
    | none => simpa [callsOf, programsAfter, hi] using ih programs
    | some cs =>
      cases cs with
      | nil => simpa [callsOf, programsAfter, hi] using ih programs
      | cons c cs =>
        have h1 := ih (programs.set i cs)
        have h2 := totalEdits_set programs i c cs hi
        simp only [callsOf, programsAfter, hi, List.map_cons, batches_cons, List.length_append]
        omega

theorem totalEdits_done (programs : List (List (Editor × List Edit)))
    (h : ∀ cs ∈ programs, cs = []) : totalEdits programs = 0 := by
  induction programs with
  | nil => rfl
  | cons cs programs ih =>
    have h1 : cs = [] := h cs (List.mem_cons_self _ _)
    have h2 := ih (fun x hx => h x (List.mem_cons_of_mem _ hx))
    unfold totalEdits at h2 ⊢
    rw [List.map_cons, List.sum_cons, h1, h2]
    rfl

theorem programOf_done (programs : List (List (Editor × List Edit)))
    (h : ∀ cs ∈ programs, cs = []) (j : Nat) : programOf programs j = [] := by
  unfold programOf
  cases hj : programs[j]? with
  | none => rfl
  | some cs => exact h cs (List.getElem?_mem hj)

/-! ## The claims about the sequential behaviour -/

/-- C4: whenever `processEdits` returns, in whatever state it was called, its trace has no
`TextChanged` call after a `driver.Call`: all edits of the cycle are delivered before the first
`Apply` callback is dispatched.  And in every state a sequential schedule reaches it does
return. -/
theorem C4_textChanged_before_dispatch (ro : RangeOrder) (s : State) :
    (∀ o, processEdits ro s = some o →
      ∀ (a b : List Event) (f : Closure), o.trace = a ++ Event.driverCall f :: b →
        ∀ e edit, Event.hookTextChanged e edit ∉ b) ∧
      (∀ pre trs, exec ro State.started pre = some (s, trs) →
        ∃ o, processEdits ro s = some o) := by
  constructor
  · intro o ho a b f heq
    rcases processEdits_shape ro s o ho with ⟨tcs, n, c, h1, h2⟩
    rw [h1] at heq
    exact no_textChanged_after_call tcs n c h2 a b f heq
  · intro pre trs hreach
    rcases reachable_inv ro pre s trs hreach with ⟨q, hi⟩
    rcases processEdits_inv ro s q hi with ⟨o, ho, _⟩
    exact ⟨o, ho⟩

theorem C4_witness :
    ∃ o, processEdits RangeOrder.insertion
        (textChangedAll State.started [(1, [Edit.ins 0 97]), (2, [Edit.ins 0 98])]) = some o ∧
      ∀ (a b : List Event) (f : Closure), o.trace = a ++ Event.driverCall f :: b →
        ∀ e edit, Event.hookTextChanged e edit ∉ b :=
  ((C4_textChanged_before_dispatch RangeOrder.insertion
      (textChangedAll State.started [(1, [Edit.ins 0 97]), (2, [Edit.ins 0 98])])).2
    [Op.textChanged 1 [Edit.ins 0 97], Op.textChanged 2 [Edit.ins 0 98]]
    [[Event.condSignal], []] rfl).imp
    (fun o ho => ⟨ho, (C4_textChanged_before_dispatch RangeOrder.insertion
      (textChangedAll State.started [(1, [Edit.ins 0 97]), (2, [Edit.ins 0 98])])).1 o ho⟩)

/-- C8: a `textChanged` call with a non-empty list, run without interruption in a state a
sequential schedule reaches, allocates one node per edit; these nodes carry the editor of the call
and the edits in list order, are linked in that order after the previous tail (the node `r.last`
pointed to, or a new zero node when `r.last` was nil) and end in nil; `r.last` becomes the last of
them.  If the head was nil it becomes the first new node and the condition is signalled exactly
once in the call; otherwise the head is left as it was and no signal is sent.  The call returns
nil. -/
theorem C8_textChanged_links_after_tail (ro : RangeOrder) (pre : List Op) (s : State)
    (trs : List (List Event)) (hreach : exec ro State.started pre = some (s, trs))
    (e : Editor) (edit : Edit) (rest : List Edit) :
    ∃ ps : List Nat,
      ps.length = (edit :: rest).length ∧
      (∀ p ∈ ps, s.heap.length ≤ p) ∧
      Chain (textChanged s e (edit :: rest)).state.heap
        (Heap.loadNext (textChanged s e (edit :: rest)).state.heap (loadLast s).2) ps
        (batch e (edit :: rest)) ∧
      (∀ t, s.r.last = some t → (loadLast s).2 = t) ∧
      (textChanged s e (edit :: rest)).state.r.last = ps.getLast? ∧
      (s.r.next = none → (textChanged s e (edit :: rest)).state.r.next = ps.head? ∧
        signals (textChanged s e (edit :: rest)).trace = 1) ∧
      (∀ hd, s.r.next = some hd → (textChanged s e (edit :: rest)).state.r.next = some hd ∧
        signals (textChanged s e (edit :: rest)).trace = 0) ∧
      (textChanged s e (edit :: rest)).err = none := by
  rcases reachable_inv ro pre s trs hreach with ⟨q, hi⟩
  have ht := loadLast_tail s q hi
  rcases tail_node ht with ⟨nd, hnd, hnx⟩
  have hc0 : Chain (loadLast s).1.heap (some (loadLast s).2) [(loadLast s).2]
      [(nd.editor, nd.edit)] := by
    refine Chain.cons hnd (by intro x hx; rw [hnx] at hx; cases hx) ?_
    rw [hnx]; exact Chain.nil
  rcases appendLoop_chain e (loadLast s).2 (edit :: rest) (loadLast s).1 (loadLast s).2 _ _ hc0 rfl
    with ⟨ps2, g1, g2, g3, g4, g5⟩
  have hne : ps2 ≠ [] := by
    intro h0; rw [h0] at g3; simp at g3
  rcases Chain.inv_some g1 rfl with ⟨nd', rest', q', k1, _, k3, k4, k5⟩
  simp only [List.singleton_append, List.cons.injEq, true_and] at k4 k5
  have hnext : (loadLast s).1.r.next = s.r.next := by
    unfold loadLast; cases s.r.last <;> rfl
  refine ⟨ps2, g3, ?_, ?_, ?_, ?_, ?_, ?_, rfl⟩
  · intro p hp
    have := g4 p hp
    have := loadLast_heap_le s
    omega
  · have hload : Heap.loadNext (appendLoop (loadLast s).1 (loadLast s).2 e (edit :: rest)).1.heap
        (loadLast s).2 = nd'.next := by
      simp [Heap.loadNext, k1, editNode.nextNode]
    simp only [textChanged, List.length_cons, Nat.add_one_ne_zero, if_false]
    rw [hload, k4, k5.2]
    exact k3
  · intro t ht2
    simp [loadLast, ht2]
  · simp only [textChanged, List.length_cons, Nat.add_one_ne_zero, if_false]
    rw [← g2]
    cases ps2 with
    | nil => exact absurd rfl hne
    | cons x xs => simp [List.getLast?_cons_cons]
  · intro hn
    rcases appendLoop_head_none e edit rest (loadLast s).1 (loadLast s).2 (hnext.trans hn)
      with ⟨m1, m2⟩
    simp only [textChanged, List.length_cons, Nat.add_one_ne_zero, if_false]
    rw [m1, m2, g5 (by simp)]
    exact ⟨rfl, rfl⟩
  · intro hd hn
    rcases appendLoop_head_some e (edit :: rest) (loadLast s).1 (loadLast s).2 hd (hnext.trans hn)
      with ⟨m1, m2⟩
    simp only [textChanged, List.length_cons, Nat.add_one_ne_zero, if_false]
    rw [m1, m2]
    exact ⟨rfl, rfl⟩

/-- C9: `textChanged` with an empty (or nil) list of edits returns nil at once: the memory is the
same (no node allocated, head and tail as before) and there is no event, so no signal. -/
theorem C9_textChanged_empty_is_noop (s : State) (e : Editor) :
    (textChanged s e []).err = none ∧ (textChanged s e []).state = s ∧
      (textChanged s e []).state.heap = s.heap ∧
      (textChanged s e []).state.r.next = s.r.next ∧
      (textChanged s e []).state.r.last = s.r.last ∧
      (textChanged s e []).trace = [] ∧ signals (textChanged s e []).trace = 0 :=
  ⟨rfl, rfl, rfl, rfl, rfl, rfl, rfl⟩

/-- C10: `init` calls the hook's `Init` with the editor and the full text and then `Apply` for
that editor exactly once, in this order; it calls `TextChanged` zero times, hands nothing to
`driver.Call`, and leaves the memory, head and tail included, as it was. -/
theorem C10_init_calls_Init_then_Apply (s : State) (e : Editor) (text : List Nat) :
    (init s e text).2 = [Event.hookInit e text, Event.hookApply e] ∧
      applied (init s e text).2 = [e] ∧ delivered (init s e text).2 = [] ∧
      dispatched (init s e text).2 = [] ∧
      (init s e text).1 = s ∧ (init s e text).1.r.next = s.r.next ∧
      (init s e text).1.r.last = s.r.last :=
  ⟨rfl, rfl, rfl, rfl, rfl, rfl, rfl⟩


/-! ## The claims about interleavings -/

theorem quiet_step (ro : RangeOrder) (hook : ChangeHook) (sys : System) (hs : Quiet sys) (t : Tid) :
    Quiet (step ro hook sys t) ∧ delivered (step ro hook sys t).trace = delivered sys.trace := by
  rcases hs with ⟨hw, hst, hp⟩
  cases t with
  | starter =>
    have h0 : step ro hook sys Tid.starter = sys := by simp [step, stepStarter, hst]
    rw [h0]; exact ⟨⟨hw, hst, hp⟩, rfl⟩
  | worker =>
    have h0 : step ro hook sys Tid.worker = sys := by simp [step, stepWorker, hw]
    rw [h0]; exact ⟨⟨hw, hst, hp⟩, rfl⟩
  | ui =>
    simp only [step, stepUI]
    split
    · exact ⟨⟨hw, hst, hp⟩, rfl⟩
    · refine ⟨⟨hw, hst, hp⟩, ?_⟩
      simp [delivered_append, Closure.run_delivered]
  | producer i =>
    simp only [step, stepProducer]
    cases hi : sys.producers[i]? with
    | none => exact ⟨⟨hw, hst, hp⟩, rfl⟩
    | some p =>
      have hpi : p = ⟨ProducerPC.idle, []⟩ := hp p (List.getElem?_mem hi)
      subst hpi
      refine ⟨⟨hw, hst, ?_⟩, rfl⟩
      intro p' hp'
      rcases List.mem_or_eq_of_mem_set hp' with h4 | h4
      · exact hp p' h4
      · rw [h4]; rfl

theorem quiet_run (ro : RangeOrder) (hook : ChangeHook) (sched : List Tid) :
    ∀ sys, Quiet sys → delivered (run ro hook sys sched).trace = delivered sys.trace := by
  induction sched with
  | nil => intro sys _; rfl
  | cons t sched ih =>
    intro sys hs
    rcases quiet_step ro hook sys hs t with ⟨h1, h2⟩
    exact (ih _ h1).trans h2

/-- C3 (the code does not do this): edits for the editors 1 and 2 are queued and drained in one
cycle, and `TextChanged` is called for both.  `processEdits` hands `driver.Call` two function
literals, and both refer to the one range variable `e` of the loop of lines 102-108.  When the UI
goroutine runs them after the loop has ended, both call `Apply` on the key ranged over last:
`Apply` runs twice for that editor and never for the other, whichever order the map is ranged
over.  Only when the UI goroutine runs each function before the loop goes on does every editor
get its `Apply`. -/
theorem C3_callbacks_share_the_range_variable :
    delivered (run RangeOrder.insertion ChangeHook.ok (System.started twoEditors)
        callbacksAfterLoop).trace = [(1, Edit.ins 0 97), (2, Edit.ins 0 98)] ∧
      dispatched (run RangeOrder.insertion ChangeHook.ok (System.started twoEditors)
        callbacksAfterLoop).trace = [⟨0⟩, ⟨0⟩] ∧
      applied (run RangeOrder.insertion ChangeHook.ok (System.started twoEditors)
        callbacksAfterLoop).trace = [2, 2] ∧
      applied (run RangeOrder.reversed ChangeHook.ok (System.started twoEditors)
        callbacksAfterLoop).trace = [1, 1] ∧
      applied (run RangeOrder.insertion ChangeHook.ok (System.started twoEditors)
        callbacksAtOnce).trace = [1, 2] := by
  decide

/-- C5 (the code does not do this): the head is read at line 90 and reset at line 101, in two
steps.  A call of `textChanged` that runs from entry to return after the walk has loaded the nil
`next` of the last node and before the reset links its node after the tail, fails its
compare-and-swap because the head is not nil, and sends no signal; the reset then cuts the node
off.  The edit is delivered neither in this cycle nor in the next (which delivers only the edit
appended after it), nor ever after, whatever the goroutines do. -/
theorem C5_edit_appended_before_the_reset_is_lost (ro : RangeOrder) (hook : ChangeHook)
    (sched : List Tid) :
    raceBeforeReset.worker = some (WorkerPC.reset [1]) ∧
      raceBeforeReset.producers =
        [⟨ProducerPC.idle, [(1, [Edit.ins 1 98]), (1, [Edit.ins 2 99])]⟩] ∧
      raceAppended.worker = some (WorkerPC.reset [1]) ∧
      raceAppended.producers = [⟨ProducerPC.idle, [(1, [Edit.ins 2 99])]⟩] ∧
      raceAppended.mem.heap[2]? = some ⟨Edit.ins 1 98, 1, none⟩ ∧
      Heap.loadNext raceAppended.mem.heap 1 = some 2 ∧
      raceEnd.producers = [⟨ProducerPC.idle, []⟩] ∧
      raceEnd.mem.r.next = none ∧
      delivered (run ro hook raceEnd sched).trace = [(1, Edit.ins 0 97), (1, Edit.ins 2 99)] := by
  have hq : Quiet raceEnd := by
    refine ⟨by decide, by decide, ?_⟩
    intro p hp
    have h0 : raceEnd.producers = [⟨ProducerPC.idle, []⟩] := by decide
    rw [h0] at hp
    simpa using hp
  refine ⟨by decide, by decide, by decide, by decide, by decide, by decide, by decide, by decide, ?_⟩
  rw [quiet_run ro hook sched raceEnd hq]
  decide

/-! ## Wake-ups: calls of `textChanged` and the drain cycle that follows -/

theorem wake_wake (w : Option WorkerPC) : wake (wake w) = wake w := by
  cases w with
  | none => rfl
  | some pc => cases pc <;> rfl

theorem Signalled.refl (sys : System) : Signalled sys sys :=
  ⟨rfl, rfl, [], by simp, by simp⟩

theorem Signalled.trans {a b c : System} (h1 : Signalled a b) (h2 : Signalled b c) :
    Signalled a c := by
  rcases h1 with ⟨s1, u1, ev1, t1, w1⟩
  rcases h2 with ⟨s2, u2, ev2, t2, w2⟩
  refine ⟨s2.trans s1, u2.trans u1, ev1 ++ ev2, by rw [t2, t1, List.append_assoc], ?_⟩
  rw [w2, w1]
  by_cases h1 : ev1 = [] <;> by_cases h2 : ev2 = [] <;> simp [h1, h2, wake_wake]

theorem stepProducer_signalled (sys : System) (i : Nat) : Signalled sys (stepProducer sys i) := by
  unfold stepProducer
  cases hp : sys.producers[i]? with
  | none => exact Signalled.refl sys
  | some p =>
    by_cases hs : (p.step sys.mem).2.2 = true
    · exact ⟨rfl, rfl, [Event.condSignal], by simp [hs], by simp [hs]⟩
    · exact ⟨rfl, rfl, [], by simp [hs], by simp [hs]⟩

theorem finishCall_signalled (fuel : Nat) :
    ∀ (sys : System) (i : Nat), Signalled sys (finishCall fuel sys i) := by
  induction fuel with
  | zero => intro sys i; exact Signalled.refl sys
  | succ fuel ih =>
    intro sys i
    simp only [finishCall]
    cases hp : sys.producers[i]? with
    | none => exact Signalled.refl sys
    | some p =>
      by_cases hpc : p.pc = ProducerPC.idle
      · simp only [hpc, if_true]
        exact Signalled.refl sys
      · simp only [hpc, if_false]
        exact (stepProducer_signalled sys i).trans (ih _ i)

theorem System.call_signalled (sys : System) (i : Nat) : Signalled sys (sys.call i) := by
  unfold System.call
  split
  · exact (stepProducer_signalled sys i).trans (finishCall_signalled _ _ i)
  · exact Signalled.refl sys

/-- The head and the signal of a call of `textChanged`: a non-nil head stays and nothing is
signalled; a nil head stays nil, with no signal, when the list is empty, and otherwise becomes
non-nil with one signal. -/
theorem textChanged_head (s : State) (e : Editor) (changes : List Edit) :
    (s.r.next ≠ none → (textChanged s e changes).state.r.next = s.r.next ∧
        (textChanged s e changes).trace = []) ∧
      (s.r.next = none → (textChanged s e changes).state.r.next = none →
        (textChanged s e changes).trace = []) ∧
      (s.r.next = none → (textChanged s e changes).state.r.next ≠ none →
        (textChanged s e changes).trace = [Event.condSignal]) := by
  cases changes with
  | nil => simp [textChanged]
  | cons edit rest =>
    cases hn : s.r.next with
    | none =>
      have h := appendLoop_head_none e edit rest (loadLast s).1 (loadLast s).2
        ((loadLast_next s).trans hn)
      simp [textChanged, h.1, h.2]
    | some hd =>
      have h := appendLoop_head_some e (edit :: rest) (loadLast s).1 (loadLast s).2 hd
        ((loadLast_next s).trans hn)
      simp [textChanged, h.1, h.2]

/-- A call of `textChanged` made step by step wakes the goroutine of `run` exactly when it makes
the nil head non-nil. -/
theorem System.call_worker (sys : System) (i : Nat) (e : Editor) (changes : List Edit)
    (calls : List (Editor × List Edit))
    (hp : sys.producers[i]? = some ⟨ProducerPC.idle, (e, changes) :: calls⟩) :
    (sys.call i).starter = sys.starter ∧ (sys.call i).uiQueue = sys.uiQueue ∧
      (sys.call i).worker =
        if (textChanged sys.mem e changes).trace = [] then sys.worker else wake sys.worker := by
  rcases System.call_signalled sys i with ⟨h1, h2, evs, h3, h4⟩
  rcases System.call_spec sys i e changes calls hp with ⟨_, _, h5⟩
  rw [h5] at h3
  have h6 := List.append_cancel_left h3
  rw [← h6] at h4
  exact ⟨h1, h2, h4⟩

/-- Calls of `textChanged` made one after the other while no other goroutine moves: they call no
`TextChanged`, leave the goroutine of `start` and the queue of the UI goroutine alone, and wake
the goroutine of `run` exactly when they make the nil head non-nil. -/
theorem serial_worker (order : List Nat) :
    ∀ (programs : List (List (Editor × List Edit))) (sys : System),
      sys.producers = programs.map Producer.waitingWith →
      (serial sys order).starter = sys.starter ∧ (serial sys order).uiQueue = sys.uiQueue ∧
        delivered (serial sys order).trace = delivered sys.trace ∧
        (sys.mem.r.next ≠ none →
          (serial sys order).worker = sys.worker ∧ (serial sys order).mem.r.next ≠ none) ∧
        (sys.mem.r.next = none → (serial sys order).mem.r.next = none →
          (serial sys order).worker = sys.worker) ∧
        (sys.mem.r.next = none → (serial sys order).mem.r.next ≠ none →
          (serial sys order).worker = wake sys.worker) := by
  induction order with
  | nil =>
    intro programs sys hp
    exact ⟨rfl, rfl, rfl, fun h => ⟨rfl, h⟩, fun _ _ => rfl, fun h1 h2 => absurd h1 h2⟩
  | cons i order ih =>
    intro programs sys hp
    have hget : sys.producers[i]? = (programs[i]?).map Producer.waitingWith := by
      rw [hp, List.getElem?_map]
    cases hi : programs[i]? with
    | none =>
      rw [hi] at hget
      simp only [serial, List.foldl_cons, System.call_none sys i hget]
      exact ih programs sys hp
    | some cs =>
      rw [hi] at hget
      cases cs with
      | nil =>
        simp only [serial, List.foldl_cons, System.call_nil sys i hget]
        exact ih programs sys hp
      | cons c cs =>
        rcases c with ⟨e, changes⟩
        rcases System.call_spec sys i e changes cs hget with ⟨h1, h2, h3⟩
        rcases System.call_worker sys i e changes cs hget with ⟨w1, w2, w3⟩
        have hp2 : (sys.call i).producers = (programs.set i cs).map Producer.waitingWith := by
          rw [h2, hp, List.map_set]
          rfl
        rcases ih (programs.set i cs) (sys.call i) hp2 with ⟨g1, g2, g3, g4, g5, g6⟩
        have hfold : serial sys (i :: order) = serial (sys.call i) order := rfl
        rw [hfold]
        rcases textChanged_head sys.mem e changes with ⟨t1, t2, t3⟩
        have hdel : delivered (sys.call i).trace = delivered sys.trace := by
          rw [h3, delivered_append, textChanged_delivered, List.append_nil]
        refine ⟨g1.trans w1, g2.trans w2, g3.trans hdel, ?_, ?_, ?_⟩
        · intro hn
          have hn1 : (sys.call i).mem.r.next ≠ none := by rw [h1, (t1 hn).1]; exact hn
          have hw : (sys.call i).worker = sys.worker := by rw [w3, (t1 hn).2]; simp
          exact ⟨(g4 hn1).1.trans hw, (g4 hn1).2⟩
        · intro hn hn2
          by_cases hn1 : (sys.call i).mem.r.next = none
          · have hw : (sys.call i).worker = sys.worker := by
              rw [w3, t2 hn (by rw [← h1]; exact hn1)]; simp
            exact (g5 hn1 hn2).trans hw
          · exact absurd hn2 (g4 hn1).2
        · intro hn hn2
          by_cases hn1 : (sys.call i).mem.r.next = none
          · have hw : (sys.call i).worker = sys.worker := by
              rw [w3, t2 hn (by rw [← h1]; exact hn1)]; simp
            rw [g6 hn1 hn2, hw]
          · have hw : (sys.call i).worker = wake sys.worker := by
              rw [w3, t3 hn (by rw [← h1]; exact hn1)]; simp
            rw [(g4 hn1).1, hw]


theorem burst_snoc (t : Tid) (n : Nat) : burst t (n + 1) = burst t n ++ [t] := by
  simp [burst, List.replicate_succ']

/-- With the goroutine of `run` inside `Wait` and the queue empty: after calls of `textChanged`
made one after the other, the goroutine of `run`, moving alone, delivers the edits of the calls
in call order in one drain cycle and is inside `Wait` again, with the queue empty. -/
theorem serial_then_drain (ro : RangeOrder) (hook : ChangeHook)
    (programs : List (List (Editor × List Edit))) (order : List Nat) (sys : System)
    (q0 : List (Editor × Edit))
    (hp : sys.producers = programs.map Producer.waitingWith)
    (hw : sys.worker = some WorkerPC.waiting) (hst : sys.starter = StarterPC.done)
    (hi : Inv sys.mem q0) (hn : sys.mem.r.next = none) :
    ∃ n, (run ro hook (serial sys order) (burst Tid.worker n)).worker = some WorkerPC.waiting ∧
      (run ro hook (serial sys order) (burst Tid.worker n)).starter = StarterPC.done ∧
      (run ro hook (serial sys order) (burst Tid.worker n)).producers =
        (programsAfter programs order).map Producer.waitingWith ∧
      delivered (run ro hook (serial sys order) (burst Tid.worker n)).trace =
        delivered sys.trace ++ batches ((callsOf programs order).map (fun x => x.2)) ∧
      (run ro hook (serial sys order) (burst Tid.worker n)).mem.r.next = none ∧
      Inv (run ro hook (serial sys order) (burst Tid.worker n)).mem [] := by
  have hq0 := inv_empty hi hn
  subst hq0
  rcases serial_spec order programs sys hp with ⟨m1, m2⟩
  rcases serial_worker order programs sys hp with ⟨s1, _, s3, _, s5, s6⟩
  have hinv := textChangedAll_inv ((callsOf programs order).map (fun x => x.2)) sys.mem [] hi
  rw [← m1] at hinv
  simp only [List.nil_append] at hinv
  by_cases hn2 : (serial sys order).mem.r.next = none
  · have hb := inv_empty hinv hn2
    refine ⟨0, ?_, ?_, ?_, ?_, ?_, ?_⟩
    · exact (s5 hn hn2).trans hw
    · exact s1.trans hst
    · exact m2
    · show delivered (serial sys order).trace = _
      rw [s3, hb, List.append_nil]
    · exact hn2
    · show Inv (serial sys order).mem []
      rw [← hb]; exact hinv
  · have hw2 : (serial sys order).worker = some WorkerPC.loadHead := by
      rw [s6 hn hn2, hw]; rfl
    rcases worker_cycle ro hook (serial sys order) _ hw2 hinv with ⟨n0, o, ho, hrun⟩
    rcases processEdits_inv ro _ _ hinv with ⟨o2, ho2, _, hio, htr, _, _, hnext⟩
    rw [ho] at ho2
    cases ho2
    have hfin : run ro hook (serial sys order) (burst Tid.worker (n0 + 1)) =
        { serial sys order with
          mem := o.state
          worker := some WorkerPC.waiting
          uiQueue := (serial sys order).uiQueue ++ dispatched o.trace
          trace := (serial sys order).trace ++ o.trace } := by
      rw [burst_snoc, run_append, hrun]
      simp [run, step, stepWorker]
    refine ⟨n0 + 1, ?_, ?_, ?_, ?_, ?_, ?_⟩
    · rw [hfin]
    · rw [hfin]; exact s1.trans hst
    · rw [hfin]; exact m2
    · rw [hfin]
      show delivered ((serial sys order).trace ++ o.trace) = _
      rw [delivered_append, s3, htr, delivered_append, delivered_ofEdit,
        delivered_replicate_call, List.append_nil]
    · rw [hfin]; exact hnext
    · rw [hfin]; exact hio

theorem callsOf_single (calls : List (Editor × List Edit)) :
    callsOf [calls] (List.replicate calls.length 0) = calls.map (fun c => (0, c)) ∧
      programsAfter [calls] (List.replicate calls.length 0) = [[]] := by
  induction calls with
  | nil => exact ⟨rfl, rfl⟩
  | cons c cs ih =>
    simp only [List.length_cons, List.replicate_succ, callsOf, programsAfter, List.map_cons]
    simpa using ih

theorem inv_head {s : State} {q : List (Editor × Edit)} (hi : Inv s q) (hq : q ≠ []) :
    s.r.next ≠ none := fun hn => hq (inv_empty hi hn)

/-- C1 (the code does not do this): for every sequence of `textChanged` calls that appends at
least one edit to the empty queue of a started reader, a `processEdits` that is called after the
calls have returned delivers nothing: the one `Signal` was sent before its `Wait` and is not
remembered, so the goroutine of `run` stays inside `Wait` with the head not nil, and `TextChanged`
is never called, however the goroutines are scheduled afterwards.  Only when the goroutine of
`run` is inside `Wait` before the first call is it woken; the drain cycle that follows the calls
then calls `TextChanged` once per appended edit, in append order, each with the editor of its
call. -/
theorem C1_drain_called_after_the_appends_blocks (ro : RangeOrder) (hook : ChangeHook)
    (calls : List (Editor × List Edit)) (sched : List Tid) (hne : batches calls ≠ []) :
    (serial (System.started [calls]) (List.replicate calls.length 0)).mem =
        textChangedAll State.started calls ∧
      (serial (System.started [calls]) (List.replicate calls.length 0)).producers =
        [⟨ProducerPC.idle, []⟩] ∧
      (serial (System.started [calls]) (List.replicate calls.length 0)).worker =
        some WorkerPC.idle ∧
      (run ro hook (serial (System.started [calls]) (List.replicate calls.length 0))
        (Tid.worker :: sched)).worker = some WorkerPC.waiting ∧
      (run ro hook (serial (System.started [calls]) (List.replicate calls.length 0))
        (Tid.worker :: sched)).mem.r.next ≠ none ∧
      delivered (run ro hook (serial (System.started [calls]) (List.replicate calls.length 0))
        (Tid.worker :: sched)).trace = [] ∧
      ∃ n,
        delivered (run ro hook
          (serial (run ro hook (System.started [calls]) [Tid.worker])
            (List.replicate calls.length 0)) (burst Tid.worker n)).trace = batches calls ∧
        (run ro hook
          (serial (run ro hook (System.started [calls]) [Tid.worker])
            (List.replicate calls.length 0)) (burst Tid.worker n)).mem.r.next = none := by
  have hc := callsOf_single calls
  have hmap : (calls.map (fun c => ((0 : Nat), c))).map (fun x => x.2) = calls := by
    simp [List.map_map, Function.comp_def]
  rcases serial_spec (List.replicate calls.length 0) [calls] (System.started [calls]) rfl with
    ⟨m1, m2⟩
  rcases serial_worker (List.replicate calls.length 0) [calls] (System.started [calls]) rfl with
    ⟨s1, _, s3, _, s5, s6⟩
  rw [hc.1, hmap] at m1
  rw [hc.2] at m2
  have hinv : Inv (serial (System.started [calls])
      (List.replicate calls.length 0)).mem (batches calls) := by
    rw [m1]
    simpa using textChangedAll_inv calls State.started [] started_inv
  have hhead := inv_head hinv hne
  have hw : (serial (System.started [calls]) (List.replicate calls.length 0)).worker =
      some WorkerPC.idle := s6 rfl hhead
  have hstuck : Stuck (step ro hook
      (serial (System.started [calls]) (List.replicate calls.length 0)) Tid.worker) := by
    have h0 : step ro hook (serial (System.started [calls]) (List.replicate calls.length 0))
        Tid.worker = { serial (System.started [calls]) (List.replicate calls.length 0) with
          worker := some WorkerPC.waiting } := by
      simp [step, stepWorker, hw]
    rw [h0]
    refine ⟨rfl, hhead, s1, ?_⟩
    intro p hp e n rest
    rw [show ({ serial (System.started [calls]) (List.replicate calls.length 0) with
      worker := some WorkerPC.waiting } : System).producers =
        (serial (System.started [calls]) (List.replicate calls.length 0)).producers from rfl,
      m2] at hp
    simp only [List.map_cons, List.map_nil, List.mem_singleton] at hp
    rw [hp]
    simp [Producer.waitingWith]
  rcases stuck_run ro hook sched _ hstuck with ⟨h1, h2⟩
  have hd0 : delivered (step ro hook
      (serial (System.started [calls]) (List.replicate calls.length 0)) Tid.worker).trace =
      [] := by
    have h0 : (step ro hook (serial (System.started [calls]) (List.replicate calls.length 0))
        Tid.worker).trace =
          (serial (System.started [calls]) (List.replicate calls.length 0)).trace := by
      simp [step, stepWorker, hw]
    rw [h0, s3]
    rfl
  refine ⟨m1, m2, hw, ?_, ?_, ?_, ?_⟩
  · rw [run_cons]; exact h1.1
  · rw [run_cons]; exact h1.2.1
  · rw [run_cons, h2, hd0]
  · rcases serial_then_drain ro hook [calls] (List.replicate calls.length 0)
      (run ro hook (System.started [calls]) [Tid.worker]) [] rfl rfl rfl started_inv rfl with
      ⟨n, _, _, _, g4, g5, _⟩
    refine ⟨n, ?_, g5⟩
    rw [g4, hc.1, hmap]
    rfl

/-- Two calls that append three edits for the editors 1 and 2: called after them,
`processEdits` delivers nothing; inside `Wait` before them, it delivers the three edits in
order. -/
theorem C1_witness :
    batches [(1, [Edit.ins 0 97, Edit.ins 1 98]), (2, [Edit.ins 0 99])] ≠ [] ∧
      delivered (run RangeOrder.insertion ChangeHook.ok
        (serial (System.started [[(1, [Edit.ins 0 97, Edit.ins 1 98]), (2, [Edit.ins 0 99])]])
          (List.replicate 2 0)) [Tid.worker, Tid.worker, Tid.ui]).trace = [] ∧
      ∃ n,
        delivered (run RangeOrder.insertion ChangeHook.ok
          (serial (run RangeOrder.insertion ChangeHook.ok
            (System.started [[(1, [Edit.ins 0 97, Edit.ins 1 98]), (2, [Edit.ins 0 99])]])
            [Tid.worker]) (List.replicate 2 0)) (burst Tid.worker n)).trace =
          [(1, Edit.ins 0 97), (1, Edit.ins 1 98), (2, Edit.ins 0 99)] :=
  ⟨by decide,
    (C1_drain_called_after_the_appends_blocks RangeOrder.insertion ChangeHook.ok
      [(1, [Edit.ins 0 97, Edit.ins 1 98]), (2, [Edit.ins 0 99])] [Tid.worker, Tid.ui]
      (by decide)).2.2.2.2.2.1,
    (C1_drain_called_after_the_appends_blocks RangeOrder.insertion ChangeHook.ok
      [(1, [Edit.ins 0 97, Edit.ins 1 98]), (2, [Edit.ins 0 99])] [Tid.worker, Tid.ui]
      (by decide)).2.2.2.2.2.2.imp (fun _ h => h.1)⟩

/-- C2 (the code does not do this): the goroutine of `run` is inside `Wait`; a first call of
`textChanged` wakes it, and the drain cycle delivers the first edit and returns.  A second call
of `textChanged` then runs to its return and signals while no goroutine is inside `Wait`; the
`processEdits` called after it enters `Wait` after that `Signal` and stays there.  The second
edit was appended before the last drain and is skipped: it is delivered neither by that drain nor
ever after, whatever calls follow and however the goroutines are scheduled. -/
theorem C2_edit_appended_between_two_drains_is_skipped (ro : RangeOrder) (hook : ChangeHook)
    (sched : List Tid) :
    afterFirstDrain.worker = some WorkerPC.idle ∧
      delivered afterFirstDrain.trace = [(1, Edit.ins 0 97)] ∧
      afterFirstDrain.mem.r.next = none ∧
      secondDrainBegun.producers = [⟨ProducerPC.idle, [(1, [Edit.ins 2 99])]⟩] ∧
      signals secondDrainBegun.trace = signals afterFirstDrain.trace + 1 ∧
      secondDrainBegun.worker = some WorkerPC.waiting ∧
      (run ro hook secondDrainBegun sched).worker = some WorkerPC.waiting ∧
      (run ro hook secondDrainBegun sched).mem.r.next ≠ none ∧
      delivered (run ro hook secondDrainBegun sched).trace = [(1, Edit.ins 0 97)] := by
  have hs : Stuck secondDrainBegun := by
    refine ⟨by decide, by decide, by decide, ?_⟩
    intro p hp e n rest
    have h0 : secondDrainBegun.producers = [⟨ProducerPC.idle, [(1, [Edit.ins 2 99])]⟩] := by
      decide
    rw [h0] at hp
    simp only [List.mem_singleton] at hp
    rw [hp]
    simp
  rcases stuck_run ro hook sched _ hs with ⟨h1, h2⟩
  refine ⟨by decide, by decide, by decide, by decide, by decide, by decide, h1.1, h1.2.1, ?_⟩
  rw [h2]
  decide

/-- C6, as the claim states it, fails: the goroutine of `run` is inside `Wait`; two producers
whose calls overlap both load the nil `r.last`; each links its node after a zero node of its own,
one compare-and-swap installs the head and the other fails.  Both calls return, two edits were
appended, and the drain cycle delivers one.  The goroutine of `run` is inside `Wait` again and
every producer has returned: the other edit is never delivered. -/
theorem C6_overlapping_calls_lose_an_edit :
    overlappingDrained.producers = [⟨ProducerPC.idle, []⟩, ⟨ProducerPC.idle, []⟩] ∧
      totalEdits twoProducers = 2 ∧
      delivered overlappingDrained.trace = [(1, Edit.ins 0 97)] ∧
      overlappingDrained.worker = some WorkerPC.waiting ∧
      overlappingDrained.mem.r.next = none ∧
      ∀ (ro : RangeOrder) (hook : ChangeHook) (sched : List Tid),
        delivered (run ro hook overlappingDrained sched).trace = [(1, Edit.ins 0 97)] := by
  have hq : Quiet overlappingDrained := by
    refine ⟨by decide, by decide, ?_⟩
    intro p hp
    have h0 : overlappingDrained.producers =
        [⟨ProducerPC.idle, []⟩, ⟨ProducerPC.idle, []⟩] := by decide
    rw [h0] at hp
    simp only [List.mem_cons, List.mem_singleton, List.not_mem_nil, or_false, or_self] at hp
    exact hp
  refine ⟨by decide, by decide, by decide, by decide, by decide, ?_⟩
  intro ro hook sched
  rw [quiet_run ro hook sched overlappingDrained hq]
  decide

/-- C6, amended: on a started reader with an empty queue whose goroutine of `run` is inside
`Wait`, when the calls of `textChanged` of the producers do not overlap (each call runs step by
step to its return before the next call of any producer begins) and every producer has made all
its calls, the drain cycle that follows delivers the edits of the calls in the order in which the
calls were made; the calls of each producer among them are exactly its program, in program
order, and as many edits are delivered as all programs append.  The goroutine of `run` is then
inside `Wait` again with the queue empty, and nothing is delivered a second time, however the
goroutines are scheduled afterwards. -/
theorem C6_serialized_calls_drain_in_call_order (ro : RangeOrder) (hook : ChangeHook)
    (programs : List (List (Editor × List Edit))) (order : List Nat)
    (hdone : ∀ cs ∈ programsAfter programs order, cs = []) :
    (run ro hook (System.started programs) [Tid.worker]).worker = some WorkerPC.waiting ∧
      ∃ n,
        (∀ p ∈ (run ro hook (serial (run ro hook (System.started programs) [Tid.worker]) order)
          (burst Tid.worker n)).producers, p = ⟨ProducerPC.idle, []⟩) ∧
        delivered (run ro hook (serial (run ro hook (System.started programs) [Tid.worker]) order)
          (burst Tid.worker n)).trace = batches ((callsOf programs order).map (fun x => x.2)) ∧
        (∀ j, ((callsOf programs order).filter (fun x => x.1 = j)).map (fun x => x.2) =
          programOf programs j) ∧
        (delivered (run ro hook
          (serial (run ro hook (System.started programs) [Tid.worker]) order)
          (burst Tid.worker n)).trace).length = totalEdits programs ∧
        (run ro hook (serial (run ro hook (System.started programs) [Tid.worker]) order)
          (burst Tid.worker n)).worker = some WorkerPC.waiting ∧
        (run ro hook (serial (run ro hook (System.started programs) [Tid.worker]) order)
          (burst Tid.worker n)).mem.r.next = none ∧
        ∀ sched : List Tid,
          delivered (run ro hook (run ro hook
            (serial (run ro hook (System.started programs) [Tid.worker]) order)
            (burst Tid.worker n)) sched).trace =
              batches ((callsOf programs order).map (fun x => x.2)) := by
  rcases serial_then_drain ro hook programs order
    (run ro hook (System.started programs) [Tid.worker]) [] rfl rfl rfl started_inv rfl with
    ⟨n, g1, g2, g3, g4, g5, _⟩
  have hdel : delivered (run ro hook
      (serial (run ro hook (System.started programs) [Tid.worker]) order)
      (burst Tid.worker n)).trace = batches ((callsOf programs order).map (fun x => x.2)) := by
    rw [g4]; rfl
  have hprod : ∀ p ∈ (run ro hook
      (serial (run ro hook (System.started programs) [Tid.worker]) order)
      (burst Tid.worker n)).producers, p = ⟨ProducerPC.idle, []⟩ := by
    intro p hp
    rw [g3] at hp
    rcases List.mem_map.1 hp with ⟨cs, hcs, rfl⟩
    rw [hdone cs hcs]
    rfl
  refine ⟨rfl, n, hprod, hdel, ?_, ?_, g1, g5, ?_⟩
  · intro j
    have h3 := callsOf_filter j order programs
    rw [programOf_done _ hdone j, List.append_nil] at h3
    exact h3
  · have h3 := callsOf_total order programs
    rw [totalEdits_done _ hdone] at h3
    rw [hdel]
    omega
  · intro sched
    rw [quiet_run ro hook sched _ ⟨g1, g2, hprod⟩, hdel]

/-- Two producers, three calls made in the order 0, 1, 0 with the goroutine of `run` inside
`Wait`: the drain cycle delivers the three edits in that order. -/
theorem C6_witness :
    (∀ cs ∈ programsAfter [[(1, [Edit.ins 0 97]), (1, [Edit.ins 1 98])], [(2, [Edit.ins 0 99])]]
        [0, 1, 0], cs = []) ∧
      ∃ n, delivered (run RangeOrder.reversed ChangeHook.ok
          (serial (run RangeOrder.reversed ChangeHook.ok (System.started
            [[(1, [Edit.ins 0 97]), (1, [Edit.ins 1 98])], [(2, [Edit.ins 0 99])]])
            [Tid.worker]) [0, 1, 0]) (burst Tid.worker n)).trace =
        [(1, Edit.ins 0 97), (2, Edit.ins 0 99), (1, Edit.ins 1 98)] :=
  ⟨by decide,
    (C6_serialized_calls_drain_in_call_order RangeOrder.reversed ChangeHook.ok
      [[(1, [Edit.ins 0 97]), (1, [Edit.ins 1 98])], [(2, [Edit.ins 0 99])]] [0, 1, 0]
      (by decide)).2.imp (fun _ h => h.2.1)⟩

/-- C7 (the code does not do this): `Signal` wakes a goroutine only if one is waiting.  At the
end of the schedule `lostWakeup` the producer has returned from a call that appended one edit and
signalled while the goroutine of `run` was between two calls of `processEdits`; that goroutine
then enters `Wait` with the head not nil.  From then on no compare-and-swap succeeds, so no call
signals: whatever calls the producer still makes and however the goroutines are scheduled, the
goroutine of `run` stays inside `Wait`, the head stays non-nil and `TextChanged` is never
called. -/
theorem C7_lost_wakeup_blocks_the_worker (ro : RangeOrder) (hook : ChangeHook)
    (more : List (Editor × List Edit)) (sched : List Tid) :
    (run ro hook (System.boot [(1, [Edit.ins 0 97]) :: more]) lostWakeup).producers =
        [⟨ProducerPC.idle, more⟩] ∧
      (run ro hook (System.boot [(1, [Edit.ins 0 97]) :: more]) (lostWakeup ++ sched)).worker =
        some WorkerPC.waiting ∧
      (run ro hook (System.boot [(1, [Edit.ins 0 97]) :: more]) (lostWakeup ++ sched)).mem.r.next ≠
        none ∧
      delivered (run ro hook (System.boot [(1, [Edit.ins 0 97]) :: more])
        (lostWakeup ++ sched)).trace = [] := by
  have h0 := lostWakeup_state ro hook more
  have hs : Stuck (run ro hook (System.boot [(1, [Edit.ins 0 97]) :: more]) lostWakeup) := by
    rw [h0]
    refine ⟨rfl, by simp, rfl, ?_⟩
    intro p hp e n rest
    simp at hp
    rw [hp]
    simp
  rcases stuck_run ro hook sched _ hs with ⟨h1, h2⟩
  rw [run_append]
  refine ⟨by rw [h0], h1.1, h1.2.1, ?_⟩
  rw [h2, h0]
  rfl

theorem C8_witness :
    exec RangeOrder.insertion State.started [] = some (State.started, []) ∧
      ∃ ps : List Nat,
        ps.length = 2 ∧
        Chain (textChanged State.started 1 [Edit.ins 0 97, Edit.ins 1 98]).state.heap
          (Heap.loadNext (textChanged State.started 1 [Edit.ins 0 97, Edit.ins 1 98]).state.heap
            (loadLast State.started).2) ps [(1, Edit.ins 0 97), (1, Edit.ins 1 98)] ∧
        (textChanged State.started 1 [Edit.ins 0 97, Edit.ins 1 98]).state.r.last =
          ps.getLast? :=
  ⟨rfl, (C8_textChanged_links_after_tail RangeOrder.insertion [] State.started [] rfl 1
    (Edit.ins 0 97) [Edit.ins 1 98]).imp (fun _ h => ⟨h.1, h.2.2.1, h.2.2.2.2.1⟩)⟩

/-! ## Starting the worker -/


theorem start_started (r : hookReader) (h : r.cond = true) : start r = (r, []) := by
  simp [start, h]

theorem start_cond (r : hookReader) : (start r).1.cond = true := by
  unfold start
  cases h : r.cond <;> simp [h]

theorem startTimes_started (n : Nat) :
    ∀ r : hookReader, r.cond = true → startTimes n r = (r, []) := by
  induction n with
  | zero => intro r _; rfl
  | succ n ih =>
    intro r h
    simp [startTimes, start_started r h, ih r h]

/-- The two steps the starter takes in the interleaving semantics are `start`: they leave the
reader `start` returns and a worker waiting on the condition variable. -/
theorem stepStarter_start (sys : System) (h : sys.starter = StarterPC.spawn)
    (hfresh : sys.mem.r.cond = false) :
    (stepStarter (stepStarter sys)).mem.r = (start sys.mem.r).1 ∧
      (stepStarter (stepStarter sys)).worker = some WorkerPC.idle := by
  simp [stepStarter, h, hfresh, start, wake]

/-- C13: for every n >= 1 sequential calls of `start` on a reader whose condition variable has
not been created, the calls made are those of the first call alone, so exactly one run loop is
spawned (`goRun`) and exactly one condition variable is created (`newCond`); the reader after
the n calls is the reader after the first one, and `start` on a started reader returns it
unchanged without making any call. -/
theorem C13_start_is_idempotent (n : Nat) (r : hookReader) (hn : 1 ≤ n)
    (hfresh : r.cond = false) :
    (startTimes n r).2 =
        [StartCall.mutexLock, StartCall.newCond, StartCall.goRun, StartCall.condSignal] ∧
      (startTimes n r).2.count StartCall.goRun = 1 ∧
      (startTimes n r).2.count StartCall.newCond = 1 ∧
      (startTimes n r).1 = (start r).1 ∧
      (startTimes n r).1 = { r with cond := true } ∧
      start (start r).1 = ((start r).1, []) ∧
      ∀ r2 : hookReader, r2.cond = true → start r2 = (r2, []) := by
  obtain ⟨m, rfl⟩ : ∃ m, n = m + 1 := ⟨n - 1, by omega⟩
  have h1 := startTimes_started m (start r).1 (start_cond r)
  have h2 : start r = ({ r with cond := true },
      [StartCall.mutexLock, StartCall.newCond, StartCall.goRun, StartCall.condSignal]) := by
    simp [start, hfresh]
  have h3 := h1
  rw [h2] at h3
  refine ⟨?_, ?_, ?_, ?_, ?_, start_started _ (start_cond r), start_started⟩
  · simp [startTimes, h2, h3]
  · simp [startTimes, h2, h3]
  · simp [startTimes, h2, h3]
  · simp [startTimes, h1]
  · simp [startTimes, h2, h3]

/-- Three calls of `start` on the zero reader spawn one run loop and create one condition
variable. -/
theorem C13_witness :
    1 ≤ 3 ∧ hookReader.zero.cond = false ∧
      (startTimes 3 hookReader.zero).2.count StartCall.goRun = 1 ∧
      (startTimes 3 hookReader.zero).2.count StartCall.newCond = 1 :=
  ⟨by decide, rfl, (C13_start_is_idempotent 3 hookReader.zero (by decide) rfl).2.1,
    (C13_start_is_idempotent 3 hookReader.zero (by decide) rfl).2.2.1⟩

/-! ## Stores to `next` fields -/


theorem loadNext_append_old {h : Heap} {l : Nat} {nd : editNode} (x : editNode)
    (hl : h[l]? = some nd) : Heap.loadNext (h ++ [x]) l = nd.next := by
  simp [Heap.loadNext, get_append_old x hl, editNode.nextNode]

theorem tailAfter_cons (l : Nat) (w : NextStore) (ws : List NextStore) :
    tailAfter l (w :: ws) = tailAfter w.stored ws := by
  cases ws with
  | nil => rfl
  | cons w2 ws =>
    simp only [tailAfter, List.getLast?_cons_cons]
    cases h : (w2 :: ws).getLast? with
    | none => simp at h
    | some x => rfl

theorem Linked.append {l : Nat} {ws1 ws2 : List NextStore} (h1 : Linked l ws1)
    (h2 : Linked (tailAfter l ws1) ws2) : Linked l (ws1 ++ ws2) := by
  induction ws1 generalizing l with
  | nil => simpa [tailAfter] using h2
  | cons w ws ih =>
    rcases h1 with ⟨a, b, c, d⟩
    rw [tailAfter_cons] at h2
    exact ⟨a, b, c, ih d h2⟩

theorem tailAfter_append (l : Nat) (ws1 ws2 : List NextStore) :
    tailAfter l (ws1 ++ ws2) = tailAfter (tailAfter l ws1) ws2 := by
  induction ws1 generalizing l with
  | nil => rfl
  | cons w ws ih => simp only [List.cons_append, tailAfter_cons, ih]

/-- The stores of the loop of `textChanged`, started at a tail, write the tail each time. -/
theorem appendLoopStores_linked (e : Editor) (changes : List Edit) :
    ∀ (s : State) (l : Nat) (q : List (Editor × Edit)), Tail s.heap s.r.next l q →
      Linked l (appendLoopStores s l e changes) ∧
        tailAfter l (appendLoopStores s l e changes) = (appendLoop s l e changes).2.1 := by
  induction changes with
  | nil => intro s l q _; exact ⟨trivial, rfl⟩
  | cons edit rest ih =>
    intro s l q ht
    rcases tail_node ht with ⟨nd, hnd, hnx⟩
    rcases ih _ _ _ (appendEdit_tail s l e edit q ht) with ⟨h1, h2⟩
    have h3 := (appendEdit_heap s l e edit).2.1
    refine ⟨⟨rfl, ?_, get_lt hnd, ?_⟩, ?_⟩
    · simp only [Heap.alloc]
      rw [loadNext_append_old _ hnd, hnx]
    · simpa [Heap.alloc, h3] using h1
    · simp only [appendLoopStores, tailAfter_cons, appendLoop]
      simpa [Heap.alloc, h3] using h2

theorem textChangedStores_linked (s : State) (e : Editor) (changes : List Edit)
    (q : List (Editor × Edit)) (hi : Inv s q) :
    Linked (loadLast s).2 (textChangedStores s e changes) ∧
      tailAfter (loadLast s).2 (textChangedStores s e changes) =
        (loadLast (textChanged s e changes).state).2 := by
  cases changes with
  | nil => exact ⟨trivial, rfl⟩
  | cons edit rest =>
    rcases appendLoopStores_linked e (edit :: rest) _ _ q (loadLast_tail s q hi) with ⟨h1, h2⟩
    refine ⟨by simpa [textChangedStores] using h1, ?_⟩
    simp only [textChangedStores, List.length_cons, Nat.add_one_ne_zero, if_false, h2]
    simp [textChanged, loadLast]

theorem execStores_linked (ro : RangeOrder) (ops : List Op) :
    ∀ (s : State) (q : List (Editor × Edit)), Inv s q →
      Linked (loadLast s).2 (execStores ro s ops) := by
  induction ops with
  | nil => intro s q _; trivial
  | cons op ops ih =>
    intro s q hi
    cases op with
    | textChanged e changes =>
      rcases textChangedStores_linked s e changes q hi with ⟨h1, h2⟩
      have h3 := ih _ _ (textChanged_inv s e changes q hi)
      rw [← h2] at h3
      exact Linked.append h1 h3
    | processEdits =>
      rcases processEdits_inv ro s q hi with ⟨o, ho, _, hio, _, hheap, hlast, _⟩
      have h3 := ih _ _ hio
      have h4 : (loadLast o.state).2 = (loadLast s).2 := by
        simp only [loadLast, hheap, hlast]
        cases s.r.last <;> rfl
      simp only [execStores, ho]
      rw [← h4]
      exact h3

theorem Linked.found {l : Nat} {ws : List NextStore} (h : Linked l ws) :
    ∀ w ∈ ws, w.found = none ∧ l ≤ w.target ∧ w.target < w.stored := by
  induction ws generalizing l with
  | nil => intro w hw; cases hw
  | cons w0 ws ih =>
    intro w hw
    rcases h with ⟨a, b, c, d⟩
    rcases List.mem_cons.1 hw with hw | hw
    · subst hw; exact ⟨b, by omega, c⟩
    · rcases ih d w hw with ⟨h1, h2, h3⟩
      exact ⟨h1, by omega, h3⟩

theorem Linked.pairwise {l : Nat} {ws : List NextStore} (h : Linked l ws) :
    (ws.map (fun w => w.target)).Pairwise (fun a b => a < b) := by
  induction ws generalizing l with
  | nil => exact List.Pairwise.nil
  | cons w0 ws ih =>
    rcases h with ⟨a, b, c, d⟩
    simp only [List.map_cons, List.pairwise_cons]
    refine ⟨?_, ih d⟩
    intro x hx
    rcases List.mem_map.1 hx with ⟨w, hw, rfl⟩
    have := (Linked.found d w hw).2.1
    omega

theorem processEdits_heap (ro : RangeOrder) (s : State) (o : Outcome)
    (ho : processEdits ro s = some o) :
    o.state.heap = s.heap ∧ o.state.r.last = s.r.last := by
  unfold processEdits at ho
  cases hn : s.r.next with
  | none =>
    simp only [hn, Option.some.injEq] at ho
    subst ho
    exact ⟨rfl, rfl⟩
  | some p =>
    simp only [hn] at ho
    cases hw : walk s.heap.length s.heap (some p) [] with
    | none => simp [hw] at ho
    | some w =>
      simp only [hw, Option.some.injEq] at ho
      subst ho
      exact ⟨rfl, rfl⟩

theorem inv_tail {s : State} {q : List (Editor × Edit)} (hi : Inv s q) :
    ∀ t, s.r.last = some t →
      Heap.loadNext s.heap t = none ∧
        ∀ hd, s.r.next = some hd →
          ∃ ps q', Chain s.heap (some hd) ps q' ∧ ps.getLast? = some t := by
  intro t ht
  unfold Inv at hi
  rw [ht] at hi
  rcases tail_node hi with ⟨nd, hnd, hnx⟩
  refine ⟨by simp [Heap.loadNext, hnd, editNode.nextNode, hnx], ?_⟩
  intro hd hhd
  simp only [Tail, hhd] at hi
  rcases hi with ⟨ps, hc, hl⟩
  exact ⟨ps, q, hc, hl⟩

theorem loadNext_storeNext_eq (h : Heap) (l : Nat) (v : Option Nat) (nd : editNode)
    (hl : h[l]? = some nd) : Heap.loadNext (Heap.storeNext h l v) l = v := by
  simp [Heap.loadNext, Heap.storeNext_get_eq h l v nd hl, editNode.nextNode]

theorem loadNext_storeNext_ne (h : Heap) (l p : Nat) (v : Option Nat) (hp : p ≠ l) :
    Heap.loadNext (Heap.storeNext h l v) p = Heap.loadNext h p := by
  simp [Heap.loadNext, Heap.storeNext_get_ne h l p v hp]

theorem loadNext_append_nil (h : Heap) (x : editNode) (hx : x.next = none) (p : Nat) :
    Heap.loadNext (h ++ [x]) p = Heap.loadNext h p := by
  unfold Heap.loadNext
  rcases Nat.lt_trichotomy p h.length with hlt | heq | hgt
  · rw [List.getElem?_append_left hlt]
  · subst heq
    simp [editNode.nextNode, hx]
  · have h1 : (h ++ [x])[p]? = none := by
      apply List.getElem?_eq_none
      simp
      omega
    have h2 : h[p]? = none := List.getElem?_eq_none (by omega)
    rw [h1, h2]

/-- After one pass of the loop of `textChanged` from a tail, a `next` field is non-nil exactly
when it was before or it is the one the pass has stored into. -/
theorem appendEdit_loadNext (s : State) (l : Nat) (e : Editor) (edit : Edit)
    (q : List (Editor × Edit)) (ht : Tail s.heap s.r.next l q) (p x : Nat) :
    Heap.loadNext (appendEdit s l e edit).1.heap p = some x ↔
      Heap.loadNext s.heap p = some x ∨ (l = p ∧ s.heap.length = x) := by
  rcases tail_node ht with ⟨nd, hnd, hnx⟩
  rw [(appendEdit_heap s l e edit).1]
  by_cases hp : p = l
  · subst hp
    rw [loadNext_storeNext_eq _ _ _ nd (get_append_old _ hnd)]
    have h0 : Heap.loadNext s.heap p = none := by
      simp [Heap.loadNext, hnd, editNode.nextNode, hnx]
    simp [h0]
  · rw [loadNext_storeNext_ne _ _ _ _ hp, loadNext_append_nil _ _ rfl]
    constructor
    · intro h; exact Or.inl h
    · intro h
      rcases h with h | ⟨h, _⟩
      · exact h
      · exact absurd h.symm hp

theorem appendLoop_loadNext (e : Editor) (changes : List Edit) :
    ∀ (s : State) (l : Nat) (q : List (Editor × Edit)), Tail s.heap s.r.next l q →
      ∀ p x : Nat, Heap.loadNext (appendLoop s l e changes).1.heap p = some x ↔
        Heap.loadNext s.heap p = some x ∨
          ∃ w ∈ appendLoopStores s l e changes, w.target = p ∧ w.stored = x := by
  induction changes with
  | nil => intro s l q _ p x; simp [appendLoop, appendLoopStores]
  | cons edit rest ih =>
    intro s l q ht p x
    have h1 := ih _ _ _ (appendEdit_tail s l e edit q ht) p x
    have h2 := appendEdit_loadNext s l e edit q ht p x
    simp only [appendLoop, appendLoopStores, List.mem_cons, exists_eq_or_imp, Heap.alloc]
    rw [h1, h2]
    constructor
    · rintro ((h | h) | h)
      · exact Or.inl h
      · exact Or.inr (Or.inl h)
      · exact Or.inr (Or.inr h)
    · rintro (h | h | h)
      · exact Or.inl (Or.inl h)
      · exact Or.inl (Or.inr h)
      · exact Or.inr h

theorem loadLast_loadNext (s : State) (p : Nat) :
    Heap.loadNext (loadLast s).1.heap p = Heap.loadNext s.heap p := by
  unfold loadLast
  cases s.r.last with
  | none => exact loadNext_append_nil _ _ rfl p
  | some l => rfl

theorem textChanged_loadNext (s : State) (e : Editor) (changes : List Edit)
    (q : List (Editor × Edit)) (hi : Inv s q) (p x : Nat) :
    Heap.loadNext (textChanged s e changes).state.heap p = some x ↔
      Heap.loadNext s.heap p = some x ∨
        ∃ w ∈ textChangedStores s e changes, w.target = p ∧ w.stored = x := by
  cases changes with
  | nil => simp [textChanged, textChangedStores]
  | cons edit rest =>
    have h1 := appendLoop_loadNext e (edit :: rest) _ _ q (loadLast_tail s q hi) p x
    rw [loadLast_loadNext] at h1
    simpa [textChanged, textChangedStores] using h1

/-- The log of stores is complete: after a sequential schedule a `next` field is non-nil exactly
when it was before or one store of the log has written it, and then it holds what that store
stored. -/
theorem exec_loadNext (ro : RangeOrder) (ops : List Op) :
    ∀ (s : State) (q : List (Editor × Edit)), Inv s q →
      ∀ s' trs, exec ro s ops = some (s', trs) →
        ∀ p x : Nat, Heap.loadNext s'.heap p = some x ↔
          Heap.loadNext s.heap p = some x ∨
            ∃ w ∈ execStores ro s ops, w.target = p ∧ w.stored = x := by
  induction ops with
  | nil =>
    intro s q _ s' trs h p x
    simp only [exec, Option.some.injEq, Prod.mk.injEq] at h
    rw [← h.1]
    simp [execStores]
  | cons op ops ih =>
    intro s q hi s' trs h p x
    cases op with
    | textChanged e changes =>
      simp only [exec] at h
      cases hx : exec ro (textChanged s e changes).state ops with
      | none => simp [hx] at h
      | some y =>
        simp only [hx, Option.some.injEq, Prod.mk.injEq] at h
        have h1 := ih _ _ (textChanged_inv s e changes q hi) y.1 y.2 hx p x
        rw [h.1] at h1
        rw [h1, textChanged_loadNext s e changes q hi p x]
        simp only [execStores, List.mem_append]
        constructor
        · rintro ((h | ⟨w, hw, h⟩) | ⟨w, hw, h⟩)
          · exact Or.inl h
          · exact Or.inr ⟨w, Or.inl hw, h⟩
          · exact Or.inr ⟨w, Or.inr hw, h⟩
        · rintro (h | ⟨w, hw | hw, h⟩)
          · exact Or.inl (Or.inl h)
          · exact Or.inl (Or.inr ⟨w, hw, h⟩)
          · exact Or.inr ⟨w, hw, h⟩
    | processEdits =>
      rcases processEdits_inv ro s q hi with ⟨o, ho, _, hio, _, hheap, _⟩
      simp only [exec, ho] at h
      cases hx : exec ro o.state ops with
      | none => simp [hx] at h
      | some y =>
        simp only [hx, Option.some.injEq, Prod.mk.injEq] at h
        have h1 := ih _ _ hio y.1 y.2 hx p x
        rw [h.1, hheap] at h1
        simpa [execStores, ho] using h1

/-- C17: in every sequential schedule of `textChanged` and `processEdits` calls on a started
reader the schedule returns, and the stores to `next` fields it makes form a chain starting at
the tail: each store targets the node that is the tail at that moment, finds its `next` nil, and
makes the node it stores the new tail, so that the targets strictly increase and no node is
targeted twice; the `next` fields that are non-nil in the final heap are exactly those stores;
`processEdits` leaves the heap as it is; after the schedule the `next` of the tail is nil and,
when the head is non-nil, the chain from the head ends in the tail. -/
theorem C17_next_is_written_once_on_the_tail (ro : RangeOrder) (ops : List Op) :
    ∃ s trs, exec ro State.started ops = some (s, trs) ∧
      Linked (loadLast State.started).2 (execStores ro State.started ops) ∧
      (∀ w ∈ execStores ro State.started ops, w.found = none) ∧
      ((execStores ro State.started ops).map (fun w => w.target)).Pairwise (fun a b => a < b) ∧
      (∀ p x : Nat, Heap.loadNext s.heap p = some x ↔
        ∃ w ∈ execStores ro State.started ops, w.target = p ∧ w.stored = x) ∧
      (∀ s1 o, processEdits ro s1 = some o → o.state.heap = s1.heap) ∧
      (∀ t, s.r.last = some t →
        Heap.loadNext s.heap t = none ∧
          ∀ hd, s.r.next = some hd →
            ∃ ps q, Chain s.heap (some hd) ps q ∧ ps.getLast? = some t) := by
  rcases exec_inv ro ops State.started [] started_inv with ⟨s, trs, h1, _, q, hq⟩
  have hl := execStores_linked ro ops State.started [] started_inv
  have hlog := exec_loadNext ro ops State.started [] started_inv s trs h1
  refine ⟨s, trs, h1, hl, fun w hw => (Linked.found hl w hw).1, Linked.pairwise hl, ?_,
    fun s1 o ho => (processEdits_heap ro s1 o ho).1, inv_tail hq⟩
  intro p x
  rw [hlog p x]
  simp [Heap.loadNext, State.started]

/-! ## Errors of `Apply` and where `Apply` is called -/

theorem unlogged_append (a b : List Event) : unlogged (a ++ b) = unlogged a ++ unlogged b := by
  induction a with
  | nil => rfl
  | cons ev a ih => cases ev <;> simp [unlogged, ih]

theorem logged_append (a b : List Event) : logged (a ++ b) = logged a ++ logged b := by
  induction a with
  | nil => rfl
  | cons ev a ih => cases ev <;> simp [logged, ih]

theorem applied_append (a b : List Event) : applied (a ++ b) = applied a ++ applied b := by
  induction a with
  | nil => rfl
  | cons ev a ih => cases ev <;> simp [applied, ih]

theorem failures_append (hook : ChangeHook) (a b : List Event) :
    failures hook (a ++ b) = failures hook a ++ failures hook b := by
  simp [failures, applied_append]

theorem Closure.unlogged_run (hook : ChangeHook) (cells : List Editor) (f : Closure) :
    unlogged (f.run hook cells) = f.run ChangeHook.ok cells := by
  simp only [Closure.run, ChangeHook.ok]
  cases hook.Apply (cells.getD f.cell 0) <;> rfl

theorem Closure.logged_run (hook : ChangeHook) (cells : List Editor) (f : Closure) :
    logged (f.run hook cells) = failures hook (f.run hook cells) := by
  simp only [Closure.run]
  generalize cells.getD f.cell 0 = e
  cases h : hook.Apply e <;> simp [logged, applied, failures, h]

/-- A step under any hook is, log lines apart, the step under a hook whose `Apply` never
fails. -/
theorem step_unlogged (ro : RangeOrder) (hook : ChangeHook) (sys : System) (t : Tid) :
    (step ro hook sys t).unlogged = step ro ChangeHook.ok sys.unlogged t := by
  cases t with
  | starter =>
    simp only [step, stepStarter, System.unlogged]
    split <;> try split
    all_goals simp [unlogged_append, unlogged]
  | worker =>
    simp only [step, stepWorker, System.unlogged]
    split <;> try split
    all_goals simp [unlogged_append, unlogged]
  | producer i =>
    simp only [step, stepProducer, System.unlogged]
    split
    · rfl
    · split <;> simp [unlogged_append, unlogged]
  | ui =>
    simp only [step, stepUI, System.unlogged]
    split
    · rfl
    · simp [unlogged_append, Closure.unlogged_run]

theorem run_unlogged (ro : RangeOrder) (hook : ChangeHook) (sched : List Tid) :
    ∀ sys : System, (run ro hook sys sched).unlogged = run ro ChangeHook.ok sys.unlogged sched := by
  induction sched with
  | nil => intro sys; rfl
  | cons t ts ih =>
    intro sys
    rw [run_cons, run_cons, ih, step_unlogged]

/-- Every step appends to the log the failures of the `Apply` calls it makes. -/
theorem step_logged (ro : RangeOrder) (hook : ChangeHook) (sys : System) (t : Tid)
    (h : logged sys.trace = failures hook sys.trace) :
    logged (step ro hook sys t).trace = failures hook (step ro hook sys t).trace := by
  cases t with
  | starter =>
    simp only [step, stepStarter]
    split <;> try split
    all_goals simp only [logged_append, failures_append, h]
    all_goals simp [logged, failures, applied]
  | worker =>
    simp only [step, stepWorker]
    split <;> try split
    all_goals simp only [logged_append, failures_append, h]
    all_goals simp [logged, failures, applied]
  | producer i =>
    simp only [step, stepProducer]
    split
    · exact h
    · split
      · simp only [logged_append, failures_append, h]
        simp [logged, failures, applied]
      · exact h
  | ui =>
    simp only [step, stepUI]
    split
    · exact h
    · simp only [logged_append, failures_append, h, Closure.logged_run]

theorem run_logged (ro : RangeOrder) (hook : ChangeHook) (sched : List Tid) :
    ∀ sys : System, logged sys.trace = failures hook sys.trace →
      logged (run ro hook sys sched).trace = failures hook (run ro hook sys sched).trace := by
  induction sched with
  | nil => intro sys h; exact h
  | cons t ts ih =>
    intro sys h
    rw [run_cons]
    exact ih _ (step_logged ro hook sys t h)

theorem processEdits_err (ro : RangeOrder) (s : State) (o : Outcome)
    (h : processEdits ro s = some o) : o.err = none := by
  unfold processEdits at h
  cases hn : s.r.next with
  | none =>
    simp only [hn, Option.some.injEq] at h
    rw [← h]
  | some p =>
    simp only [hn] at h
    cases hw : walk s.heap.length s.heap (some p) [] with
    | none => simp [hw] at h
    | some w =>
      simp only [hw, Option.some.injEq] at h
      rw [← h]

theorem editorsInsert_nodup (eds : List Editor) (e : Editor) (h : eds.Nodup) :
    (editorsInsert eds e).Nodup := by
  unfold editorsInsert
  split
  · exact h
  · rename_i hne
    exact List.nodup_append.2 ⟨h, List.nodup_singleton e, by
      intro a ha hb
      rw [List.mem_singleton] at hb
      exact hne (hb ▸ ha)⟩

theorem mem_editorsInsert (eds : List Editor) (e x : Editor) :
    x ∈ editorsInsert eds e ↔ x ∈ eds ∨ x = e := by
  unfold editorsInsert
  split
  · rename_i h
    constructor
    · intro hx; exact Or.inl hx
    · rintro (hx | hx)
      · exact hx
      · exact hx ▸ h
  · simp

/-- The keys of the map after a walk: no key twice, and the keys are the editors of the walked
edits together with the keys there were. -/
theorem touched_spec (q : List (Editor × Edit)) :
    ∀ eds : List Editor, eds.Nodup →
      (touched eds q).Nodup ∧ ∀ x, x ∈ touched eds q ↔ x ∈ eds ∨ x ∈ q.map Prod.fst := by
  induction q with
  | nil => intro eds h; simp [touched, h]
  | cons a q ih =>
    intro eds h
    have h1 := ih (editorsInsert eds a.1) (editorsInsert_nodup eds a.1 h)
    refine ⟨h1.1, ?_⟩
    intro x
    have h2 := h1.2 x
    simp only [touched, List.foldl_cons] at h2 ⊢
    rw [h2, mem_editorsInsert]
    simp only [List.map_cons, List.mem_cons]
    tauto

theorem touched_length (q : List (Editor × Edit)) :
    (touched [] q).length = (q.map Prod.fst).dedup.length := by
  have h := touched_spec q [] List.nodup_nil
  apply List.Perm.length_eq
  rw [List.perm_ext_iff_of_nodup h.1 (List.nodup_dedup _)]
  intro x
  rw [h.2 x, List.mem_dedup]
  simp

theorem dispatched_replicate_call (n : Nat) (f : Closure) :
    dispatched (List.replicate n (Event.driverCall f)) = List.replicate n f := by
  induction n with
  | zero => rfl
  | succ n ih => simp [List.replicate_succ, dispatched, ih]

/-- An error returned by an `Apply` that a function handed to `driver.Call` makes is logged and
has no other effect.  For every hook, every schedule and every system, the execution is, log
lines apart, the execution under a hook whose `Apply` never fails: same memory (queue included),
same goroutines, same functions waiting at `driver.Call`, same calls in the same order.  The log
lines are exactly the errors of the `Apply` calls made.  `processEdits` returns nil whenever it
returns, and in every state a sequential schedule reaches it hands `driver.Call` one function per
distinct editor among the pending edits.  The `Apply` that `init` makes is not logged. -/
theorem callback_error_is_logged_only (ro : RangeOrder) (hook : ChangeHook)
    (programs : List (List (Editor × List Edit))) (sched : List Tid) :
    (∀ sys : System,
        (run ro hook sys sched).unlogged = run ro ChangeHook.ok sys.unlogged sched) ∧
      (run ro hook (System.boot programs) sched).unlogged =
        run ro ChangeHook.ok (System.boot programs) sched ∧
      logged (run ro hook (System.boot programs) sched).trace =
        failures hook (run ro hook (System.boot programs) sched).trace ∧
      (∀ s o, processEdits ro s = some o → o.err = none) ∧
      (∀ ops s trs, exec ro State.started ops = some (s, trs) →
        ∃ q o, Inv s q ∧ processEdits ro s = some o ∧ o.err = none ∧ delivered o.trace = q ∧
          (dispatched o.trace).length = (q.map Prod.fst).dedup.length ∧
          o.state.r.next = none ∧ o.state.heap = s.heap ∧ o.state.r.last = s.r.last) ∧
      applied (run RangeOrder.insertion (ChangeHook.failing 1) (System.started retryProgram)
        retrySchedule).trace = [1, 1] ∧
      logged (run RangeOrder.insertion (ChangeHook.failing 1) (System.started retryProgram)
        retrySchedule).trace = [(1, "apply failed"), (1, "apply failed")] ∧
      (run RangeOrder.insertion (ChangeHook.failing 1) (System.started retryProgram)
        retrySchedule).worker = some WorkerPC.waiting ∧
      (∀ s e text, logged (init s e text).2 = [] ∧ applied (init s e text).2 = [e] ∧
        (init s e text).1 = s) := by
  refine ⟨run_unlogged ro hook sched, run_unlogged ro hook sched (System.boot programs),
    run_logged ro hook sched (System.boot programs) rfl, processEdits_err ro, ?_,
    by decide, by decide, by decide, fun s e text => ⟨rfl, rfl, rfl⟩⟩
  intro ops s trs hex
  rcases reachable_inv ro ops s trs hex with ⟨q, hi⟩
  rcases processEdits_inv ro s q hi with ⟨o, ho, herr, _, htr, hheap, hlast, hnext⟩
  refine ⟨q, o, hi, ho, herr, ?_, ?_, hnext, hheap, hlast⟩
  · rw [htr, delivered_append, delivered_ofEdit, delivered_replicate_call, List.append_nil]
  · rw [htr, dispatched_append, dispatched_ofEdit, dispatched_replicate_call, List.nil_append,
      List.length_replicate, touched_length]

/-- C11 (the code does not do this): with a hook whose `Apply` returns an error for editor 1,
(a) `init` for editor 1 calls `Apply` on it and logs nothing, since line 114 drops what `Apply`
returns, while the function literal of lines 103-107 logs it; (b) after edits for the editors 1
and 2 are drained in one cycle, both functions handed to `driver.Call` read the one range
variable and call `Apply` on editor 1: it fails and is logged twice, and `Apply` is never called
for the other touched editor 2. -/
theorem C11_apply_error_unlogged_in_init_and_other_editor_skipped :
    (ChangeHook.failing 1).Apply 1 = some "apply failed" ∧
      (ChangeHook.failing 1).Apply 2 = none ∧
      applied (init State.started 1 [97]).2 = [1] ∧
      logged (init State.started 1 [97]).2 = [] ∧
      delivered (run RangeOrder.reversed (ChangeHook.failing 1) (System.started twoEditors)
        callbacksAfterLoop).trace = [(1, Edit.ins 0 97), (2, Edit.ins 0 98)] ∧
      dispatched (run RangeOrder.reversed (ChangeHook.failing 1) (System.started twoEditors)
        callbacksAfterLoop).trace = [⟨0⟩, ⟨0⟩] ∧
      applied (run RangeOrder.reversed (ChangeHook.failing 1) (System.started twoEditors)
        callbacksAfterLoop).trace = [1, 1] ∧
      logged (run RangeOrder.reversed (ChangeHook.failing 1) (System.started twoEditors)
        callbacksAfterLoop).trace = [(1, "apply failed"), (1, "apply failed")] ∧
      (run RangeOrder.reversed (ChangeHook.failing 1) (System.started twoEditors)
        callbacksAfterLoop).uiQueue = [] := by
  decide

theorem Closure.run_applied (hook : ChangeHook) (cells : List Editor) (f : Closure) :
    applied (f.run hook cells) = [cells.getD f.cell 0] := by
  simp only [Closure.run]
  cases hook.Apply (cells.getD f.cell 0) <;> rfl

theorem Closure.run_dispatched (hook : ChangeHook) (cells : List Editor) (f : Closure) :
    dispatched (f.run hook cells) = [] := by
  simp only [Closure.run]
  cases hook.Apply (cells.getD f.cell 0) <;> rfl

/-- A step of a goroutine other than the UI goroutine calls no `Apply`. -/
theorem step_applied (ro : RangeOrder) (hook : ChangeHook) (sys : System) (t : Tid)
    (ht : t ≠ Tid.ui) : applied (step ro hook sys t).trace = applied sys.trace := by
  cases t with
  | starter =>
    simp only [step, stepStarter]
    split <;> try split
    all_goals simp [applied_append, applied]
  | worker =>
    simp only [step, stepWorker]
    split <;> try split
    all_goals simp [applied_append, applied]
  | producer i =>
    simp only [step, stepProducer]
    split
    · rfl
    · split <;> simp [applied_append, applied]
  | ui => exact absurd rfl ht

theorem step_queued (ro : RangeOrder) (hook : ChangeHook) (sys : System) (t : Tid)
    (h : Queued sys) : Queued (step ro hook sys t) := by
  rcases h with ⟨h1, h2⟩
  cases t with
  | starter =>
    simp only [step, stepStarter, Queued]
    split <;> try split
    all_goals simp [applied_append, applied, dispatched_append, dispatched, h1, h2]
  | worker =>
    simp only [step, stepWorker, Queued]
    split <;> try split
    all_goals simp [applied_append, applied, dispatched_append, dispatched, h1, h2]
    exact ⟨(List.drop_append_of_le_length h2).symm, by omega⟩
  | producer i =>
    simp only [step, stepProducer, Queued]
    split
    · exact ⟨h1, h2⟩
    · split <;> simp [applied_append, applied, dispatched_append, dispatched, h1, h2]
  | ui =>
    simp only [step, stepUI, Queued]
    split
    · exact ⟨h1, h2⟩
    · rename_i f q hq
      simp only [applied_append, dispatched_append, Closure.run_applied, Closure.run_dispatched,
        List.append_nil, List.length_append, List.length_singleton]
      rw [hq] at h1
      have h3 : ((dispatched sys.trace).drop (applied sys.trace).length).length = q.length + 1 := by
        rw [← h1]; rfl
      rw [List.length_drop] at h3
      refine ⟨?_, by omega⟩
      have h4 : List.drop 1 (f :: q) = List.drop 1 ((dispatched sys.trace).drop (applied sys.trace).length) := by
        rw [h1]
      rw [List.drop_drop] at h4
      simpa [Nat.add_comm] using h4

theorem run_queued (ro : RangeOrder) (hook : ChangeHook) (sched : List Tid) :
    ∀ sys : System, Queued sys → Queued (run ro hook sys sched) := by
  induction sched with
  | nil => intro sys h; exact h
  | cons t ts ih =>
    intro sys h
    rw [run_cons]
    exact ih _ (step_queued ro hook sys t h)

theorem applied_textChanged (tcs : List Event)
    (h : ∀ ev ∈ tcs, ∃ e edit, ev = Event.hookTextChanged e edit) : applied tcs = [] := by
  induction tcs with
  | nil => rfl
  | cons ev tcs ih =>
    rcases h ev (List.mem_cons_self _ _) with ⟨e, edit, rfl⟩
    simpa [applied] using ih (fun ev2 h2 => h ev2 (List.mem_cons_of_mem _ h2))

theorem applied_replicate_call (n : Nat) (f : Closure) :
    applied (List.replicate n (Event.driverCall f)) = [] := by
  induction n with
  | zero => rfl
  | succ n ih => simp [List.replicate_succ, applied, ih]

theorem processEdits_applied (ro : RangeOrder) (s : State) (o : Outcome)
    (ho : processEdits ro s = some o) : applied o.trace = [] := by
  rcases processEdits_shape ro s o ho with ⟨tcs, n, c, htr, htcs⟩
  rw [htr, applied_append, applied_textChanged tcs htcs, applied_replicate_call]
  rfl

theorem appendLoop_applied (e : Editor) (changes : List Edit) :
    ∀ (s : State) (l : Nat), applied (appendLoop s l e changes).2.2 = [] ∧
      dispatched (appendLoop s l e changes).2.2 = [] := by
  induction changes with
  | nil => intro s l; exact ⟨rfl, rfl⟩
  | cons edit rest ih =>
    intro s l
    have h := ih (appendEdit s l e edit).1 (appendEdit s l e edit).2.1
    simp only [appendLoop, applied_append, dispatched_append, h.1, h.2, List.append_nil]
    simp only [appendEdit]
    split <;> exact ⟨rfl, rfl⟩

theorem textChanged_applied (s : State) (e : Editor) (changes : List Edit) :
    applied (textChanged s e changes).trace = [] ∧
      dispatched (textChanged s e changes).trace = [] := by
  cases changes with
  | nil => exact ⟨rfl, rfl⟩
  | cons edit rest => simpa [textChanged] using appendLoop_applied e (edit :: rest) _ _

/-- C12 (counterexample): `init` calls `Apply` for the editor on the goroutine that called it and
hands nothing to `driver.Call`. -/
theorem C12_init_applies_directly :
    applied (init State.started 1 [97]).2 = [1] ∧ dispatched (init State.started 1 [97]).2 = [] :=
  ⟨rfl, rfl⟩

/-- C12 (amended): in every execution from a reader not yet started, the functions waiting at
`driver.Call` are those handed over that have not run yet, in order, and `Apply` has been called
as many times as handed-over functions have run; no step of the starter, of the goroutine of
`run` or of a producer calls `Apply`; a step of the UI goroutine runs the oldest waiting function,
which calls `Apply` once, calls no `TextChanged` and hands nothing to `driver.Call`.  The traces
of `processEdits` and of `textChanged` contain no `Apply`.  `init` calls `Apply` once and directly,
handing nothing to `driver.Call`. -/
theorem C12_drain_applies_only_in_callbacks (ro : RangeOrder) (hook : ChangeHook)
    (programs : List (List (Editor × List Edit))) (sched : List Tid) :
    (run ro hook (System.boot programs) sched).uiQueue =
        (dispatched (run ro hook (System.boot programs) sched).trace).drop
          (applied (run ro hook (System.boot programs) sched).trace).length ∧
      (applied (run ro hook (System.boot programs) sched).trace).length ≤
        (dispatched (run ro hook (System.boot programs) sched).trace).length ∧
      (∀ sys t, t ≠ Tid.ui → applied (step ro hook sys t).trace = applied sys.trace) ∧
      (∀ sys, sys.uiQueue = [] → step ro hook sys Tid.ui = sys) ∧
      (∀ sys f q, sys.uiQueue = f :: q →
        (step ro hook sys Tid.ui).uiQueue = q ∧
          (step ro hook sys Tid.ui).trace = sys.trace ++ f.run hook sys.mem.cells ∧
          applied (f.run hook sys.mem.cells) = [sys.mem.cells.getD f.cell 0]) ∧
      (∀ cells f, delivered (Closure.run hook cells f) = [] ∧
        dispatched (Closure.run hook cells f) = []) ∧
      (∀ s o, processEdits ro s = some o → applied o.trace = []) ∧
      (∀ s e changes, applied (textChanged s e changes).trace = [] ∧
        dispatched (textChanged s e changes).trace = []) ∧
      (∀ s e text, applied (init s e text).2 = [e] ∧ dispatched (init s e text).2 = []) := by
  have hq := run_queued ro hook sched (System.boot programs) ⟨rfl, Nat.le_refl _⟩
  refine ⟨hq.1, hq.2, step_applied ro hook, ?_, ?_,
    fun cells f => ⟨Closure.run_delivered hook cells f, Closure.run_dispatched hook cells f⟩,
    processEdits_applied ro, textChanged_applied, fun s e text => ⟨rfl, rfl⟩⟩
  · intro sys h
    simp [step, stepUI, h]
  · intro sys f q h
    simp [step, stepUI, h, Closure.run_applied]

end input

namespace scroll

/-! ## `clone` and the options -/

theorem appendAll_eq (hs : List Bindable) :
    ∀ scrolled : List Bindable, appendAll scrolled hs = scrolled ++ hs := by
  induction hs with
  | nil => intro scrolled; simp [appendAll]
  | cons h hs ih => intro scrolled; simp [appendAll, ih]

/-- The function `clone` allocates one struct and writes to no other: the new struct has the
fields of `s`, except that `scrolled` shows the elements of `s.scrolled` twice. -/
theorem clone_spec (m : Mem) (s : Nat) (x : Scroller) (hs : m[s]? = some x) :
    clone m s = some (m ++ [{ x with scrolled := x.scrolled ++ x.scrolled }], m.length) := by
  simp [clone, hs, appendAll_eq]

theorem Mem.update_new (m : Mem) (y : Scroller) (f : Scroller → Scroller) :
    Mem.update (m ++ [y]) m.length f = m ++ [f y] := by
  simp [Mem.update]

theorem ToLine_spec (line : Int) (m : Mem) (s : Nat) (x : Scroller) (hs : m[s]? = some x) :
    ToLine line m s =
      some (m ++ [⟨-1, line, false, NoDirection, x.scrolled ++ x.scrolled, x.editor, x.ctrl⟩],
        m.length) := by
  simp [ToLine, clone_spec m s x hs, Mem.update_new]

theorem ToRune_spec (pos : Int) (dir : Direction) (m : Mem) (s : Nat) (x : Scroller)
    (hs : m[s]? = some x) :
    ToRune pos dir m s =
      some (m ++ [⟨pos, -1, false, dir, x.scrolled ++ x.scrolled, x.editor, x.ctrl⟩],
        m.length) := by
  simp [ToRune, clone_spec m s x hs, Mem.update_new]

theorem ToOldOffset_spec (m : Mem) (s : Nat) (x : Scroller) (hs : m[s]? = some x) :
    ToOldOffset m s =
      some (m ++ [⟨-1, -1, true, NoDirection, x.scrolled ++ x.scrolled, x.editor, x.ctrl⟩],
        m.length) := by
  simp [ToOldOffset, clone_spec m s x hs, Mem.update_new]

/-- An option of this package allocates one struct whose `pos`, `line`, `offset` and `dir` are
fixed by the option alone and whose `editor` and `ctrl` are those of its argument. -/
theorem builtin_spec (o : Opt) (hb : Builtin o) :
    ∃ (ps ln : Int) (off : Bool) (d : Direction), ∀ (m : Mem) (s : Nat) (x : Scroller),
      m[s]? = some x →
        o m s = some (m ++ [⟨ps, ln, off, d, x.scrolled ++ x.scrolled, x.editor, x.ctrl⟩],
          m.length) := by
  rcases hb with ⟨line, rfl⟩ | ⟨pos, dir, rfl⟩ | rfl
  · exact ⟨-1, line, false, NoDirection, ToLine_spec line⟩
  · exact ⟨pos, -1, false, dir, ToRune_spec pos dir⟩
  · exact ⟨-1, -1, true, NoDirection, ToOldOffset_spec⟩

theorem For_append (a b : List Opt) :
    ∀ (m : Mem) (s : Nat), For m s (a ++ b) =
      match For m s a with
      | none => none
      | some c => For c.1 c.2 b := by
  induction a with
  | nil => intro m s; rfl
  | cons o a ih =>
    intro m s
    simp only [List.cons_append, For]
    cases o m s with
    | none => rfl
    | some c => exact ih c.1 c.2

/-- The method `For` with options of this package returns; it only allocates, so every struct
there was is as it was; the result has the `editor` and the `ctrl` of `s`. -/
theorem For_spec (opts : List Opt) :
    ∀ (m : Mem) (s : Nat) (x : Scroller), m[s]? = some x → (∀ o ∈ opts, Builtin o) →
      ∃ ext r y, For m s opts = some (m ++ ext, r) ∧ (m ++ ext)[r]? = some y ∧
        ext.length = opts.length ∧ y.editor = x.editor ∧ y.ctrl = x.ctrl ∧
        y.scrolled.length = 2 ^ opts.length * x.scrolled.length := by
  induction opts with
  | nil =>
    intro m s x hs _
    exact ⟨[], s, x, by simp [For], by simpa using hs, rfl, rfl, rfl, by simp⟩
  | cons o opts ih =>
    intro m s x hs hb
    rcases builtin_spec o (hb o (List.mem_cons_self _ _)) with ⟨ps, ln, off, d, ho⟩
    have h1 := ho m s x hs
    have h2 : (m ++ [(⟨ps, ln, off, d, x.scrolled ++ x.scrolled, x.editor, x.ctrl⟩ : Scroller)])[m.length]?
        = some ⟨ps, ln, off, d, x.scrolled ++ x.scrolled, x.editor, x.ctrl⟩ := by simp
    rcases ih _ _ _ h2 (fun o2 h => hb o2 (List.mem_cons_of_mem _ h)) with
      ⟨ext, r, y, h3, h4, h5, h6, h7, h8⟩
    refine ⟨(⟨ps, ln, off, d, x.scrolled ++ x.scrolled, x.editor, x.ctrl⟩ : Scroller) :: ext,
      r, y, ?_, ?_, by simp [h5], h6, h7, ?_⟩
    · simp only [For, h1, h3]
      simp
    · simpa using h4
    · rw [h8]
      simp only [List.length_append, List.length_cons, pow_succ]
      ring

theorem get_append_left_some {m : Mem} {p : Nat} {z : Scroller} (ext : Mem)
    (hp : m[p]? = some z) : (m ++ ext)[p]? = some z := by
  have hlt : p < m.length := by
    rcases Nat.lt_or_ge p m.length with h | h
    · exact h
    · rw [List.getElem?_eq_none h] at hp; cases hp
  rw [List.getElem?_append_left hlt]
  exact hp

/-- The method `Bind` on a `b` that implements `ScrolledHook`: the clone is returned with `b`
appended to the doubled list. -/
theorem Bind_hook (m : Mem) (s : Nat) (x : Scroller) (b : Bindable) (hs : m[s]? = some x)
    (hb : b.scrolledHook = true) :
    Bind m s b =
      some (m ++ [{ x with scrolled := x.scrolled ++ x.scrolled ++ [b] }],
        ⟨some m.length, none⟩) := by
  simp [Bind, clone_spec m s x hs, hb, Mem.update_new]

theorem Bind_other (m : Mem) (s : Nat) (x : Scroller) (b : Bindable) (hs : m[s]? = some x)
    (hb : b.scrolledHook = false) :
    Bind m s b =
      some (m ++ [{ x with scrolled := x.scrolled ++ x.scrolled }],
        ⟨none, some ("hook " ++ b.name ++ " does not implement ScrolledHook")⟩) := by
  simp [Bind, clone_spec m s x hs, hb]

/-- C14 (the code does not do this): for a `b` that implements `ScrolledHook`, `Bind` returns a
nil error and a new struct whose `pos`, `line`, `offset`, `dir`, `editor` and `ctrl` are those
of `s`, and leaves `s` as it was; but the hook list of the result is the list of `s` twice,
followed by `b`, of length `2 * len(s.scrolled) + 1`: it is the list of `s` followed by `b` only
when `s` has no hook bound.  For a `b` that does not implement `ScrolledHook`, `Bind` returns a
nil op and the error of line 131. -/
theorem C14_Bind_doubles_the_hook_list (m : Mem) (s : Nat) (x : Scroller) (b : Bindable)
    (hs : m[s]? = some x) :
    (b.scrolledHook = true →
      ∃ m2 r y, Bind m s b = some (m2, ⟨some r, none⟩) ∧ m2[r]? = some y ∧ m2[s]? = some x ∧
        (∀ (p : Nat) (z : Scroller), m[p]? = some z → m2[p]? = some z) ∧
        y.pos = x.pos ∧ y.line = x.line ∧ y.offset = x.offset ∧ y.dir = x.dir ∧
        y.editor = x.editor ∧ y.ctrl = x.ctrl ∧
        y.scrolled = x.scrolled ++ x.scrolled ++ [b] ∧
        y.scrolled.length = 2 * x.scrolled.length + 1 ∧
        (y.scrolled = x.scrolled ++ [b] ↔ x.scrolled = [])) ∧
      (b.scrolledHook = false →
        ∃ m2, Bind m s b =
            some (m2, ⟨none, some ("hook " ++ b.name ++ " does not implement ScrolledHook")⟩) ∧
          m2[s]? = some x) := by
  constructor
  · intro hb
    refine ⟨_, m.length, { x with scrolled := x.scrolled ++ x.scrolled ++ [b] },
      Bind_hook m s x b hs hb, by simp, get_append_left_some _ hs,
      fun p z hp => get_append_left_some _ hp, rfl, rfl, rfl, rfl, rfl, rfl, rfl, ?_, ?_⟩
    · simp only [List.length_append, List.length_singleton]
      omega
    · constructor
      · intro h
        have h2 := congrArg List.length h
        simp only [List.length_append, List.length_singleton] at h2
        exact List.length_eq_zero.1 (by omega)
      · intro h
        simp [h]
  · intro hb
    exact ⟨_, Bind_other m s x b hs hb, get_append_left_some _ hs⟩

/-- The `Scroller` `stored` has `hookA` bound; binding `hookB` returns a struct with the three
hooks `hookA`, `hookA`, `hookB`, and binding `plainC` returns the error. -/
theorem C14_witness :
    [stored][0]? = some stored ∧
      (∃ m2 r y, Bind [stored] 0 hookB = some (m2, ⟨some r, none⟩) ∧ m2[r]? = some y ∧
        y.scrolled = [hookA, hookA, hookB] ∧ y.scrolled.length = 3) ∧
      ∃ m2, Bind [stored] 0 plainC =
        some (m2, ⟨none, some "hook c does not implement ScrolledHook"⟩) :=
  ⟨rfl,
    ((C14_Bind_doubles_the_hook_list [stored] 0 stored hookB rfl).1 rfl).imp
      (fun _ h => h.imp (fun _ h => h.imp (fun _ h =>
        ⟨h.1, h.2.1, h.2.2.2.2.2.2.2.2.2.2.1, h.2.2.2.2.2.2.2.2.2.2.2.1⟩))),
    ((C14_Bind_doubles_the_hook_list [stored] 0 stored plainC rfl).2 rfl).imp
      (fun _ h => h.1)⟩

theorem Exec_at (m : Mem) (s : Nat) (x : Scroller) (hs : m[s]? = some x) :
    Exec m s = x.Exec := by
  simp [Exec, hs]

theorem wrapInt_eq (x : Int) (h1 : -(2 : Int) ^ (intSize - 1) ≤ x)
    (h2 : x < (2 : Int) ^ (intSize - 1)) : wrapInt x = x := by
  unfold wrapInt
  simp only [intSize] at h1 h2 ⊢
  norm_num at h1 h2 ⊢
  omega

theorem Max_nonneg (a : Int) : 0 ≤ Max a 0 := by
  unfold Max
  split <;> omega

theorem Max_eq_max (a b : Int) : Max a b = max a b := by
  unfold Max
  split <;> omega

theorem For_one (o : Opt) (m : Mem) (s : Nat) : For m s [o] =
    match o m s with
    | none => none
    | some c => some (c.1, c.2) := by
  simp only [For]

theorem Exec_new (m : Mem) (y : Scroller) : Exec (m ++ [y]) m.length = y.Exec := by
  simp [Exec]

/-- C15: for a `Scroller` with a controller stored, `For` with one option returns, and `Exec` on
the result returns nil after exactly these calls: for `ToLine(n)` with `n >= 0`, `ScrollToLine(n)`
alone; for `ToRune(p, dir)` with `p >= 0` and `dir` not `Up` (`NoDirection` is such),
`ScrollToRune(p)` alone; for `ToRune(p, Up)` with `p >= 0`, `ScrollToRune(p)`, the query
`LineIndex(p)` and then `ScrollToLine` of the larger of `LineIndex(p) - 3` and 0, which is not
negative and, when the subtraction does not wrap around, is the exact maximum; for
`ToOldOffset()`, the query `StartOffset()` and `SetScrollOffset` of its answer. -/
theorem C15_Exec_makes_the_calls_of_the_option (m : Mem) (s : Nat) (x : Scroller)
    (c : Controller) (hs : m[s]? = some x) (hc : x.ctrl = some c) :
    (∀ n : Int, 0 ≤ n → ∃ m2 r, For m s [ToLine n] = some (m2, r) ∧
        Exec m2 r = ([CtrlCall.ScrollToLine n], Ended.returned none)) ∧
      (∀ (p : Int) (d : Direction), 0 ≤ p → d ≠ Up →
        ∃ m2 r, For m s [ToRune p d] = some (m2, r) ∧
          Exec m2 r = ([CtrlCall.ScrollToRune p], Ended.returned none)) ∧
      NoDirection ≠ Up ∧
      (∀ p : Int, 0 ≤ p → ∃ m2 r, For m s [ToRune p Up] = some (m2, r) ∧
        Exec m2 r = ([CtrlCall.ScrollToRune p, CtrlCall.LineIndex p,
            CtrlCall.ScrollToLine (Max (wrapInt (c.LineIndex p - 3)) 0)],
          Ended.returned none) ∧
        scrolls (Exec m2 r).1 = [CtrlCall.ScrollToRune p,
            CtrlCall.ScrollToLine (Max (wrapInt (c.LineIndex p - 3)) 0)] ∧
        0 ≤ Max (wrapInt (c.LineIndex p - 3)) 0 ∧
        (-(2 : Int) ^ (intSize - 1) + 3 ≤ c.LineIndex p →
          c.LineIndex p < (2 : Int) ^ (intSize - 1) →
            Max (wrapInt (c.LineIndex p - 3)) 0 = max (c.LineIndex p - 3) 0)) ∧
      (∃ m2 r, For m s [ToOldOffset] = some (m2, r) ∧
        Exec m2 r = ([CtrlCall.StartOffset, CtrlCall.SetScrollOffset c.StartOffset],
          Ended.returned none) ∧
        scrolls (Exec m2 r).1 = [CtrlCall.SetScrollOffset c.StartOffset]) := by
  refine ⟨?_, ?_, by decide, ?_, ?_⟩
  · intro n hn
    refine ⟨_, _, by rw [For_one, ToLine_spec n m s x hs], ?_⟩
    rw [Exec_new]
    simp [Scroller.Exec, hn, hc]
  · intro p d hp hd
    refine ⟨_, _, by rw [For_one, ToRune_spec p d m s x hs], ?_⟩
    rw [Exec_new]
    simp [Scroller.Exec, hp, hc, hd]
  · intro p hp
    have he : Exec (m ++ [⟨p, -1, false, Up, x.scrolled ++ x.scrolled, x.editor, x.ctrl⟩])
        m.length = ([CtrlCall.ScrollToRune p, CtrlCall.LineIndex p,
            CtrlCall.ScrollToLine (Max (wrapInt (c.LineIndex p - 3)) 0)],
          Ended.returned none) := by
      rw [Exec_new]
      simp [Scroller.Exec, hp, hc]
    refine ⟨_, _, by rw [For_one, ToRune_spec p Up m s x hs], he, ?_, Max_nonneg _, ?_⟩
    · rw [he]; rfl
    · intro h1 h2
      rw [wrapInt_eq _ (by omega) (by omega), Max_eq_max]
  · have he : Exec (m ++ [⟨-1, -1, true, NoDirection, x.scrolled ++ x.scrolled, x.editor,
        x.ctrl⟩]) m.length =
          ([CtrlCall.StartOffset, CtrlCall.SetScrollOffset c.StartOffset],
            Ended.returned none) := by
      rw [Exec_new]
      simp [Scroller.Exec, hc]
    refine ⟨_, _, by rw [For_one, ToOldOffset_spec m s x hs], he, ?_⟩
    rw [he]; rfl

/-- On the `Scroller` `stored`, whose controller has lines of ten runes: `ToLine(5)` scrolls to
line 5; `ToRune(25, NoDirection)` scrolls to rune 25; `ToRune(45, Up)` scrolls to rune 45 and then
to line 1; `ToOldOffset()` sets the offset 40. -/
theorem C15_witness :
    [stored][0]? = some stored ∧ stored.ctrl = some tenPerLine ∧
      (∃ m2 r, For [stored] 0 [ToLine 5] = some (m2, r) ∧
        Exec m2 r = ([CtrlCall.ScrollToLine 5], Ended.returned none)) ∧
      (∃ m2 r, For [stored] 0 [ToRune 25 NoDirection] = some (m2, r) ∧
        Exec m2 r = ([CtrlCall.ScrollToRune 25], Ended.returned none)) ∧
      (∃ m2 r, For [stored] 0 [ToRune 45 Up] = some (m2, r) ∧
        scrolls (Exec m2 r).1 = [CtrlCall.ScrollToRune 45,
          CtrlCall.ScrollToLine (Max (wrapInt (tenPerLine.LineIndex 45 - 3)) 0)]) ∧
      Max (wrapInt (tenPerLine.LineIndex 45 - 3)) 0 = 1 ∧
      ∃ m2 r, For [stored] 0 [ToOldOffset] = some (m2, r) ∧
        scrolls (Exec m2 r).1 = [CtrlCall.SetScrollOffset 40] :=
  ⟨rfl, rfl,
    (C15_Exec_makes_the_calls_of_the_option [stored] 0 stored tenPerLine rfl rfl).1 5
      (by decide),
    (C15_Exec_makes_the_calls_of_the_option [stored] 0 stored tenPerLine rfl rfl).2.1 25
      NoDirection (by decide) (by decide),
    ((C15_Exec_makes_the_calls_of_the_option [stored] 0 stored tenPerLine rfl rfl).2.2.2.1 45
      (by decide)).imp (fun _ h => h.imp (fun _ h => ⟨h.1, h.2.2.1⟩)),
    by decide,
    ((C15_Exec_makes_the_calls_of_the_option [stored] 0 stored tenPerLine rfl rfl).2.2.2.2).imp
      (fun _ h => h.imp (fun _ h => ⟨h.1, h.2.2⟩))⟩

theorem applyAll_none (opts : List Opt) :
    opts.foldl (fun acc o => match acc with
      | none => none
      | some c => o c.1 c.2) (none : Option (Mem × Nat)) = none := by
  induction opts with
  | nil => rfl
  | cons o opts ih => simpa using ih

theorem For_eq_applyAll (opts : List Opt) :
    ∀ (m : Mem) (s : Nat), For m s opts = applyAll opts m s := by
  induction opts with
  | nil => intro m s; rfl
  | cons o opts ih =>
    intro m s
    simp only [For, applyAll, List.foldl_cons]
    cases h : o m s with
    | none => exact (applyAll_none opts).symm
    | some c => exact ih c.1 c.2

/-- C16 (counterexample): `For` applies whatever function it is handed.  With the option
`resetting`, which calls the exported `Reset` on its argument and returns it, `For` returns `s`
itself with `editor` and `ctrl` set to nil: two fields of `s` have changed. -/
theorem C16_For_with_a_foreign_option_changes_s :
    [stored][0]? = some stored ∧ stored.editor = some 7 ∧
      (∃ m2, For [stored] 0 [resetting] = some (m2, 0) ∧
        (∃ y, m2[0]? = some y ∧ y.editor = none ∧ y.ctrl.isNone = true) ∧
        m2[0]? ≠ some stored) := by
  refine ⟨rfl, rfl, Reset [stored] 0, rfl, ⟨_, rfl, rfl, rfl⟩, ?_⟩
  intro h
  have h2 := congrArg (fun o => o.map (fun x => x.editor)) h
  revert h2
  decide

/-- C16 (amended): for options built by `ToLine`, `ToRune` and `ToOldOffset`, `For` returns what
applying the options one after the other returns; every struct there was, `s` among them, is as
it was; with no option the result is `s` itself, and otherwise it is a struct allocated by the
last option; the result has the `editor` and the `ctrl` of `s`; a list `a ++ b` is `a` applied to
`s` and then `b` applied to the result; and the `line`, `pos`, `offset` and `dir` of the result
are those the last option sets, which are those of the result of `For` with the last option
alone. -/
theorem C16_For_keeps_s_and_the_last_option_decides (m : Mem) (s : Nat) (x : Scroller)
    (opts : List Opt) (hs : m[s]? = some x) (hb : ∀ o ∈ opts, Builtin o) :
    ∃ m2 r y, For m s opts = some (m2, r) ∧ applyAll opts m s = some (m2, r) ∧
      m2[r]? = some y ∧ m2[s]? = some x ∧
      (∀ (p : Nat) (z : Scroller), m[p]? = some z → m2[p]? = some z) ∧
      m2.length = m.length + opts.length ∧
      y.editor = x.editor ∧ y.ctrl = x.ctrl ∧
      (opts = [] → m2 = m ∧ r = s) ∧
      (opts ≠ [] → r + 1 = m2.length) ∧
      (∀ a b, opts = a ++ b →
        ∃ m1 r1, For m s a = some (m1, r1) ∧ For m1 r1 b = some (m2, r)) ∧
      (∀ last, opts.getLast? = some last →
        (∀ line, last = ToLine line →
          y.line = line ∧ y.pos = -1 ∧ y.offset = false ∧ y.dir = NoDirection) ∧
        (∀ pos dir, last = ToRune pos dir →
          y.line = -1 ∧ y.pos = pos ∧ y.offset = false ∧ y.dir = dir) ∧
        (last = ToOldOffset →
          y.line = -1 ∧ y.pos = -1 ∧ y.offset = true ∧ y.dir = NoDirection) ∧
        ∃ m3 r3 z, For m s [last] = some (m3, r3) ∧ m3[r3]? = some z ∧
          y.line = z.line ∧ y.pos = z.pos ∧ y.offset = z.offset ∧ y.dir = z.dir ∧
          y.editor = z.editor ∧ y.ctrl = z.ctrl) := by
  rcases For_spec opts m s x hs hb with ⟨ext, r, y, hfor, hget, hlen, hed, hct, _⟩
  refine ⟨m ++ ext, r, y, hfor, (For_eq_applyAll opts m s).symm.trans hfor, hget,
    get_append_left_some _ hs, fun p z hp => get_append_left_some _ hp,
    by rw [List.length_append, hlen], hed, hct, ?_, ?_, ?_, ?_⟩
  · intro h0
    subst h0
    simp only [For, Option.some.injEq, Prod.mk.injEq] at hfor
    exact ⟨hfor.1.symm, hfor.2.symm⟩
  · intro hne
    rcases List.eq_nil_or_concat opts with h0 | ⟨ini, last, hini⟩
    · exact absurd h0 hne
    · subst hini
      rcases For_spec ini m s x hs (fun o h => hb o (by simp [h])) with
        ⟨ext1, r1, y1, h1, h1get, _⟩
      rcases builtin_spec last (hb last (by simp)) with ⟨ps, ln, off, d, hl⟩
      have h2 := For_append ini [last] m s
      rw [List.concat_eq_append] at hfor
      rw [h1, hfor] at h2
      simp only [For_one, hl _ _ _ h1get, Option.some.injEq, Prod.mk.injEq] at h2
      rw [h2.1, h2.2]
      simp only [List.length_append, List.length_singleton]
  · intro a b hab
    subst hab
    rcases For_spec a m s x hs (fun o h => hb o (List.mem_append_left _ h)) with
      ⟨ext1, r1, y1, h1, _⟩
    refine ⟨m ++ ext1, r1, h1, ?_⟩
    have h2 := For_append a b m s
    rw [h1] at h2
    exact h2.symm.trans hfor
  · intro last hlast
    rcases List.getLast?_eq_some_iff.1 hlast with ⟨ini, hini⟩
    subst hini
    rcases For_spec ini m s x hs (fun o h => hb o (List.mem_append_left _ h)) with
      ⟨ext1, r1, y1, h1, h1get, _, h1ed, h1ct, _⟩
    have h2 := For_append ini [last] m s
    rw [h1, hfor] at h2
    simp only [For_one] at h2
    have hy : ∀ w : Scroller, last (m ++ ext1) r1 =
        some (m ++ ext1 ++ [w], (m ++ ext1).length) → y = w := by
      intro w hw
      rw [hw] at h2
      simp only [Option.some.injEq, Prod.mk.injEq] at h2
      rw [h2.1, h2.2] at hget
      simp only [List.getElem?_concat_length, Option.some.injEq] at hget
      exact hget.symm
    refine ⟨?_, ?_, ?_, ?_⟩
    · intro line hline
      have := hy _ (by rw [hline]; exact ToLine_spec line _ _ _ h1get)
      subst this
      exact ⟨rfl, rfl, rfl, rfl⟩
    · intro pos dir hrune
      have := hy _ (by rw [hrune]; exact ToRune_spec pos dir _ _ _ h1get)
      subst this
      exact ⟨rfl, rfl, rfl, rfl⟩
    · intro hold
      have := hy _ (by rw [hold]; exact ToOldOffset_spec _ _ _ h1get)
      subst this
      exact ⟨rfl, rfl, rfl, rfl⟩
    · rcases builtin_spec last (hb last (by simp)) with ⟨ps, ln, off, d, hl⟩
      have := hy _ (hl _ _ _ h1get)
      subst this
      exact ⟨_, _, ⟨ps, ln, off, d, x.scrolled ++ x.scrolled, x.editor, x.ctrl⟩,
        by rw [For_one, hl m s x hs], by simp, rfl, rfl, rfl, rfl, h1ed, h1ct⟩

/-- On the `Scroller` `stored`, `For(ToLine(5), ToOldOffset(), ToRune(25, Up))` leaves `stored`
as it was and returns a new struct set to rune 25 and `Up`, with no line and no offset, as
`For(ToRune(25, Up))` does. -/
theorem C16_witness :
    [stored][0]? = some stored ∧
      (∀ o ∈ [ToLine 5, ToOldOffset, ToRune 25 Up], Builtin o) ∧
      ∃ m2 r y, For [stored] 0 [ToLine 5, ToOldOffset, ToRune 25 Up] = some (m2, r) ∧
        m2[r]? = some y ∧ m2[0]? = some stored ∧ m2.length = 1 + 3 ∧ y.editor = some 7 ∧
        y.line = -1 ∧ y.pos = 25 ∧ y.offset = false ∧ y.dir = Up :=
  have hb : ∀ o ∈ [ToLine 5, ToOldOffset, ToRune 25 Up], Builtin o := by
    intro o ho
    simp only [List.mem_cons, List.mem_singleton, List.not_mem_nil, or_false] at ho
    rcases ho with rfl | rfl | rfl
    · exact Or.inl ⟨5, rfl⟩
    · exact Or.inr (Or.inr rfl)
    · exact Or.inr (Or.inl ⟨25, Up, rfl⟩)
  ⟨rfl, hb,
    (C16_For_keeps_s_and_the_last_option_decides [stored] 0 stored
      [ToLine 5, ToOldOffset, ToRune 25 Up] rfl hb).imp
      (fun _ h => h.imp (fun _ h => h.imp (fun _ h =>
        ⟨h.1, h.2.2.1, h.2.2.2.1, h.2.2.2.2.2.1, h.2.2.2.2.2.2.1,
          ((h.2.2.2.2.2.2.2.2.2.2.2 (ToRune 25 Up) rfl).2.1 25 Up rfl)⟩)))⟩

/-- C18 (counterexample): a `Scroller` set to line 0 that has stored no controller carries
position information, and `Exec` on it neither returns nil nor returns at all: the method call
on the nil `ctrl` panics. -/
theorem C18_Exec_panics_without_a_controller :
    lineNoCtrl.line = 0 ∧ lineNoCtrl.Exec = ([], Ended.panicked) ∧
      Exec [lineNoCtrl] 0 = ([], Ended.panicked) ∧
      (Exec [lineNoCtrl] 0).2 ≠ Ended.returned none := by
  refine ⟨rfl, rfl, rfl, ?_⟩
  decide

/-- C18 (amended): `Exec` returns the error "scroll executed without any position information
set" if and only if `line < 0`, `pos < 0` and `offset` is false, and then it makes no call on the
controller, stored or not.  In every other case, on a `Scroller` with a controller stored, it
returns nil: with `line >= 0` it calls `ScrollToLine(line)` and nothing else, whatever `pos` and
`offset` are; otherwise with `pos >= 0` it calls `ScrollToRune(pos)` first and makes no call about
the offset; otherwise it sets the offset.  In every other case on a `Scroller` without a
controller it panics. -/
theorem C18_Exec_error_iff_no_position (x : Scroller) :
    (x.Exec.2 = Ended.returned (some "scroll executed without any position information set") ↔
        x.line < 0 ∧ x.pos < 0 ∧ x.offset = false) ∧
      (x.line < 0 ∧ x.pos < 0 ∧ x.offset = false → x.Exec.1 = []) ∧
      (∀ c, x.ctrl = some c → ¬ (x.line < 0 ∧ x.pos < 0 ∧ x.offset = false) →
        x.Exec.2 = Ended.returned none) ∧
      (∀ c, x.ctrl = some c → 0 ≤ x.line →
        x.Exec = ([CtrlCall.ScrollToLine x.line], Ended.returned none)) ∧
      (∀ c, x.ctrl = some c → x.line < 0 → 0 ≤ x.pos →
        x.Exec = (CtrlCall.ScrollToRune x.pos ::
          (if x.dir = Up then [CtrlCall.LineIndex x.pos,
            CtrlCall.ScrollToLine (Max (wrapInt (c.LineIndex x.pos - 3)) 0)] else []),
          Ended.returned none)) ∧
      (∀ c, x.ctrl = some c → x.line < 0 → x.pos < 0 → x.offset = true →
        x.Exec = ([CtrlCall.StartOffset, CtrlCall.SetScrollOffset c.StartOffset],
          Ended.returned none)) ∧
      (x.ctrl = none → ¬ (x.line < 0 ∧ x.pos < 0 ∧ x.offset = false) →
        x.Exec = ([], Ended.panicked)) := by
  rcases x with ⟨pos, line, offset, dir, scrolled, editor, ctrl⟩
  simp only [Scroller.Exec]
  refine ⟨?_, ?_, ?_, ?_, ?_, ?_, ?_⟩
  · by_cases h1 : line ≥ 0
    · cases ctrl <;> simp [h1]
    · by_cases h2 : pos ≥ 0
      · cases ctrl with
        | none => simp [h1, h2]
        | some c => by_cases h3 : dir = Up <;> simp [h1, h2, h3]
      · cases offset <;> cases ctrl <;> simp [h1, h2] <;> omega
  · rintro ⟨h1, h2, h3⟩
    simp [Int.not_le.2 h1, Int.not_le.2 h2, h3]
  · intro c hc hn
    subst hc
    by_cases h1 : line ≥ 0
    · simp [h1]
    · by_cases h2 : pos ≥ 0
      · by_cases h3 : dir = Up <;> simp [h1, h2, h3]
      · cases offset
        · exact absurd ⟨by omega, by omega, rfl⟩ hn
        · simp [h1, h2]
  · intro c hc h1
    subst hc
    simp [h1]
  · intro c hc h1 h2
    subst hc
    by_cases h3 : dir = Up <;> simp [Int.not_le.2 h1, h2, h3]
  · intro c hc h1 h2 h3
    subst hc
    simp [Int.not_le.2 h1, Int.not_le.2 h2, h3]
  · intro hc hn
    subst hc
    by_cases h1 : line ≥ 0
    · simp [h1]
    · by_cases h2 : pos ≥ 0
      · simp [h1, h2]
      · cases offset
        · exact absurd ⟨by omega, by omega, rfl⟩ hn
        · simp [h1, h2]

end scroll
